import Mathlib

/-! # n88util: tuplet, const_array, the tuplet stream operators and the utilities

A shallow embedding of `include/n88util/tuplet.hpp`,
`include/n88util/const_array.hpp`, `include/n88util/arraymath.hpp`,
`include/n88util/floating_point_comparisons.hpp`, `source/binhex.cpp`,
`source/text.cpp` and `source/TrackingAllocator.cpp`.

Conventions of the embedding.

* `size_t` is a natural number below `2 ^ 64`; every `size_t` operation of the
  source is followed here by `% 2 ^ 64`.
* `tuplet<N,T>` is a function `Fin N → T`; the rank `N` is at least one
  (`NeZero N`) wherever the source reads element 0.
* A pointer `const TValue*` is a natural number counted in elements of `TValue`
  (pointer arithmetic of the source is in elements); `NULL` is 0.
* `RANGE_CHECKING` is the boolean parameter `rc` of the functions that test it.
* An exception thrown by `throw_n88_exception` is the `error` branch of `Except`.
* `std::istream` over a string is the structure `istream`: the characters
  already extracted (most recent first), the characters still to come, and the
  three state bits. Its member functions follow the C++ standard library
  (C++11): `get()` at the end of the input sets `failbit` and `eofbit`,
  `peek()` there sets `eofbit` only, the extraction of an `int` sets `eofbit`
  when its digits end the input.
* `return s;` inside `operator>>` is the constructor `Flow.returned`; a failed
  `n88_assert` is the `error` branch of `Except`.
* A member function that modifies its object (`construct_reference`,
  `destruct`) returns the object after the call, next to the outcome of the
  call when it can throw.
* A local `tuplet<N,T> x;` declared without initialisation is an argument of
  the function: its content is indeterminate.
* The overloads of a function template for `tuplet<1,T>`, `tuplet<2,T>` and
  `tuplet<3,T>` are in the namespaces `rank1`, `rank2` and `rank3`.
* A C string is the list of its characters before the terminator; a buffer of
  `unsigned char` is a function from positions to bytes, each read modulo 256.
  A pointer result that can be `NULL` is an `Option`; whether `malloc` succeeds
  is the boolean parameter `malloc_ok`.
* `boost::char_separator`, `boost::tokenizer` and `boost::algorithm::trim_copy`
  follow the Boost library: the tokenizer function is the structure
  `char_separator` with its member `m_output_done`, and the loop over the
  tokens carries fuel that the theorems show to be enough.
* array.hpp is not among the sources: what is said of the owning array is
  modelled from the specification and from the tests of the repository, each
  definition saying so; `new` takes its storage from the structure `heap`,
  and whether it succeeds is the boolean parameter `new_ok`. The functions of
  arraymath.hpp take the pointers that `A.data()` and `A.end()` return, and the
  memory they point into; a pointer loop carries fuel, `none` standing for a
  loop that has not ended.
* A `float` is its 32-bit pattern; the arithmetic of `int` is modulo `2 ^ 32`.
* The thread-specific pointer `allocated` of `TrackingAllocator` is an `Option`;
  a dereferenced null pointer is the `error` branch of `Except`.
-/

namespace n88

/-! ## size_t and tuplet -/

/-- The number of values of `size_t`. -/
def SIZE_MOD : Nat := 2 ^ 64

/-- Conversion `static_cast<size_t>(x)` of an unsigned value. -/
def to_size_t (x : Nat) : Nat := x % SIZE_MOD

/-- The class template `tuplet<N,T>`: `N` values of type `T`, read by `t[i]`. -/
abbrev tuplet (N : Nat) (T : Type) := Fin N → T

/-- The static factory `tuplet<N,T>::zeros()`. -/
def tuplet.zeros (N : Nat) : tuplet N Nat := fun _ => 0

/-- The loop `for (i = 1; i < N; ++i)`: the indices it visits, in order. -/
def indices_from_one (N : Nat) : List (Fin N) := (List.finRange N).drop 1

/-- Function `long_product` of tuplet.hpp (lines 376-381) for elements of type
`size_t`: `size_t p = x[0]; for (size_t i=1; i<N; ++i) {p *= x[i];} return p;`. -/
def long_product {N : Nat} [NeZero N] (x : tuplet N Nat) : Nat :=
  (indices_from_one N).foldl (fun p i => (p * to_size_t (x i)) % SIZE_MOD) (to_size_t (x 0))

/-! ## const_array_base -/

/-- The exception raised by `throw_n88_exception(msg)`. -/
def throw_n88_exception {α : Type} (msg : String) : Except String α := Except.error msg

/-- The data members of `const_array_base<N,TValue,TIndex>` with the default
`TIndex = size_t` (const_array.hpp lines 26-34). -/
structure const_array_base (N : Nat) where
  m_base : Nat
  m_size : Nat
  m_end : Nat
  m_dims : tuplet N Nat

/-- Modelled from the spec: the class `array_base` of array.hpp, which is not
among the sources. The spec gives the owning array the attributes dims, size
and an owned buffer, and says the view's contract mirrors the array's read
surface exactly (`data()`, `end()`, `size()`, `dims()`). -/
structure array_base (N : Nat) where
  m_base : Nat
  m_size : Nat
  m_end : Nat
  m_dims : tuplet N Nat

namespace array_base

variable {N : Nat}

/-- Modelled from the spec: `array_base::data()`, pointer to the first element;
use before construction is signalled in the range-checking build. -/
def data (rc : Bool) (a : array_base N) : Except String Nat :=
  if rc && a.m_base == 0 then throw_n88_exception "array is not constructed."
  else Except.ok a.m_base

/-- Modelled from the spec: `array_base::end()`, pointer one past the last
element. -/
def end_ (rc : Bool) (a : array_base N) : Except String Nat :=
  if rc && a.m_base == 0 then throw_n88_exception "array is not constructed."
  else Except.ok a.m_end

/-- Modelled from the spec: `array_base::size()`. -/
def size (a : array_base N) : Nat := a.m_size

/-- Modelled from the spec: `array_base::dims()`. -/
def dims (a : array_base N) : tuplet N Nat := a.m_dims

/-- Modelled from the spec: flat `operator[]` of the owning array; the reference
it returns is the address of the element. -/
def operator_index (rc : Bool) (a : array_base N) (i : Nat) : Except String Nat :=
  if rc && a.m_base == 0 then throw_n88_exception "array is not constructed."
  else if rc && decide (a.m_size ≤ i) then throw_n88_exception "array index out of bounds."
  else Except.ok (a.m_base + i)

end array_base

namespace const_array_base

variable {N : Nat}

/-- The empty constructor (lines 45-51). -/
def empty (N : Nat) : const_array_base N :=
  { m_base := 0, m_size := 0, m_end := 0, m_dims := tuplet.zeros N }

/-- Constructor from a pointer and dimensions (lines 61-67). -/
def of_pointer [NeZero N] (data : Nat) (dims : tuplet N Nat) : const_array_base N :=
  { m_base := data, m_size := long_product dims, m_end := data + long_product dims,
    m_dims := dims }

/-- Member `is_constructed()` (lines 146-147). -/
def is_constructed (a : const_array_base N) : Bool := a.m_base != 0

/-- Member `size()` (lines 150-151). -/
def size (a : const_array_base N) : Nat := a.m_size

/-- Member `dims()` (lines 154-155). -/
def dims (a : const_array_base N) : tuplet N Nat := a.m_dims

/-- Member `data()` (lines 158-165). -/
def data (rc : Bool) (a : const_array_base N) : Except String Nat :=
  if rc && a.m_base == 0 then throw_n88_exception "const_array is not constructed."
  else Except.ok a.m_base

/-- Member `end()` (lines 193-200). -/
def end_ (rc : Bool) (a : const_array_base N) : Except String Nat :=
  if rc && a.m_base == 0 then throw_n88_exception "const_array is not constructed."
  else Except.ok a.m_end

/-- Constructor from an existing const_array (lines 76-82): the member
initialisers call `source.data()`, `source.size()`, `source.end()` and
`source.dims()` in this order. -/
def of_const_array (rc : Bool) (source : const_array_base N) :
    Except String (const_array_base N) :=
  match source.data rc with
  | Except.error e => Except.error e
  | Except.ok b =>
    match source.end_ rc with
    | Except.error e => Except.error e
    | Except.ok e =>
      Except.ok { m_base := b, m_size := source.size, m_end := e, m_dims := source.dims }

/-- Constructor from an existing array (lines 91-97). -/
def of_array (rc : Bool) (source : array_base N) : Except String (const_array_base N) :=
  match source.data rc with
  | Except.error e => Except.error e
  | Except.ok b =>
    match source.end_ rc with
    | Except.error e => Except.error e
    | Except.ok e =>
      Except.ok { m_base := b, m_size := source.size, m_end := e, m_dims := source.dims }

/-- Member `flat_index(tuplet<N,TIndex> indices)` of the base class
(lines 203-211):
`size_t index = indices[0];
 for (int i=1; i<N; i++) index = index*size_t(m_dims[i]) + size_t(indices[i]);`. -/
def flat_index [NeZero N] (a : const_array_base N) (indices : tuplet N Nat) : Nat :=
  (indices_from_one N).foldl
    (fun index i => (index * to_size_t (a.m_dims i) + to_size_t (indices i)) % SIZE_MOD)
    (to_size_t (indices 0))

/-- Flat indexing `operator[](size_t i)` (lines 214-223); the reference returned
is the address `m_base + i` of the element. -/
def operator_index (rc : Bool) (a : const_array_base N) (i : Nat) : Except String Nat :=
  if rc && a.m_base == 0 then throw_n88_exception "const_array is not constructed."
  else if rc && decide (a.m_size ≤ i) then
    throw_n88_exception "const_array index out of bounds."
  else Except.ok (a.m_base + i)

/-- Indexing by an N-dimensional tuple, `operator()(tuplet<N,TIndex>)`
(lines 226-227). -/
def operator_call [NeZero N] (rc : Bool) (a : const_array_base N) (indices : tuplet N Nat) :
    Except String Nat :=
  a.operator_index rc (a.flat_index indices)

end const_array_base

/-! ## The rank-2 and rank-3 specialisations of const_array -/

namespace const_array2

/-- Member `const_array<2>::flat_index(TIndex i, TIndex j)` (lines 346-350). -/
def flat_index (a : const_array_base 2) (i j : Nat) : Nat :=
  (to_size_t i * to_size_t (a.m_dims 1) + to_size_t j) % SIZE_MOD

/-- Member `const_array<2>::flat_index(tuplet<2,TIndex>)` (lines 352-356). -/
def flat_index_tuplet (a : const_array_base 2) (indices : tuplet 2 Nat) : Nat :=
  (to_size_t (indices 0) * to_size_t (a.m_dims 1) + to_size_t (indices 1)) % SIZE_MOD

/-- Member `const_array<2>::operator()(TIndex i, TIndex j)` (lines 358-359). -/
def operator_call (rc : Bool) (a : const_array_base 2) (i j : Nat) : Except String Nat :=
  a.operator_index rc (flat_index a i j)

/-- Member `const_array<2>::operator()(tuplet<2,TIndex>)` (lines 361-362). -/
def operator_call_tuplet (rc : Bool) (a : const_array_base 2) (indices : tuplet 2 Nat) :
    Except String Nat :=
  a.operator_index rc (flat_index_tuplet a indices)

end const_array2

namespace const_array3

/-- Member `const_array<3>::flat_index(TIndex i, TIndex j, TIndex k)`
(lines 390-395). -/
def flat_index (a : const_array_base 3) (i j k : Nat) : Nat :=
  ((to_size_t i * to_size_t (a.m_dims 1) + to_size_t j) * to_size_t (a.m_dims 2)
    + to_size_t k) % SIZE_MOD

/-- Member `const_array<3>::flat_index(tuplet<3,TIndex>)` (lines 397-402). -/
def flat_index_tuplet (a : const_array_base 3) (indices : tuplet 3 Nat) : Nat :=
  ((to_size_t (indices 0) * to_size_t (a.m_dims 1) + to_size_t (indices 1))
      * to_size_t (a.m_dims 2)
    + to_size_t (indices 2)) % SIZE_MOD

/-- Member `const_array<3>::operator()(TIndex i, TIndex j, TIndex k)`
(lines 404-405). -/
def operator_call (rc : Bool) (a : const_array_base 3) (i j k : Nat) : Except String Nat :=
  a.operator_index rc (flat_index a i j k)

/-- Member `const_array<3>::operator()(tuplet<3,TIndex>)` (lines 407-408). -/
def operator_call_tuplet (rc : Bool) (a : const_array_base 3) (indices : tuplet 3 Nat) :
    Except String Nat :=
  a.operator_index rc (flat_index_tuplet a indices)

end const_array3

/-! ## The input stream -/

/-- A `std::istream` reading from a string buffer: `back` holds the characters
already extracted, the most recent first (the put-back area), `front` the
characters still to be extracted, and the three bits are `eofbit`, `failbit`
and `badbit` of `std::ios_base::iostate`. -/
structure istream where
  back : List Char
  front : List Char
  eofbit : Bool
  failbit : Bool
  badbit : Bool
deriving DecidableEq

namespace istream

/-- A stream over the text `text`, nothing read yet, all state bits clear
(a `std::stringstream` after `buffer << text`). -/
def of_text (text : List Char) : istream :=
  { back := [], front := text, eofbit := false, failbit := false, badbit := false }

/-- Member `good()`: no state bit is set. -/
def good (s : istream) : Bool := !s.eofbit && !s.failbit && !s.badbit

/-- Member `eof()`. -/
def eof (s : istream) : Bool := s.eofbit

/-- Member `fail()`: true when `failbit` or `badbit` is set. -/
def fail (s : istream) : Bool := s.failbit || s.badbit

/-- Member `bad()`. -/
def bad (s : istream) : Bool := s.badbit

/-- The call `setstate(std::ios::failbit)`. -/
def setstate_failbit (s : istream) : istream := { s with failbit := true }

/-- The value of `char c = s.get()` when `get()` returns `Traits::eof()`:
the conversion of -1 to `char`. -/
def eof_char : Char := Char.ofNat 255

/-- Member `get()`: an unformatted input function. When the stream is not good
the sentry sets `failbit`; when no character is available `failbit` and `eofbit`
are set; otherwise the next character is extracted. -/
def get (s : istream) : Char × istream :=
  if s.good then
    match s.front with
    | [] => (eof_char, { s with eofbit := true, failbit := true })
    | c :: cs => (c, { s with back := c :: s.back, front := cs })
  else (eof_char, { s with failbit := true })

/-- Member `unget()`: clears `eofbit`, then, when the stream is good, makes the
most recently extracted character available again (`badbit` when there is
none); when the stream is not good the sentry sets `failbit`. -/
def unget (s : istream) : istream :=
  if (!s.failbit && !s.badbit) then
    match s.back with
    | [] => { s with eofbit := false, badbit := true }
    | c :: cs => { s with eofbit := false, back := cs, front := c :: s.front }
  else { s with eofbit := false, failbit := true }

/-- Member `peek()`: reads the next character without extracting it; sets
`eofbit` when there is none, and `failbit` when the stream is not good. -/
def peek (s : istream) : istream :=
  if s.good then
    match s.front with
    | [] => { s with eofbit := true }
    | _ :: _ => s
  else { s with failbit := true }

/-- The function `isspace` of the classic locale. -/
def isspace (c : Char) : Bool :=
  c = ' ' || c = Char.ofNat 9 || c = Char.ofNat 10 || c = Char.ofNat 11 || c = Char.ofNat 12
    || c = Char.ofNat 13

/-- The number denoted by a sequence of decimal digits. -/
def digits_value (ds : List Char) : Nat :=
  ds.foldl (fun acc c => 10 * acc + (c.toNat - 48)) 0

/-- Largest value of `int`. -/
def INT_MAX : Int := 2147483647

/-- Smallest value of `int`. -/
def INT_MIN : Int := -2147483648

/-- The formatted extraction `s >> v` for `int v` (decimal base, classic
locale). The sentry sets `failbit` on a stream that is not good, skips white
space and sets `failbit` and `eofbit` when the input ends there; in both cases
`v` is untouched. Otherwise an optional sign and the longest run of decimal
digits are extracted; `eofbit` is set when the run ends with the input;
without a digit `failbit` is set and `v` becomes 0; a value outside the range
of `int` sets `failbit` and stores the nearest bound. -/
def read_int (s : istream) (v : Int) : istream × Int :=
  if s.good then
    let ws := s.front.takeWhile isspace
    match s.front.dropWhile isspace with
    | [] =>
      ({ s with back := ws.reverse ++ s.back, front := [], eofbit := true, failbit := true }, v)
    | c :: cs =>
      let signed := c = '-' || c = '+'
      let body := if signed then cs else c :: cs
      let sign := if signed then [c] else []
      let ds := body.takeWhile Char.isDigit
      let rest := body.dropWhile Char.isDigit
      let s1 : istream :=
        { s with back := ds.reverse ++ sign ++ ws.reverse ++ s.back, front := rest,
                 eofbit := rest.isEmpty }
      if ds.isEmpty then ({ s1 with failbit := true }, 0)
      else
        let x : Int := if c = '-' then - (digits_value ds : Int) else (digits_value ds : Int)
        if x < INT_MIN then ({ s1 with failbit := true }, INT_MIN)
        else if INT_MAX < x then ({ s1 with failbit := true }, INT_MAX)
        else (s1, x)
  else ({ s with failbit := true }, v)

end istream

/-- The formatted insertion `s << v` for `int v` on an output stream with the
default flags: the decimal digits, preceded by `-` for a negative value. The
output stream is the list of the characters written so far. -/
def write_int (s : List Char) (v : Int) : List Char :=
  s ++ (if v < 0 then '-' :: Nat.toDigits 10 v.natAbs else Nat.toDigits 10 v.natAbs)

/-! ## The stream operators of tuplet -/

/-- Modelled from the spec: the macro `n88_assert` of exception.hpp, which is
not among the sources; a violated precondition "fails an assertion", signalled
as a runtime diagnostic abort/exception. -/
def n88_assert (cond : Bool) (msg : String) : Except String Unit :=
  if cond then Except.ok () else Except.error msg

/-- Stream output operator of tuplet (tuplet.hpp lines 396-403):
`s << "[" << t[0]; for (int i=1; i<N; ++i) {s << "," << t[i];} s << "]";`,
with `write` the output operator of the element type. -/
def operator_lshift {N : Nat} [NeZero N] {T : Type} (write : List Char → T → List Char)
    (s : List Char) (t : tuplet N T) : List Char :=
  ((List.finRange N).drop 1).foldl (fun s i => write (s ++ [',']) (t i))
    (write (s ++ ['[']) (t 0)) ++ [']']

/-- The outcome of a piece of `operator>>` that may execute `return s;`:
either the function has returned with the stream `s`, or control goes on with
the local state `a`. -/
inductive Flow (α : Type) where
  | returned (s : istream) : Flow α
  | next (a : α) : Flow α

/-- Sequencing of two pieces of code: the second runs unless the first has
returned. -/
def Flow.bind {α β : Type} : Flow α → (α → Flow β) → Flow β
  | Flow.returned s, _ => Flow.returned s
  | Flow.next a, k => k a

/-- The test that follows a `get()` before and after the element loop
(lines 418-422, 427-431, 441-445, 449-453, 530-535):
`if (s.fail() || s.bad() || s.eof()) { s.setstate(std::ios::failbit); return s; }`. -/
def check_outside (c : Char) (s : istream) : Flow (Char × istream) :=
  if s.fail || s.bad || s.eof then Flow.returned s.setstate_failbit
  else Flow.next (c, s)

/-- The test that follows a `get()` inside the element loop (lines 473-480,
484-491, 498-505, 511-518):
`if (s.fail() || s.bad()) {return s;}
 if (s.eof()) { if (match_bracket || i != N-1) { s.setstate(std::ios::failbit); } return s; }`;
`more` is the value of `match_bracket || i != N-1`. -/
def check_inside (more : Bool) (c : Char) (s : istream) : Flow (Char × istream) :=
  if s.fail || s.bad then Flow.returned s
  else if s.eof then Flow.returned (if more then s.setstate_failbit else s)
  else Flow.next (c, s)

/-- The loop `while (c == ' ') { c = s.get(); check }` with at most `fuel`
iterations; `check` is the test that follows the `get()`. -/
def skip_spaces_fuel (check : Char → istream → Flow (Char × istream)) :
    Nat → Char → istream → Flow (Char × istream)
  | 0, c, s => Flow.next (c, s)
  | fuel + 1, c, s =>
    if c = ' ' then
      (check s.get.1 s.get.2).bind (fun p => skip_spaces_fuel check fuel p.1 p.2)
    else Flow.next (c, s)

/-- The loop `while (c == ' ') { c = s.get(); check }`. An iteration that does
not return has extracted a character, so one more iteration than there are
characters left is never exhausted (theorem `skip_spaces_unfold`). -/
def skip_spaces (check : Char → istream → Flow (Char × istream)) (c : Char) (s : istream) :
    Flow (Char × istream) :=
  skip_spaces_fuel check (s.front.length + 1) c s

/-- Lines 417-455 of `operator>>`: the first character, white space, the
optional opening bracket and the white space after it. Goes on with the current
character `c`, the stream and `match_bracket`. -/
def open_bracket (s : istream) : Flow (Char × istream × Char) :=
  (check_outside s.get.1 s.get.2).bind fun p =>
  -- Skip white space
  (skip_spaces check_outside p.1 p.2).bind fun p =>
  -- optional bracket
  let match_bracket : Char :=
    if p.1 = '[' then ']' else if p.1 = '(' then ')' else Char.ofNat 0
  if match_bracket != Char.ofNat 0 then
    -- Skip white space after bracket
    (check_outside p.2.get.1 p.2.get.2).bind fun q =>
    (skip_spaces check_outside q.1 q.2).bind fun q =>
    Flow.next (q.1, q.2, match_bracket)
  else Flow.next (p.1, p.2, match_bracket)

/-- Lines 471-519 of `operator>>`, the part of the loop body after the element
has been read: white space, the optional comma (taken when `i < N-1`, here
`comma`), white space again. -/
def skip_separator (more comma : Bool) (s : istream) : Flow (Char × istream) :=
  -- Skip white space
  (check_inside more s.get.1 s.get.2).bind fun p =>
  (skip_spaces (check_inside more) p.1 p.2).bind fun p =>
  -- Optional comma
  (if p.1 = ',' ∧ comma = true then check_inside more p.2.get.1 p.2.get.2
   else Flow.next p).bind fun p =>
  -- Skip white space again
  skip_spaces (check_inside more) p.1 p.2

/-- The element loop of `operator>>` (lines 458-521), over the indices still to
be visited; `read` is the input operator of the element type. The result is
`Except.error` when reading an element throws. -/
def element_loop {N : Nat} {T : Type} (read : istream → T → Except String (istream × T))
    (match_bracket : Char) :
    List (Fin N) → Char → istream → tuplet N T →
      Except String (Flow (Char × istream) × tuplet N T)
  | [], c, s, t => Except.ok (Flow.next (c, s), t)
  | i :: rest, _, s, t =>
    let more : Bool := match_bracket != Char.ofNat 0 || decide (i.val + 1 ≠ N)
    -- We have picked off one too many characters, so put it back
    match read s.unget (t i) with
    | Except.error e => Except.error e
    | Except.ok (s, v) =>
      let t := Function.update t i v
      if s.fail || s.bad then Except.ok (Flow.returned s, t)
      else if s.eof then Except.ok (Flow.returned (if more then s.setstate_failbit else s), t)
      else
        match skip_separator more (decide (i.val + 1 < N)) s with
        | Flow.returned s => Except.ok (Flow.returned s, t)
        | Flow.next p => element_loop read match_bracket rest p.1 p.2 t

/-- Lines 523-546 of `operator>>`: the assertion, white space, the closing
bracket and the final `peek()`. -/
def close_bracket (match_bracket c : Char) (s : istream) : Except String istream :=
  -- If we don't need to match the bracket, will have already returned.
  match n88_assert (match_bracket != Char.ofNat 0) "Assertion failure : match_bracket" with
  | Except.error e => Except.error e
  | Except.ok _ =>
    -- Skip white space
    match skip_spaces check_outside c s with
    | Flow.returned s => Except.ok s
    | Flow.next p =>
      Except.ok (if p.1 ≠ match_bracket then p.2.setstate_failbit else p.2).peek

/-- Stream input operator of tuplet (tuplet.hpp lines 414-547); `read` is the
input operator of the element type. The result is the stream and the tuplet
after the call, or `Except.error` when the call throws. -/
def operator_rshift {N : Nat} {T : Type} (read : istream → T → Except String (istream × T))
    (s : istream) (t : tuplet N T) : Except String (istream × tuplet N T) :=
  match open_bracket s with
  | Flow.returned s => Except.ok (s, t)
  | Flow.next (c, s, match_bracket) =>
    -- Loop over dimensions
    match element_loop read match_bracket (List.finRange N) c s t with
    | Except.error e => Except.error e
    | Except.ok (Flow.returned s, t) => Except.ok (s, t)
    | Except.ok (Flow.next p, t) =>
      match close_bracket match_bracket p.1 p.2 with
      | Except.error e => Except.error e
      | Except.ok s => Except.ok (s, t)

/-- The input operator of `int` as an element reader; it never throws. -/
def read_int (s : istream) (v : Int) : Except String (istream × Int) :=
  Except.ok (s.read_int v)

/-- The call `buffer >> a` for a `tuplet<N,int>` on a stream over `text`. -/
def parse_tuplet_int {N : Nat} (text : List Char) (t : tuplet N Int) :
    Except String (istream × tuplet N Int) :=
  operator_rshift read_int (istream.of_text text) t

/-! ## const_array_base: construct_reference, destruct and verify_data -/

/-- Conversion of a signed integer value to `size_t`. -/
def int_to_size_t (v : Int) : Nat := (v % (SIZE_MOD : Int)).toNat

namespace const_array_base

variable {N : Nat}

/-- Member `construct_reference(const TValue* data, tuplet<N,TIndex> dims)`
(lines 107-115). The result is the outcome of the call (an exception or a
normal return) and the object after the call. -/
def construct_reference [NeZero N] (self : const_array_base N) (data : Nat)
    (dims : tuplet N Nat) : Except String Unit × const_array_base N :=
  if self.m_base != 0 then
    (throw_n88_exception "const_array is already constructed.", self)
  else
    let a1 : const_array_base N := { self with m_base := data }
    let a2 : const_array_base N := { a1 with m_size := long_product dims }
    let a3 : const_array_base N := { a2 with m_end := a2.m_base + a2.m_size }
    (Except.ok (), { a3 with m_dims := dims })

/-- Member `construct_reference(const const_array_base& source)` (lines
124-125): `this->construct_reference (source.data(), source.dims());`. The
arguments are evaluated before the call, so an exception of `source.data()`
leaves the object untouched. -/
def construct_reference_const_array [NeZero N] (rc : Bool) (self source : const_array_base N) :
    Except String Unit × const_array_base N :=
  match source.data rc with
  | Except.error e => (Except.error e, self)
  | Except.ok d => self.construct_reference d source.dims

/-- Member `construct_reference(const array_base& source)` (lines 134-135). -/
def construct_reference_array [NeZero N] (rc : Bool) (self : const_array_base N)
    (source : array_base N) : Except String Unit × const_array_base N :=
  match source.data rc with
  | Except.error e => (Except.error e, self)
  | Except.ok d => self.construct_reference d source.dims

/-- Member `destruct()` (lines 137-143): the object after the call. -/
def destruct (self : const_array_base N) : const_array_base N :=
  let a1 : const_array_base N := { self with m_base := 0 }
  let a2 : const_array_base N := { a1 with m_size := 0 }
  let a3 : const_array_base N := { a2 with m_end := 0 }
  { a3 with m_dims := tuplet.zeros N }

/-- Member `verify_data(const TValue* p)` (lines 174-185); `sizeof_TValue` is
`sizeof(TValue)`. The difference `p - m_base` of two pointers to `TValue` is a
`ptrdiff_t` counted in elements; it is converted to `size_t` for the `%`. -/
def verify_data (rc : Bool) (sizeof_TValue : Nat) (a : const_array_base N) (p : Nat) :
    Except String Nat :=
  if rc then
    if a.m_base == 0 then throw_n88_exception "const_array is not constructed."
    else if decide (p < a.m_base) || decide (a.m_end ≤ p) then
      throw_n88_exception "const_array index out of bounds."
    else if int_to_size_t ((p : Int) - (a.m_base : Int)) % sizeof_TValue != 0 then
      throw_n88_exception "const_array pointer has incorrect offset."
    else Except.ok p
  else Except.ok p

/-- The states of a view that its constructors, `construct_reference` and
`destruct` can produce in the build mode `rc`, the sources of the copying
constructors being such states themselves (for an array: having
`size == long_product(dims)` and `end == data + size`). -/
inductive Reachable [NeZero N] (rc : Bool) : const_array_base N → Prop where
  | empty : Reachable rc (empty N)
  | of_pointer (data : Nat) (dims : tuplet N Nat) : Reachable rc (of_pointer data dims)
  | of_const_array (source v : const_array_base N) :
      Reachable rc source → of_const_array rc source = Except.ok v → Reachable rc v
  | of_array (source : array_base N) (v : const_array_base N) :
      source.m_size = long_product source.m_dims →
      source.m_end = source.m_base + source.m_size →
      of_array rc source = Except.ok v → Reachable rc v
  | construct_reference (self : const_array_base N) (data : Nat) (dims : tuplet N Nat) :
      Reachable rc self → Reachable rc (self.construct_reference data dims).2
  | construct_reference_const_array (self source : const_array_base N) :
      Reachable rc self → Reachable rc (self.construct_reference_const_array rc source).2
  | construct_reference_array (self : const_array_base N) (source : array_base N) :
      Reachable rc self → Reachable rc (self.construct_reference_array rc source).2
  | destruct (self : const_array_base N) : Reachable rc self → Reachable rc self.destruct

end const_array_base

/-! ## tuplet: construction, comparison, arithmetic and reductions -/

/-- Constructor `tuplet<1,T>(T x0)` (lines 220-223). -/
def tuplet1 {T : Type} (x0 : T) : tuplet 1 T := ![x0]

/-- Constructor `tuplet<2,T>(T x0, T x1)` (lines 255-259). -/
def tuplet2 {T : Type} (x0 x1 : T) : tuplet 2 T := ![x0, x1]

/-- Constructor `tuplet<3,T>(T x0, T x1, T x2)` (lines 291-296). -/
def tuplet3 {T : Type} (x0 x1 x2 : T) : tuplet 3 T := ![x0, x1, x2]

/-- Constructor `tuplet<4,T>(T x0, T x1, T x2, T x3)` (lines 334-340). -/
def tuplet4 {T : Type} (x0 x1 x2 x3 : T) : tuplet 4 T := ![x0, x1, x2, x3]

/-- The loop of `tupletBase::operator==` (lines 93-95) over the indices still to
be visited: `if (this->m_Data[i] != rhs[i]) {return false;}`, then
`return true;`. `ne` is `!=` on the two element types. -/
def operator_eq_loop {N : Nat} {T T2 : Type} (ne : T → T2 → Bool) (a : tuplet N T)
    (rhs : tuplet N T2) : List (Fin N) → Bool
  | [] => true
  | i :: rest => if ne (a i) (rhs i) then false else operator_eq_loop ne a rhs rest

/-- Member `tupletBase::operator==` (lines 90-96). -/
def operator_eq {N : Nat} {T T2 : Type} (ne : T → T2 → Bool) (a : tuplet N T)
    (rhs : tuplet N T2) : Bool :=
  operator_eq_loop ne a rhs (List.finRange N)

/-- The loop of `tupletBase::operator!=` (lines 102-104) over the indices still
to be visited: `if (this->m_Data[i] != rhs[i]) {return true;}`, then
`return false;`. -/
def operator_ne_loop {N : Nat} {T T2 : Type} (ne : T → T2 → Bool) (a : tuplet N T)
    (rhs : tuplet N T2) : List (Fin N) → Bool
  | [] => false
  | i :: rest => if ne (a i) (rhs i) then true else operator_ne_loop ne a rhs rest

/-- Member `tupletBase::operator!=` (lines 99-105). -/
def operator_ne {N : Nat} {T T2 : Type} (ne : T → T2 → Bool) (a : tuplet N T)
    (rhs : tuplet N T2) : Bool :=
  operator_ne_loop ne a rhs (List.finRange N)

/-! In the generic functions below the local `tuplet<N,T> x;` is declared
without initialisation; its indeterminate content is the argument `x`. -/

/-- Member `tupletBase::operator-()` (lines 108-113):
`for (int i=0; i<N; ++i) {x[i] = -this->m_Data[i];}`. -/
def operator_negate {N : Nat} {T : Type} [Neg T] (x a : tuplet N T) : tuplet N T :=
  (List.finRange N).foldl (fun x i => Function.update x i (- a i)) x

/-- Generic `operator+(const tuplet<N,T>& a, T s)` (lines 572-578). -/
def operator_plus_scalar {N : Nat} {T : Type} [Add T] (x a : tuplet N T) (s : T) :
    tuplet N T :=
  (List.finRange N).foldl (fun x i => Function.update x i (a i + s)) x

/-- Generic `operator+(const tuplet<N,T>& a, const tuplet<N,T>& b)`
(lines 596-602). -/
def operator_plus {N : Nat} {T : Type} [Add T] (x a b : tuplet N T) : tuplet N T :=
  (List.finRange N).foldl (fun x i => Function.update x i (a i + b i)) x

/-- Generic `operator-(const tuplet<N,T>& a, T s)` (lines 620-626). -/
def operator_minus_scalar {N : Nat} {T : Type} [Sub T] (x a : tuplet N T) (s : T) :
    tuplet N T :=
  (List.finRange N).foldl (fun x i => Function.update x i (a i - s)) x

/-- Generic `operator-(const tuplet<N,T>& a, const tuplet<N,T>& b)`
(lines 644-650). -/
def operator_minus {N : Nat} {T : Type} [Sub T] (x a b : tuplet N T) : tuplet N T :=
  (List.finRange N).foldl (fun x i => Function.update x i (a i - b i)) x

/-- Generic `operator*(T x, const tuplet<N,T>& a)` (lines 668-674); the local
tuplet of the source is `b`, the scalar is `s` here. -/
def operator_times_scalar_left {N : Nat} {T : Type} [Mul T] (b : tuplet N T) (s : T)
    (a : tuplet N T) : tuplet N T :=
  (List.finRange N).foldl (fun b i => Function.update b i (s * a i)) b

/-- Generic `operator*(const tuplet<N,T>& a, T x)` (lines 692-698):
`b[i] = x*a[i]`. -/
def operator_times_scalar {N : Nat} {T : Type} [Mul T] (b a : tuplet N T) (s : T) :
    tuplet N T :=
  (List.finRange N).foldl (fun b i => Function.update b i (s * a i)) b

/-- Generic `operator*(const tuplet<N,T>& a, const tuplet<N,T>& b)`
(lines 716-722); the local tuplet of the source is `c`. -/
def operator_times {N : Nat} {T : Type} [Mul T] (c a b : tuplet N T) : tuplet N T :=
  (List.finRange N).foldl (fun c i => Function.update c i (a i * b i)) c

/-- Generic `operator/(const tuplet<N,T>& a, const tuplet<N,T>& b)`
(lines 740-746). -/
def operator_divide {N : Nat} {T : Type} [Div T] (c a b : tuplet N T) : tuplet N T :=
  (List.finRange N).foldl (fun c i => Function.update c i (a i / b i)) c

/-- Generic `operator/(const tuplet<N,T>& a, T b)` (lines 764-770). -/
def operator_divide_scalar {N : Nat} {T : Type} [Div T] (c a : tuplet N T) (b : T) :
    tuplet N T :=
  (List.finRange N).foldl (fun c i => Function.update c i (a i / b)) c

/-- Function `product` (lines 365-370):
`T p = x[0]; for (int i=1; i<N; ++i) {p *= x[i];} return p;`. -/
def product {N : Nat} [NeZero N] {T : Type} [Mul T] (x : tuplet N T) : T :=
  (indices_from_one N).foldl (fun p i => p * x i) (x 0)

/-- Function `long_product` (lines 376-381) for elements of type `int`:
`size_t p = x[0]; for (size_t i=1; i<N; ++i) {p *= x[i];} return p;`, each
element being converted to `size_t`. -/
def long_product_int {N : Nat} [NeZero N] (x : tuplet N Int) : Nat :=
  (indices_from_one N).foldl (fun p i => (p * int_to_size_t (x i)) % SIZE_MOD)
    (int_to_size_t (x 0))

/-- Function `sum` (lines 384-389):
`T s = x[0]; for (int i=1; i<N; ++i) {s += x[i];} return s;`. -/
def sum {N : Nat} [NeZero N] {T : Type} [Add T] (x : tuplet N T) : T :=
  (indices_from_one N).foldl (fun s i => s + x i) (x 0)

/-- Generic function `dot` (lines 788-793):
`T x = a[0]*b[0]; for (int i=1; i<N; ++i) {x += a[i]*b[i];} return x;`. -/
def dot {N : Nat} [NeZero N] {T : Type} [Add T] [Mul T] (a b : tuplet N T) : T :=
  (indices_from_one N).foldl (fun x i => x + a i * b i) (a 0 * b 0)

/-- The index `N-1-i` of the generic `reverse`. -/
def reverse_index {N : Nat} (i : Fin N) : Fin N :=
  ⟨N - 1 - i.val, by have := i.isLt; omega⟩

/-- Generic function `reverse` (lines 808-813):
`for (int i=0; i<N; ++i) {b[N-1-i] = a[i];}`; the local tuplet is `b`. -/
def reverse {N : Nat} {T : Type} (b a : tuplet N T) : tuplet N T :=
  (List.finRange N).foldl (fun b i => Function.update b (reverse_index i) (a i)) b

/-! The overloads for `tuplet<1,T>`. -/
namespace rank1

variable {T : Type}

/-- Overload `operator+(const tuplet<1,T>& a, T s)` (lines 579-583). -/
def operator_plus_scalar [Add T] (a : tuplet 1 T) (s : T) : tuplet 1 T := tuplet1 (a 0 + s)

/-- Overload `operator+` of two `tuplet<1,T>` (lines 603-607). -/
def operator_plus [Add T] (a b : tuplet 1 T) : tuplet 1 T := tuplet1 (a 0 + b 0)

/-- Overload `operator-(const tuplet<1,T>& a, T s)` (lines 627-631). -/
def operator_minus_scalar [Sub T] (a : tuplet 1 T) (s : T) : tuplet 1 T := tuplet1 (a 0 - s)

/-- Overload `operator-` of two `tuplet<1,T>` (lines 651-655). -/
def operator_minus [Sub T] (a b : tuplet 1 T) : tuplet 1 T := tuplet1 (a 0 - b 0)

/-- Overload `operator*(T x, const tuplet<1,T>& a)` (lines 675-679). -/
def operator_times_scalar_left [Mul T] (s : T) (a : tuplet 1 T) : tuplet 1 T :=
  tuplet1 (s * a 0)

/-- Overload `operator*(const tuplet<1,T>& a, T x)` (lines 699-703). -/
def operator_times_scalar [Mul T] (a : tuplet 1 T) (s : T) : tuplet 1 T := tuplet1 (s * a 0)

/-- Overload `operator*` of two `tuplet<1,T>` (lines 723-727). -/
def operator_times [Mul T] (a b : tuplet 1 T) : tuplet 1 T := tuplet1 (a 0 * b 0)

/-- Overload `operator/` of two `tuplet<1,T>` (lines 747-751). -/
def operator_divide [Div T] (a b : tuplet 1 T) : tuplet 1 T := tuplet1 (a 0 / b 0)

/-- Overload `operator/(const tuplet<1,T>& a, T b)` (lines 771-775). -/
def operator_divide_scalar [Div T] (a : tuplet 1 T) (b : T) : tuplet 1 T := tuplet1 (a 0 / b)

/-- Overload `dot` of two `tuplet<1,T>` (lines 794-797). -/
def dot [Mul T] (a b : tuplet 1 T) : T := a 0 * b 0

/-- Overload `reverse(const tuplet<1,T>& a)` (lines 814-817). -/
def reverse (a : tuplet 1 T) : tuplet 1 T := a

end rank1

/-! The overloads for `tuplet<2,T>`. -/
namespace rank2

variable {T : Type}

/-- Overload `operator+(const tuplet<2,T>& a, T s)` (lines 584-588). -/
def operator_plus_scalar [Add T] (a : tuplet 2 T) (s : T) : tuplet 2 T :=
  tuplet2 (a 0 + s) (a 1 + s)

/-- Overload `operator+` of two `tuplet<2,T>` (lines 608-612). -/
def operator_plus [Add T] (a b : tuplet 2 T) : tuplet 2 T := tuplet2 (a 0 + b 0) (a 1 + b 1)

/-- Overload `operator-(const tuplet<2,T>& a, T s)` (lines 632-636). -/
def operator_minus_scalar [Sub T] (a : tuplet 2 T) (s : T) : tuplet 2 T :=
  tuplet2 (a 0 - s) (a 1 - s)

/-- Overload `operator-` of two `tuplet<2,T>` (lines 656-660). -/
def operator_minus [Sub T] (a b : tuplet 2 T) : tuplet 2 T := tuplet2 (a 0 - b 0) (a 1 - b 1)

/-- Overload `operator*(T x, const tuplet<2,T>& a)` (lines 680-684). -/
def operator_times_scalar_left [Mul T] (s : T) (a : tuplet 2 T) : tuplet 2 T :=
  tuplet2 (s * a 0) (s * a 1)

/-- Overload `operator*(const tuplet<2,T>& a, T x)` (lines 704-708). -/
def operator_times_scalar [Mul T] (a : tuplet 2 T) (s : T) : tuplet 2 T :=
  tuplet2 (s * a 0) (s * a 1)

/-- Overload `operator*` of two `tuplet<2,T>` (lines 728-732). -/
def operator_times [Mul T] (a b : tuplet 2 T) : tuplet 2 T := tuplet2 (a 0 * b 0) (a 1 * b 1)

/-- Overload `operator/` of two `tuplet<2,T>` (lines 752-756). -/
def operator_divide [Div T] (a b : tuplet 2 T) : tuplet 2 T := tuplet2 (a 0 / b 0) (a 1 / b 1)

/-- Overload `operator/(const tuplet<2,T>& a, T b)` (lines 776-780). -/
def operator_divide_scalar [Div T] (a : tuplet 2 T) (b : T) : tuplet 2 T :=
  tuplet2 (a 0 / b) (a 1 / b)

/-- Overload `dot` of two `tuplet<2,T>` (lines 798-801). -/
def dot [Add T] [Mul T] (a b : tuplet 2 T) : T := a 0 * b 0 + a 1 * b 1

/-- Overload `reverse(const tuplet<2,T>& a)` (lines 818-821). -/
def reverse (a : tuplet 2 T) : tuplet 2 T := tuplet2 (a 1) (a 0)

end rank2

/-! The overloads for `tuplet<3,T>`. -/
namespace rank3

variable {T : Type}

/-- Overload `operator+(const tuplet<3,T>& a, T s)` (lines 589-593). -/
def operator_plus_scalar [Add T] (a : tuplet 3 T) (s : T) : tuplet 3 T :=
  tuplet3 (a 0 + s) (a 1 + s) (a 2 + s)

/-- Overload `operator+` of two `tuplet<3,T>` (lines 613-617). -/
def operator_plus [Add T] (a b : tuplet 3 T) : tuplet 3 T :=
  tuplet3 (a 0 + b 0) (a 1 + b 1) (a 2 + b 2)

/-- Overload `operator-(const tuplet<3,T>& a, T s)` (lines 637-641). -/
def operator_minus_scalar [Sub T] (a : tuplet 3 T) (s : T) : tuplet 3 T :=
  tuplet3 (a 0 - s) (a 1 - s) (a 2 - s)

/-- Overload `operator-` of two `tuplet<3,T>` (lines 661-665). -/
def operator_minus [Sub T] (a b : tuplet 3 T) : tuplet 3 T :=
  tuplet3 (a 0 - b 0) (a 1 - b 1) (a 2 - b 2)

/-- Overload `operator*(T x, const tuplet<3,T>& a)` (lines 685-689). -/
def operator_times_scalar_left [Mul T] (s : T) (a : tuplet 3 T) : tuplet 3 T :=
  tuplet3 (s * a 0) (s * a 1) (s * a 2)

/-- Overload `operator*(const tuplet<3,T>& a, T x)` (lines 709-713). -/
def operator_times_scalar [Mul T] (a : tuplet 3 T) (s : T) : tuplet 3 T :=
  tuplet3 (s * a 0) (s * a 1) (s * a 2)

/-- Overload `operator*` of two `tuplet<3,T>` (lines 733-737). -/
def operator_times [Mul T] (a b : tuplet 3 T) : tuplet 3 T :=
  tuplet3 (a 0 * b 0) (a 1 * b 1) (a 2 * b 2)

/-- Overload `operator/` of two `tuplet<3,T>` (lines 757-761). -/
def operator_divide [Div T] (a b : tuplet 3 T) : tuplet 3 T :=
  tuplet3 (a 0 / b 0) (a 1 / b 1) (a 2 / b 2)

/-- Overload `operator/(const tuplet<3,T>& a, T b)` (lines 781-785). -/
def operator_divide_scalar [Div T] (a : tuplet 3 T) (b : T) : tuplet 3 T :=
  tuplet3 (a 0 / b) (a 1 / b) (a 2 / b)

/-- Overload `dot` of two `tuplet<3,T>` (lines 802-805). -/
def dot [Add T] [Mul T] (a b : tuplet 3 T) : T := a 0 * b 0 + a 1 * b 1 + a 2 * b 2

/-- Overload `reverse(const tuplet<3,T>& a)` (lines 822-825). -/
def reverse (a : tuplet 3 T) : tuplet 3 T := tuplet3 (a 2) (a 1) (a 0)

end rank3

/-! ## binhex -/

/-- The terminator of a C string. -/
def NUL : Char := Char.ofNat 0

/-- The array `valid_hex_chars` of binhex.cpp (line 12), without its
terminator. -/
def valid_hex_chars : List Char := "0123456789ABCDEF".toList

/-- The function `strlen` on a character array: the number of characters before
the first terminator; the array is followed by a terminator. -/
def strlen (s : List Char) : Nat := (s.takeWhile (fun c => c != NUL)).length

/-- The call `strncpy(dst, src, n)` on a destination of `n` characters: the
characters of `src` before its terminator, at most `n`, padded with terminators
up to `n`. -/
def strncpy (src : List Char) (n : Nat) : List Char :=
  (src.takeWhile (fun c => c != NUL) ++ List.replicate n NUL).take n

/-- The test `strchr(s, c) != NULL`: `c` occurs in the string `s`, whose
terminator counts as part of it. -/
def strchr (s : List Char) (c : Char) : Bool := c == NUL || s.contains c

/-- The digit of `d < 16` in an upper-case hexadecimal conversion. -/
def upper_hex_digit (d : Nat) : Char := (Nat.digitChar d).toUpper

/-- The text written by `sprintf(c, "%02X", v)`: the upper-case hexadecimal
digits of `v`, padded on the left with zeros to two characters. -/
def sprintf_02X (v : Nat) : List Char :=
  List.replicate (2 - (Nat.toDigits 16 v).length) '0' ++ (Nat.toDigits 16 v).map Char.toUpper

/-- The value of a hexadecimal digit, upper or lower case. -/
def hex_digit_value (c : Char) : Option Nat :=
  if c.isDigit then some (c.toNat - 48)
  else if 'A'.toNat ≤ c.toNat ∧ c.toNat ≤ 'F'.toNat then some (c.toNat - 55)
  else if 'a'.toNat ≤ c.toNat ∧ c.toNat ≤ 'f'.toNat then some (c.toNat - 87)
  else none

/-- The call `sscanf(c, "%X", &x)` on a character array `c` that holds
hexadecimal digits and terminators only, which is all the test of line 74 lets
through: `some x` when it returns 1, the longest run of digits before the
terminator being the number `x`; `none` when there is no digit (the call
returns `EOF`). -/
def sscanf_X (c : List Char) : Option Nat :=
  let ds := (c.takeWhile (fun x => x != NUL)).takeWhile (fun x => (hex_digit_value x).isSome)
  if ds.isEmpty then none
  else some (ds.foldl (fun acc x => 16 * acc + (hex_digit_value x).getD 0) 0)

/-- The loop `while (len--)` of `bintohex` (lines 30-35): `p` is the position
of `buf` and `h` the characters written so far. A value of `unsigned char` is
below 256. -/
def bintohex_loop (buf : Nat → Nat) : Nat → Nat → List Char → List Char
  | 0, _, h => h
  | len + 1, p, h => bintohex_loop buf len (p + 1) (h ++ strncpy (sprintf_02X (buf p % 256)) 2)

/-- The function `bintohex(const unsigned char *buf, long len, char** hex)`
(binhex.cpp lines 15-37). `buf k` is the byte `buf[k]`; `malloc_ok` tells
whether `malloc` returns a non-null pointer. The result is the return value and
`*hex`: `none` for `NULL`, otherwise the characters before the terminator
`h[2*len]`. -/
def bintohex (malloc_ok : Bool) (buf : Nat → Nat) (len : Int) : Int × Option (List Char) :=
  if len < 0 then (0, none)
  else if !malloc_ok then (0, none)
  else (1, some (bintohex_loop buf len.toNat 0 []))

/-- The loop `while (l--)` of `hextobin` (lines 70-90): `hex` is what the
pointer `hex` points to and `b` the bytes written so far; `none` when the loop
returns 0. -/
def hextobin_loop : Nat → List Char → List Nat → Option (List Nat)
  | 0, _, b => some b
  | l + 1, hex, b =>
    let c := strncpy hex 2
    if !strchr valid_hex_chars (c.getD 0 NUL) || !strchr valid_hex_chars (c.getD 1 NUL) then none
    else
      match sscanf_X c with
      | none => none
      | some x => hextobin_loop l (hex.drop 2) (b ++ [x % 256])

/-- The function `hextobin(const char *hex, unsigned char** buf, long *len)`
(binhex.cpp lines 57-92). The result is the return value, `*buf` (`none` for
`NULL`, otherwise the bytes of the buffer) and `*len`. -/
def hextobin (malloc_ok : Bool) (hex : List Char) : Int × Option (List Nat) × Int :=
  if !malloc_ok then (0, none, 0)
  else
    match hextobin_loop (strlen hex / 2) hex [] with
    | none => (0, none, 0)
    | some b => (1, some b, ((strlen hex / 2 : Nat) : Int))

/-! ## text: split_arguments and split_trim -/

/-- The function object `boost::char_separator<char>` built by
`char_separator(dropped_delims, kept_delims, empty_tokens)`: its delimiters,
whether `empty_tokens` is `keep_empty_tokens`, and the member
`m_output_done`. -/
structure char_separator where
  m_kept_delims : List Char
  m_dropped_delims : List Char
  keep_empty_tokens : Bool
  m_output_done : Bool

namespace char_separator

/-- Member `is_kept`. -/
def is_kept (f : char_separator) (c : Char) : Bool := f.m_kept_delims.contains c

/-- Member `is_dropped`. -/
def is_dropped (f : char_separator) (c : Char) : Bool := f.m_dropped_delims.contains c

/-- The call `f(next, end, tok)` of the tokenizer function: `next` is the input
from the iterator `next` to `end`. The result is `none` when the call returns
false, otherwise the token, the input left and the function object after the
call. -/
def operator_call (f : char_separator) (next : List Char) :
    Option (List Char × List Char × char_separator) :=
  if !f.keep_empty_tokens then
    -- skip past all dropped_delims
    match next.dropWhile f.is_dropped with
    | [] => none
    | c :: cs =>
      -- if we are on a kept_delims move past it and stop
      if f.is_kept c then some ([c], cs, f)
      else
        -- append all the non delim characters
        some ((c :: cs).takeWhile (fun x => !f.is_dropped x && !f.is_kept x),
              (c :: cs).dropWhile (fun x => !f.is_dropped x && !f.is_kept x), f)
  else
    match next with
    | [] =>
      -- Handle empty token at the end
      if f.m_output_done = false then some ([], [], { f with m_output_done := true })
      else none
    | c :: cs =>
      if f.is_kept c then
        if f.m_output_done = false then some ([], c :: cs, { f with m_output_done := true })
        else some ([c], cs, { f with m_output_done := false })
      else if f.m_output_done = false ∧ f.is_dropped c = true then
        some ([], c :: cs, { f with m_output_done := true })
      else
        let start := if f.is_dropped c then cs else c :: cs
        some (start.takeWhile (fun x => !f.is_dropped x && !f.is_kept x),
              start.dropWhile (fun x => !f.is_dropped x && !f.is_kept x),
              { f with m_output_done := true })

end char_separator

/-- The loop `for (t = tok.begin(); t != tok.end(); ++t) tokens.push_back(g(*t))`
once the iterator is valid, with at most `fuel` calls of the tokenizer
function: an increment of the iterator calls the function, and the iterator
equals `tok.end()` when the call has returned false. -/
def push_tokens (g : List Char → List Char) :
    Nat → char_separator → List Char → List (List Char) → List (List Char)
  | 0, _, _, tokens => tokens
  | fuel + 1, f, next, tokens =>
    match f.operator_call next with
    | none => tokens
    | some (tok, next, f) => push_tokens g fuel f next (tokens ++ [g tok])

/-- The loop over `boost::tokenizer<char_separator<char>> tok(s, sep)`: the
iterator `tok.begin()` is valid only when `s` is not empty and the first call
of the tokenizer function returns true. A call either extracts a character or
sets `m_output_done`, so `2 * s.length + 2` calls are never exhausted. -/
def tokenize (g : List Char → List Char) (sep : char_separator) (s : List Char)
    (tokens : List (List Char)) : List (List Char) :=
  if s.isEmpty then tokens else push_tokens g (2 * s.length + 2) sep s tokens

/-- The function `boost::algorithm::trim_copy` with the classic locale: the
input without its leading and trailing white space. -/
def trim_copy (t : List Char) : List Char :=
  ((t.reverse.dropWhile istream.isspace).reverse).dropWhile istream.isspace

/-- The member `clear()` of `std::vector`. -/
def vector_clear {α : Type} (_ : List α) : List α := []

/-- The function `split_arguments` (text.cpp lines 12-28); `separators` is
`none` for `NULL`. The result is `tokens` after the call. -/
def split_arguments (s : List Char) (tokens : List (List Char))
    (separators : Option (List Char)) : List (List Char) :=
  let separators : List Char :=
    match separators with
    | none => [' ', Char.ofNat 9, ',']
    | some l => l
  let sep : char_separator :=
    { m_kept_delims := [], m_dropped_delims := separators, keep_empty_tokens := false,
      m_output_done := false }
  tokenize id sep s (vector_clear tokens)

/-- The function `split_trim` (text.cpp lines 31-48); `separators` is `none`
for `NULL`. The result is `tokens` after the call. -/
def split_trim (s : List Char) (tokens : List (List Char))
    (separators : Option (List Char)) : List (List Char) :=
  let separators : List Char :=
    match separators with
    | none => [',']
    | some l => l
  let sep : char_separator :=
    { m_kept_delims := [], m_dropped_delims := separators, keep_empty_tokens := true,
      m_output_done := false }
  tokenize trim_copy sep s (vector_clear tokens)

/-! ## array: copy and construction from an existing array -/

/-- Modelled from the spec: the storage from which owning arrays take their
buffers, which array.hpp (not among the sources) reaches through `new`:
`mem p` is the element at the address `p`; the addresses up to `brk` are in
use, the null address 0 among them. -/
structure heap (V : Type) where
  mem : Nat → V
  brk : Nat

/-- Modelled from the spec: the allocation of a buffer of `n` elements
("allocates a buffer of `long_product(dims)` elements"). The buffer starts
right after the addresses in use, so that it is not null and shares no address
with storage in use; afterwards it is in use, together with the address one
past its last element, so that two buffers never start at the same address. -/
def heap.allocate {V : Type} (h : heap V) (n : Nat) : Nat × heap V :=
  (h.brk + 1, { h with brk := h.brk + 1 + n })

/-- Modelled from the spec: the constructor of an array from an existing array
(`array<2,double> B(A)`) of array.hpp, which is not among the sources. The
test `arrayTests.ReferenceConstructor` of the repository fixes what it does:
`B.size()` and `B.dims()` are those of `A`, and `B.data()` is `A.data()`. The
new object refers to the storage of `source`, like the view that
const_array.hpp (lines 91-97) constructs from an array, of which this is the
counterpart; the sentence of the specification on a deep copy into new storage
is about the member `construct`. -/
def array_base.of_array {N : Nat} (rc : Bool) (source : array_base N) :
    Except String (array_base N) :=
  match source.data rc with
  | Except.error e => Except.error e
  | Except.ok b =>
    match source.end_ rc with
    | Except.error e => Except.error e
    | Except.ok e =>
      Except.ok { m_base := b, m_size := source.size, m_end := e, m_dims := source.dims }

/-- Member `const_array<1>::flat_index(tuplet<1,TIndex>)` (lines 308-312):
`return indices[0];` with the implied conversion to `size_t`. -/
def const_array1.flat_index_tuplet (_ : const_array_base 1) (indices : tuplet 1 Nat) : Nat :=
  to_size_t (indices 0)

/-- Member `const_array<4>::flat_index(TIndex i, TIndex j, TIndex k, TIndex l)`
(lines 436-442). -/
def const_array4.flat_index (a : const_array_base 4) (i j k l : Nat) : Nat :=
  (((to_size_t i * to_size_t (a.m_dims 1) + to_size_t j) * to_size_t (a.m_dims 2)
      + to_size_t k) * to_size_t (a.m_dims 3)
    + to_size_t l) % SIZE_MOD

/-- Member `const_array<4>::flat_index(tuplet<4,TIndex>)` (lines 444-450). -/
def const_array4.flat_index_tuplet (a : const_array_base 4) (indices : tuplet 4 Nat) : Nat :=
  (((to_size_t (indices 0) * to_size_t (a.m_dims 1) + to_size_t (indices 1))
        * to_size_t (a.m_dims 2)
      + to_size_t (indices 2)) * to_size_t (a.m_dims 3)
    + to_size_t (indices 3)) % SIZE_MOD

/-! ## arraymath: sum, max and min -/

namespace arraymath

/-- The loop `while (a != end) { s += *a; ++a; }` of `sum` (arraymath.hpp
lines 17-21) with at most `fuel` iterations: `mem p` is the element at the
address `p`; `none` when the fuel is used up before `a` reaches `end`. -/
def sum_loop {T : Type} [Add T] (mem : Nat → T) (end_ : Nat) : Nat → Nat → T → Option T
  | 0, a, s => if a != end_ then none else some s
  | fuel + 1, a, s =>
    if a != end_ then sum_loop mem end_ fuel (a + 1) (s + mem a) else some s

/-- The function `sum` (arraymath.hpp lines 11-23). The class `array` is not
among the sources: `data` and `end_` are the pointers that `A.data()` and
`A.end()` return. The loop makes `end_ - data` iterations. -/
def sum {T : Type} [Zero T] [Add T] (mem : Nat → T) (data end_ : Nat) : Option T :=
  sum_loop mem end_ (end_ - data) data 0

/-- The loop `while (a != end) { if (m < *a) m = *a; ++a; }` of `max`
(arraymath.hpp lines 42-46) with at most `fuel` iterations; the last component
counts the comparisons `m < *a` made so far. -/
def max_loop {T : Type} [LT T] [DecidableRel (fun x y : T => x < y)] (mem : Nat → T)
    (end_ : Nat) : Nat → Nat → T → Nat → Option (T × Nat)
  | 0, a, m, c => if a != end_ then none else some (m, c)
  | fuel + 1, a, m, c =>
    if a != end_ then
      max_loop mem end_ fuel (a + 1) (if m < mem a then mem a else m) (c + 1)
    else some (m, c)

/-- The function `max` (arraymath.hpp lines 35-48), with the number of
comparisons it has made; `data` and `end_` are the pointers that `A.data()` and
`A.end()` return. -/
def max {T : Type} [LT T] [DecidableRel (fun x y : T => x < y)] (mem : Nat → T)
    (data end_ : Nat) : Option (T × Nat) :=
  max_loop mem end_ (end_ - (data + 1)) (data + 1) (mem data) 0

/-- The loop `while (a != end) { if (m > *a) m = *a; ++a; }` of `min`
(arraymath.hpp lines 59-63) with at most `fuel` iterations; the last component
counts the comparisons `m > *a` made so far. -/
def min_loop {T : Type} [LT T] [DecidableRel (fun x y : T => x < y)] (mem : Nat → T)
    (end_ : Nat) : Nat → Nat → T → Nat → Option (T × Nat)
  | 0, a, m, c => if a != end_ then none else some (m, c)
  | fuel + 1, a, m, c =>
    if a != end_ then
      min_loop mem end_ fuel (a + 1) (if mem a < m then mem a else m) (c + 1)
    else some (m, c)

/-- The function `min` (arraymath.hpp lines 52-65), with the number of
comparisons it has made. -/
def min {T : Type} [LT T] [DecidableRel (fun x y : T => x < y)] (mem : Nat → T)
    (data end_ : Nat) : Option (T × Nat) :=
  min_loop mem end_ (end_ - (data + 1)) (data + 1) (mem data) 0

end arraymath

/-! ## floating_point_comparisons -/

/-- Conversion of an integer value to the 32-bit `int`: the value modulo
`2 ^ 32` that lies in `[-2^31, 2^31)`. -/
def to_int32 (x : Int) : Int := (x + 2 ^ 31) % 2 ^ 32 - 2 ^ 31

/-- The function `FloatTwosComplementUlps` (floating_point_comparisons.hpp
lines 86-93). A `float` is its 32-bit pattern `x`; `*(int*)&x` is the pattern
read as a two's-complement `int`, and `0x80000000 - xInt` is computed modulo
`2 ^ 32`. -/
def FloatTwosComplementUlps (x : Nat) : Int :=
  let xInt : Int := to_int32 (x : Int)
  -- Make aInt lexicographically ordered as a twos-complement int
  if xInt < 0 then to_int32 (0x80000000 - xInt) else xInt

/-- The function `boost::math::isnan` on the 32-bit pattern of a `float`: the
exponent bits are all ones and the mantissa is not zero. -/
def isnan (x : Nat) : Bool := decide (x / 2 ^ 23 % 2 ^ 8 = 255) && decide (x % 2 ^ 23 ≠ 0)

/-- The function `FloatAlmostEqual2sComplement`
(floating_point_comparisons.hpp lines 158-181) on the 32-bit patterns of `a`
and `b`; the subtraction and `std::abs` are those of the 32-bit `int`. -/
def FloatAlmostEqual2sComplement (a b : Nat) (maxUlps : Int) : Bool :=
  let aInt : Int := FloatTwosComplementUlps a
  let bInt : Int := FloatTwosComplementUlps b
  let intDiff : Int := to_int32 (|to_int32 (aInt - bInt)|)
  -- Note that the correct answer to NaN == NaN is false; hence the special case.
  if intDiff ≤ maxUlps ∧ isnan a = false then true else false

/-! ## TrackingAllocator -/

/-- The structure `TrackingAllocatorValues` (TrackingAllocator.hpp
lines 16-20). -/
structure TrackingAllocatorValues where
  current : Nat
  peak : Nat
deriving DecidableEq

namespace TrackingAllocator

/-- The static member `allocated` of the calling thread: `none` when
`allocated.get()` is `NULL`. -/
abbrev State := Option TrackingAllocatorValues

/-- The steps `allocated->current += size; if (allocated->current >
allocated->peak) allocated->peak = allocated->current;` (lines 24-28 and
42-46). -/
def increase (v : TrackingAllocatorValues) (size : Nat) : TrackingAllocatorValues :=
  let v : TrackingAllocatorValues := { v with current := (v.current + to_size_t size) % SIZE_MOD }
  if v.current > v.peak then { v with peak := v.current } else v

/-- The step `allocated->current -= size;` (lines 37 and 51). -/
def decrease (v : TrackingAllocatorValues) (size : Nat) : TrackingAllocatorValues :=
  { v with current := (v.current + (SIZE_MOD - to_size_t size)) % SIZE_MOD }

/-- The function `allocate` (TrackingAllocator.cpp lines 13-31): `malloc_ok`
tells whether `malloc` returns a non-null pointer, which is then the result.
The value is `allocated` after the call. -/
def allocate (malloc_ok : Bool) (allocated : State) (size : Nat) : State :=
  if malloc_ok then
    match allocated with
    | none => some (increase { current := 0, peak := 0 } size)
    | some v => some (increase v size)
  else allocated

/-- The function `release` (lines 33-38): `n88_assert (allocated.get())`, then
the count is decreased. -/
def release (allocated : State) (size : Nat) : Except String State :=
  match n88_assert allocated.isSome "Assertion failure : allocated.get()" with
  | Except.error e => Except.error e
  | Except.ok _ =>
    match allocated with
    | none => Except.ok none
    | some v => Except.ok (some (decrease v size))

/-- The function `external_increase` (lines 40-47); with `allocated.get()`
`NULL` the call dereferences a null pointer, which is the error branch. -/
def external_increase (allocated : State) (size : Nat) : Except String State :=
  match allocated with
  | none => Except.error "null pointer dereferenced"
  | some v => Except.ok (some (increase v size))

/-- The function `external_decrease` (lines 49-52); with `allocated.get()`
`NULL` the call dereferences a null pointer, which is the error branch. -/
def external_decrease (allocated : State) (size : Nat) : Except String State :=
  match allocated with
  | none => Except.error "null pointer dereferenced"
  | some v => Except.ok (some (decrease v size))

/-- The function `get_current_allocated` (lines 54-59). -/
def get_current_allocated (allocated : State) : Nat :=
  match allocated with
  | none => 0
  | some v => v.current

/-- The function `get_peak_allocated` (lines 61-66). -/
def get_peak_allocated (allocated : State) : Nat :=
  match allocated with
  | none => 0
  | some v => v.peak

end TrackingAllocator

/-! ## Definitions used in the statements -/

/-- The exact row-major offset of the indices listed in `l`. -/
def row_major {N : Nat} (d idx : tuplet N Nat) : List (Fin N) → Nat
  | [] => 0
  | k :: l => idx k * (l.map d).prod + row_major d idx l

/-- A stream with all state bits clear. -/
def istream.clean (bk fr : List Char) : istream :=
  { back := bk, front := fr, eofbit := false, failbit := false, badbit := false }

/-- The text of an `int` written by `operator<<`. -/
def int_text (v : Int) : List Char := write_int [] v

/-- What the loops need of the test that follows a `get()`: it goes on with a
good stream and returns a stream whose `failbit` is set unchanged. -/
structure CheckLaw (check : Char → istream → Flow (Char × istream)) : Prop where
  next_of_good : ∀ c s, s.good = true → check c s = Flow.next (c, s)
  returned_of_fail : ∀ c s, s.failbit = true → check c s = Flow.returned s

/-- The text of the elements `u i`, `i` in the given list, each followed by
`ga i` spaces, a comma and `gb i` spaces. -/
def elems_text {N : Nat} (u : tuplet N Int) (ga gb : Fin N → Nat) : List (Fin N) → List Char
  | [] => []
  | i :: rest =>
    int_text (u i) ++ (List.replicate (ga i) ' ' ++
      ',' :: (List.replicate (gb i) ' ' ++ elems_text u ga gb rest))

/-- The tuplet `t` after the elements listed have been assigned from `u`. -/
def assign {N : Nat} {T : Type} (u t : tuplet N T) (l : List (Fin N)) : tuplet N T :=
  l.foldl (fun t i => Function.update t i (u i)) t

/-- The value of `match_bracket || i != N-1` in iteration `i`. -/
def more_expected {N : Nat} (match_bracket : Char) (i : Fin N) : Bool :=
  match_bracket != Char.ofNat 0 || decide (i.val + 1 ≠ N)

/-- The text of the elements `u i`, `i` in the given list, separated by `ga i`
spaces, a comma and `gb i` spaces; nothing follows the last element. -/
def body_text {N : Nat} (u : tuplet N Int) (ga gb : Fin N → Nat) : List (Fin N) → List Char
  | [] => []
  | [i] => int_text (u i)
  | i :: j :: rest =>
    int_text (u i) ++ (List.replicate (ga i) ' ' ++
      ',' :: (List.replicate (gb i) ' ' ++ body_text u ga gb (j :: rest)))

/-- Every element of the tuplet is a value of `int`. -/
def in_int_range {N : Nat} (u : tuplet N Int) : Prop :=
  ∀ i, istream.INT_MIN ≤ u i ∧ u i ≤ istream.INT_MAX

/-- The opening bracket of a tuple text: square or round. -/
def bracket_open (square : Bool) : Char := if square then '[' else '('

/-- The closing bracket that matches `bracket_open`. -/
def bracket_close (square : Bool) : Char := if square then ']' else ')'

/-- A run of `n` space characters. -/
def spaces (n : Nat) : List Char := List.replicate n ' '

/-- The text `e0,...,eN-1`: the decimal texts of the elements of `t` separated
by single commas. -/
def comma_text {N : Nat} (t : tuplet N Int) : List Char :=
  [','].intercalate ((List.finRange N).map (fun i => int_text (t i)))

/-- What a caller observes after `buffer >> a`: `fail()`, `eof()` and the
elements of the tuplet, or the exception thrown. -/
def observed {N : Nat} (r : Except String (istream × tuplet N Int)) :
    Except String (Bool × Bool × List Int) :=
  match r with
  | Except.error e => Except.error e
  | Except.ok p => Except.ok (p.1.fail, p.1.eof, List.ofFn p.2)

/-- The text of the elements `u i`, `i` in the given list, separated by
`ga i + 1` spaces and no comma. -/
def spaced_text {N : Nat} (u : tuplet N Int) (ga : Fin N → Nat) : List (Fin N) → List Char
  | [] => []
  | [i] => int_text (u i)
  | i :: j :: rest =>
    int_text (u i) ++ (List.replicate (ga i + 1) ' ' ++ spaced_text u ga (j :: rest))

/-- The output operator of an element type whose text is `txt v`: it appends
the text to what has been written. -/
def write_text {T : Type} (txt : T → List Char) (s : List Char) (v : T) : List Char :=
  s ++ txt v

/-- The bytes `buf[0]`, ..., `buf[n-1]` of a buffer. -/
def bytes_of (buf : Nat → Nat) (n : Nat) : List Nat := (List.range n).map (fun k => buf k % 256)

/-- A buffer that holds the bytes of a list. -/
def buffer_of (b : List Nat) : Nat → Nat := fun k => b.getD k 0

/-- The two characters that encode the byte `v`. -/
def hex_pair (v : Nat) : List Char := [upper_hex_digit (v / 16), upper_hex_digit (v % 16)]

/-- The hexadecimal text of a list of bytes. -/
def hex_text (bs : List Nat) : List Char := bs.flatMap hex_pair

/-- The tokenizer function of `split_arguments`. -/
def drop_sep (seps : List Char) : char_separator :=
  { m_kept_delims := [], m_dropped_delims := seps, keep_empty_tokens := false,
    m_output_done := false }

/-- The tokenizer function of `split_trim`, with the value of `m_output_done`. -/
def keep_sep (seps : List Char) (done : Bool) : char_separator :=
  { m_kept_delims := [], m_dropped_delims := seps, keep_empty_tokens := true,
    m_output_done := done }

/-- The separator-free fields of `s` that are not empty. -/
def fields (seps : List Char) (s : List Char) : List (List Char) :=
  (s.splitOnP (fun c => seps.contains c)).filter (fun t => !t.isEmpty)

/-- The fields of the input after a separator: what `split_trim` still has to
produce when the tokenizer function stands at the input `s` with
`m_output_done` set. -/
def fields_after (seps : List Char) : List Char → List (List Char)
  | [] => []
  | _ :: cs => cs.splitOnP (fun c => seps.contains c)

/-- What the element loop of `operator>>` needs of the input operator `read` of
the element type: on the text `txt v` of a value `v` (for which `good v`
holds), followed by a character `y` with `follow y` and more input, it
extracts exactly that text, stores `v` and leaves all state bits clear; and the
text begins with a character that is not a space. -/
structure ReadsText {T : Type} (read : istream → T → Except String (istream × T))
    (txt : T → List Char) (good : T → Prop) (follow : Char → Prop) : Prop where
  reads : ∀ v, good v → ∀ (bk : List Char) (y : Char) (fr : List Char) (old : T), follow y →
    ∃ bk1 : List Char,
      read (istream.clean bk (txt v ++ y :: fr)) old = Except.ok (istream.clean bk1 (y :: fr), v)
  head : ∀ v, good v → ∃ c cs, txt v = c :: cs ∧ c ≠ ' '

/-- The texts of the elements `u i`, `i` in the given list, separated by single
commas. -/
def joined_text {N : Nat} {T : Type} (txt : T → List Char) (u : tuplet N T) :
    List (Fin N) → List Char
  | [] => []
  | [i] => txt (u i)
  | i :: j :: rest => txt (u i) ++ ',' :: joined_text txt u (j :: rest)

/-- The text `[e0,...,eN-1]` of a tuplet whose elements have the texts
`txt (u i)`. -/
def tuplet_text {N : Nat} {T : Type} (txt : T → List Char) (u : tuplet N T) : List Char :=
  '[' :: (joined_text txt u (List.finRange N) ++ [']'])

/-- Lexicographic order of index tuples: at the first position where they
differ, `x` is smaller. -/
def lex_lt {N : Nat} (x y : tuplet N Nat) : Prop :=
  ∃ k : Fin N, (∀ j : Fin N, j < k → x j = y j) ∧ x k < y k

/-- A memory whose element at the address `p` is `(p - 11)^2`. -/
def sample_memory (p : Nat) : Int := ((p : Int) - 11) ^ 2

/-- The 32-bit pattern of the `float` +infinity. -/
def float_infinity : Nat := 0x7F800000

/-- The 32-bit pattern of the NaN nearest to +infinity. -/
def float_nan_after_infinity : Nat := 0x7F800001

/-- The 32-bit pattern of `std::numeric_limits<float>::quiet_NaN()`. -/
def float_quiet_NaN : Nat := 0x7FC00000

/-- A call of one of the four functions of `TrackingAllocator` that change the
counters; for `allocate`, whether `malloc` succeeds. -/
inductive allocator_call where
  | allocate (size : Nat) (malloc_ok : Bool)
  | release (size : Nat)
  | external_increase (size : Nat)
  | external_decrease (size : Nat)
deriving DecidableEq

/-- The state of `allocated` after a call. -/
def allocator_step (s : TrackingAllocator.State) :
    allocator_call → Except String TrackingAllocator.State
  | allocator_call.allocate size ok => Except.ok (TrackingAllocator.allocate ok s size)
  | allocator_call.release size => TrackingAllocator.release s size
  | allocator_call.external_increase size => TrackingAllocator.external_increase s size
  | allocator_call.external_decrease size => TrackingAllocator.external_decrease s size

/-- The state of `allocated` after a sequence of calls. -/
def allocator_run :
    TrackingAllocator.State → List allocator_call → Except String TrackingAllocator.State
  | s, [] => Except.ok s
  | s, c :: cs =>
    match allocator_step s c with
    | Except.error e => Except.error e
    | Except.ok s1 => allocator_run s1 cs

/-- The bytes a call acquires. -/
def acquired_by : allocator_call → Nat
  | allocator_call.allocate size ok => if ok then size else 0
  | allocator_call.external_increase size => size
  | _ => 0

/-- The bytes a call releases. -/
def released_by : allocator_call → Nat
  | allocator_call.release size => size
  | allocator_call.external_decrease size => size
  | _ => 0

/-- The exact count of bytes after a sequence of calls, from the count `cur`. -/
def count_after (cur : Nat) (cs : List allocator_call) : Nat :=
  cs.foldl (fun n c => n + acquired_by c - released_by c) cur

/-- No release or decrease of the sequence exceeds the count it is applied to,
and no count exceeds `size_t`; `cur` is the count before the sequence. -/
def admissible : Nat → List allocator_call → Prop
  | _, [] => True
  | cur, c :: cs =>
    released_by c ≤ cur ∧ cur + acquired_by c < SIZE_MOD
      ∧ admissible (cur + acquired_by c - released_by c) cs

/-- The largest count reached by a sequence of calls, with `pk` the largest
count so far and `cur` the count before the sequence. -/
def peak_after : Nat → Nat → List allocator_call → Nat
  | pk, _, [] => pk
  | pk, cur, c :: cs =>
    peak_after (Max.max pk (cur + acquired_by c - released_by c))
      (cur + acquired_by c - released_by c) cs

/-- The sequence `allocate(100)`, `external_increase(50)`, `release(p,120)`, a
failed `allocate(7)`, `external_decrease(10)`. -/
def sample_calls : List allocator_call :=
  [allocator_call.external_increase 50, allocator_call.release 120,
   allocator_call.allocate 7 false, allocator_call.external_decrease 10]

/-! ## Theorems: flat indexing -/

theorem finRange_eq_zero_cons (N : Nat) [NeZero N] :
    List.finRange N = (0 : Fin N) :: indices_from_one N := by
  obtain ⟨n, rfl⟩ := Nat.exists_eq_succ_of_ne_zero (NeZero.ne N)
  rw [indices_from_one, List.finRange_succ_eq_map]
  rfl

theorem flat_loop_modEq {N : Nat} (d idx : tuplet N Nat) (l : List (Fin N)) (acc : Nat) :
    (l.foldl (fun index i => (index * to_size_t (d i) + to_size_t (idx i)) % SIZE_MOD) acc)
        % SIZE_MOD
      = (acc * (l.map d).prod + row_major d idx l) % SIZE_MOD := by
  induction l generalizing acc with
  | nil => simp [row_major]
  | cons k l ih =>
    rw [List.foldl_cons, ih, row_major, List.map_cons, List.prod_cons]
    have e : acc * (d k * (l.map d).prod) + (idx k * (l.map d).prod + row_major d idx l)
        = (acc * d k + idx k) * (l.map d).prod + row_major d idx l := by ring
    rw [e]
    apply Nat.ModEq.add_right
    apply Nat.ModEq.mul_right
    show ((acc * to_size_t (d k) + to_size_t (idx k)) % SIZE_MOD) % SIZE_MOD = _
    rw [Nat.mod_mod]
    apply Nat.ModEq.add
    · apply Nat.ModEq.mul_left
      exact Nat.mod_mod _ _
    · exact Nat.mod_mod _ _

theorem flat_loop_lt {N : Nat} (d idx : tuplet N Nat) (l : List (Fin N)) (acc : Nat)
    (h : acc < SIZE_MOD) :
    (l.foldl (fun index i => (index * to_size_t (d i) + to_size_t (idx i)) % SIZE_MOD) acc)
      < SIZE_MOD := by
  induction l generalizing acc with
  | nil => simpa using h
  | cons k l ih =>
    rw [List.foldl_cons]
    exact ih _ (Nat.mod_lt _ (by decide))

theorem Ioi_eq_toFinset {N : Nat} (pre l : List (Fin N)) (k : Fin N)
    (h : pre ++ k :: l = List.finRange N) : Finset.Ioi k = l.toFinset := by
  have hp : List.Pairwise (· < ·) (pre ++ k :: l) := h ▸ List.pairwise_lt_finRange N
  rw [List.pairwise_append] at hp
  obtain ⟨_, h2, h3⟩ := hp
  rw [List.pairwise_cons] at h2
  ext j
  simp only [Finset.mem_Ioi, List.mem_toFinset]
  constructor
  · intro hj
    have hm : j ∈ pre ++ k :: l := h ▸ List.mem_finRange j
    rcases List.mem_append.1 hm with hm | hm
    · exact absurd (h3 j hm k (List.mem_cons_self _ _)) (not_lt.2 hj.le)
    · rcases List.mem_cons.1 hm with hm | hm
      · exact absurd hm hj.ne'
      · exact hm
  · intro hj
    exact h2.1 j hj

theorem row_major_eq_sum {N : Nat} (d idx : tuplet N Nat) (l : List (Fin N)) :
    ∀ pre : List (Fin N), pre ++ l = List.finRange N →
      row_major d idx l = ∑ k ∈ l.toFinset, idx k * ∏ j ∈ Finset.Ioi k, d j := by
  induction l with
  | nil => intro _ _; simp [row_major]
  | cons k l ih =>
    intro pre h
    have hnd : (k :: l).Nodup :=
      (List.nodup_append.1 (h ▸ List.nodup_finRange N)).2.1
    rw [row_major, ih (pre ++ [k]) (by simpa using h), List.toFinset_cons,
      Finset.sum_insert (by simpa using (List.nodup_cons.1 hnd).1),
      Ioi_eq_toFinset pre l k h, List.prod_toFinset _ (List.nodup_cons.1 hnd).2]

theorem flat_index_mod {N : Nat} [NeZero N] (a : const_array_base N) (idx : tuplet N Nat) :
    a.flat_index idx = (∑ k : Fin N, idx k * ∏ j ∈ Finset.Ioi k, a.m_dims j) % SIZE_MOD := by
  have hlt : a.flat_index idx < SIZE_MOD :=
    flat_loop_lt _ _ _ _ (Nat.mod_lt _ (by decide))
  have hs := row_major_eq_sum a.m_dims idx (List.finRange N) [] rfl
  rw [List.toFinset_finRange] at hs
  rw [← hs, ← Nat.mod_eq_of_lt hlt, const_array_base.flat_index, flat_loop_modEq,
    finRange_eq_zero_cons, row_major]
  apply Nat.ModEq.add_right
  apply Nat.ModEq.mul_right
  exact Nat.mod_mod _ _

theorem prod_loop_modEq {N : Nat} (x : tuplet N Nat) (l : List (Fin N)) (acc : Nat) :
    (l.foldl (fun p i => (p * to_size_t (x i)) % SIZE_MOD) acc) % SIZE_MOD
      = (acc * (l.map x).prod) % SIZE_MOD := by
  induction l generalizing acc with
  | nil => simp
  | cons k l ih =>
    rw [List.foldl_cons, ih, List.map_cons, List.prod_cons, ← Nat.mul_assoc]
    apply Nat.ModEq.mul_right
    show ((acc * to_size_t (x k)) % SIZE_MOD) % SIZE_MOD = _
    rw [Nat.mod_mod]
    apply Nat.ModEq.mul_left
    exact Nat.mod_mod _ _

theorem prod_loop_lt {N : Nat} (x : tuplet N Nat) (l : List (Fin N)) (acc : Nat)
    (h : acc < SIZE_MOD) :
    (l.foldl (fun p i => (p * to_size_t (x i)) % SIZE_MOD) acc) < SIZE_MOD := by
  induction l generalizing acc with
  | nil => simpa using h
  | cons k l ih =>
    rw [List.foldl_cons]
    exact ih _ (Nat.mod_lt _ (by decide))

theorem long_product_mod {N : Nat} [NeZero N] (x : tuplet N Nat) :
    long_product x = (∏ j : Fin N, x j) % SIZE_MOD := by
  have hlt : long_product x < SIZE_MOD := prod_loop_lt _ _ _ (Nat.mod_lt _ (by decide))
  rw [Fin.prod_univ_def, finRange_eq_zero_cons, List.map_cons, List.prod_cons,
    ← Nat.mod_eq_of_lt hlt, long_product, prod_loop_modEq]
  apply Nat.ModEq.mul_right
  exact Nat.mod_mod _ _

/-- C1: in exact arithmetic (the row-major offset fits `size_t`) the generic
`flat_index` of a view is the row-major offset, the sum over `k` of
`i_k * (product of d_j for j > k)`; the first dimension `d_0` does not enter. -/
theorem flat_index_row_major {N : Nat} [NeZero N] (a : const_array_base N)
    (indices : tuplet N Nat)
    (h : (∑ k : Fin N, indices k * ∏ j ∈ Finset.Ioi k, a.m_dims j) < 2 ^ 64) :
    a.flat_index indices = ∑ k : Fin N, indices k * ∏ j ∈ Finset.Ioi k, a.m_dims j
    ∧ ∀ b : const_array_base N, (∀ j : Fin N, j ≠ 0 → b.m_dims j = a.m_dims j) →
        b.flat_index indices = a.flat_index indices := by
  constructor
  · rw [flat_index_mod]
    exact Nat.mod_eq_of_lt h
  · intro b hb
    rw [flat_index_mod, flat_index_mod]
    congr 1
    apply Finset.sum_congr rfl
    intro k _
    congr 1
    apply Finset.prod_congr rfl
    intro j hj
    apply hb
    intro h0
    rw [Finset.mem_Ioi, h0] at hj
    have hlt := Fin.lt_def.1 hj
    simp at hlt

theorem flat_index_row_major_witness :
    (∑ k : Fin 2, (![2, 3] : tuplet 2 Nat) k
        * ∏ j ∈ Finset.Ioi k, (const_array_base.of_pointer 1 ![3, 4]).m_dims j) < 2 ^ 64
    ∧ (const_array_base.of_pointer 1 ![3, 4]).flat_index ![2, 3] = 11 := by
  refine ⟨by decide, ?_⟩
  rw [(flat_index_row_major (const_array_base.of_pointer 1 ![3, 4]) ![2, 3] (by decide)).1]
  decide

theorem operator_index_ok {N : Nat} (rc : Bool) (a : const_array_base N) (i : Nat)
    (hb : rc = false ∨ a.m_base ≠ 0) (hi : i < a.m_size) :
    a.operator_index rc i = Except.ok (a.m_base + i) := by
  rcases hb with hb | hb
  · simp [const_array_base.operator_index, hb]
  · simp [const_array_base.operator_index, hb, Nat.not_le.2 hi]

theorem to_size_t_of_lt {x : Nat} (h : x < 2 ^ 64) : to_size_t x = x :=
  Nat.mod_eq_of_lt h

theorem index2_lt {d0 d1 i j : Nat} (hi : i < d0) (hj : j < d1) : i * d1 + j < d0 * d1 := by
  calc i * d1 + j < i * d1 + d1 := by omega
    _ = (i + 1) * d1 := by ring
    _ ≤ d0 * d1 := Nat.mul_le_mul_right _ hi

theorem index3_lt {d0 d1 d2 i j k : Nat} (hi : i < d0) (hj : j < d1) (hk : k < d2) :
    (i * d1 + j) * d2 + k < d0 * d1 * d2 :=
  index2_lt (index2_lt hi hj) hk

/-- C2: for a constructed rank-2 view whose element count `d0*d1` fits `size_t`
and any in-range `(i,j)`, `C(i,j)` is the element at flat position `i*d1+j`
(address `data() + i*d1 + j`), and for rank 3 `C(i,j,k)` is the element at flat
position `(i*d1+j)*d2+k`; `operator()` is `operator[]` at `flat_index`. -/
theorem operator_call_flat_position (rc : Bool) :
    (∀ (a : const_array_base 2) (i j : Nat), a.m_base ≠ 0 →
        a.m_size = long_product a.m_dims → a.m_dims 0 * a.m_dims 1 < 2 ^ 64 →
        i < a.m_dims 0 → j < a.m_dims 1 →
        const_array2.flat_index a i j = i * a.m_dims 1 + j
        ∧ const_array2.operator_call rc a i j = Except.ok (a.m_base + (i * a.m_dims 1 + j))
        ∧ const_array2.operator_call rc a i j
            = a.operator_index rc (const_array2.flat_index a i j)
        ∧ const_array2.operator_call_tuplet rc a ![i, j]
            = a.operator_index rc (i * a.m_dims 1 + j))
    ∧ (∀ (a : const_array_base 3) (i j k : Nat), a.m_base ≠ 0 →
        a.m_size = long_product a.m_dims →
        a.m_dims 0 * a.m_dims 1 * a.m_dims 2 < 2 ^ 64 →
        i < a.m_dims 0 → j < a.m_dims 1 → k < a.m_dims 2 →
        const_array3.flat_index a i j k = (i * a.m_dims 1 + j) * a.m_dims 2 + k
        ∧ const_array3.operator_call rc a i j k
            = Except.ok (a.m_base + ((i * a.m_dims 1 + j) * a.m_dims 2 + k))
        ∧ const_array3.operator_call rc a i j k
            = a.operator_index rc (const_array3.flat_index a i j k)
        ∧ const_array3.operator_call_tuplet rc a ![i, j, k]
            = a.operator_index rc ((i * a.m_dims 1 + j) * a.m_dims 2 + k)) := by
  constructor
  · intro a i j hb hs hd hi hj
    have hlt := index2_lt hi hj
    have h0 : 0 < a.m_dims 0 := by omega
    have h1 : 0 < a.m_dims 1 := by omega
    have hd1 : a.m_dims 1 < 2 ^ 64 :=
      lt_of_le_of_lt (Nat.le_mul_of_pos_left _ h0) hd
    have hd0 : a.m_dims 0 < 2 ^ 64 :=
      lt_of_le_of_lt (Nat.le_mul_of_pos_right _ h1) hd
    have hf : const_array2.flat_index a i j = i * a.m_dims 1 + j := by
      rw [const_array2.flat_index, to_size_t_of_lt (lt_trans hi hd0), to_size_t_of_lt hd1,
        to_size_t_of_lt (lt_trans hj hd1)]
      exact Nat.mod_eq_of_lt (lt_trans hlt hd)
    have hsz : a.m_size = a.m_dims 0 * a.m_dims 1 := by
      rw [hs, long_product_mod, Fin.prod_univ_two]
      exact Nat.mod_eq_of_lt hd
    have hft : const_array2.flat_index_tuplet a ![i, j] = i * a.m_dims 1 + j := hf
    refine ⟨hf, ?_, rfl, ?_⟩
    · rw [const_array2.operator_call, hf]
      exact operator_index_ok rc a _ (Or.inr hb) (hsz ▸ hlt)
    · rw [const_array2.operator_call_tuplet, hft]
  · intro a i j k hb hs hd hi hj hk
    have hlt := index3_lt hi hj hk
    have hlt2 := index2_lt hi hj
    have h0 : 0 < a.m_dims 0 := by omega
    have h1 : 0 < a.m_dims 1 := by omega
    have h2 : 0 < a.m_dims 2 := by omega
    have h01 : 0 < a.m_dims 0 * a.m_dims 1 := Nat.mul_pos h0 h1
    have hd2 : a.m_dims 2 < 2 ^ 64 :=
      lt_of_le_of_lt (Nat.le_mul_of_pos_left _ h01) hd
    have hd01 : a.m_dims 0 * a.m_dims 1 < 2 ^ 64 :=
      lt_of_le_of_lt (Nat.le_mul_of_pos_right _ h2) hd
    have hd1 : a.m_dims 1 < 2 ^ 64 :=
      lt_of_le_of_lt (Nat.le_mul_of_pos_left _ h0) hd01
    have hd0 : a.m_dims 0 < 2 ^ 64 :=
      lt_of_le_of_lt (Nat.le_mul_of_pos_right _ h1) hd01
    have hf : const_array3.flat_index a i j k = (i * a.m_dims 1 + j) * a.m_dims 2 + k := by
      rw [const_array3.flat_index, to_size_t_of_lt (lt_trans hi hd0), to_size_t_of_lt hd1,
        to_size_t_of_lt (lt_trans hj hd1), to_size_t_of_lt hd2,
        to_size_t_of_lt (lt_trans hk hd2)]
      exact Nat.mod_eq_of_lt (lt_trans hlt hd)
    have hsz : a.m_size = a.m_dims 0 * a.m_dims 1 * a.m_dims 2 := by
      rw [hs, long_product_mod, Fin.prod_univ_three]
      exact Nat.mod_eq_of_lt hd
    have hft : const_array3.flat_index_tuplet a ![i, j, k]
        = (i * a.m_dims 1 + j) * a.m_dims 2 + k := hf
    refine ⟨hf, ?_, rfl, ?_⟩
    · rw [const_array3.operator_call, hf]
      exact operator_index_ok rc a _ (Or.inr hb) (hsz ▸ hlt)
    · rw [const_array3.operator_call_tuplet, hft]

theorem operator_call_flat_position_witness :
    const_array2.operator_call true (const_array_base.of_pointer 1000 ![3, 4]) 2 3
        = Except.ok (1000 + 11)
    ∧ const_array2.operator_call true (const_array_base.of_pointer 1000 ![3, 4]) 1 2
        = Except.ok (1000 + 6)
    ∧ const_array3.operator_call true (const_array_base.of_pointer 1000 ![2, 3, 4]) 1 2 3
        = Except.ok (1000 + 23)
    ∧ const_array3.operator_call true (const_array_base.of_pointer 1000 ![2, 3, 4]) 0 1 2
        = Except.ok (1000 + 6) :=
  ⟨((operator_call_flat_position true).1 (const_array_base.of_pointer 1000 ![3, 4]) 2 3
      (by decide) rfl (by decide) (by decide) (by decide)).2.1,
   ((operator_call_flat_position true).1 (const_array_base.of_pointer 1000 ![3, 4]) 1 2
      (by decide) rfl (by decide) (by decide) (by decide)).2.1,
   ((operator_call_flat_position true).2 (const_array_base.of_pointer 1000 ![2, 3, 4]) 1 2 3
      (by decide) rfl (by decide) (by decide) (by decide) (by decide)).2.1,
   ((operator_call_flat_position true).2 (const_array_base.of_pointer 1000 ![2, 3, 4]) 0 1 2
      (by decide) rfl (by decide) (by decide) (by decide) (by decide)).2.1⟩

/-! ## Theorems: construction of views and range checking -/

/-- C3: a view constructed from a raw pointer plus dims, from another view or
from an array copies only metadata: `data()`, `size()` and `dims()` are the
source's (`size` is `long_product(dims)` for the pointer form) and `View[i]`
is the same storage location as element `i` of the source. The constructors
neither read nor write element storage. -/
theorem view_construction_copies_metadata {N : Nat} [NeZero N] (rc : Bool) :
    (∀ (data : Nat) (dims : tuplet N Nat), (rc = false ∨ data ≠ 0) →
        (const_array_base.of_pointer data dims).data rc = Except.ok data
        ∧ (const_array_base.of_pointer data dims).size = long_product dims
        ∧ (const_array_base.of_pointer data dims).dims = dims
        ∧ ∀ i, i < (const_array_base.of_pointer data dims).size →
            (const_array_base.of_pointer data dims).operator_index rc i
              = Except.ok (data + i))
    ∧ (∀ source : const_array_base N, (rc = false ∨ source.m_base ≠ 0) →
        ∃ v, const_array_base.of_const_array rc source = Except.ok v
          ∧ v.data rc = source.data rc ∧ v.size = source.size ∧ v.dims = source.dims
          ∧ v.end_ rc = source.end_ rc
          ∧ ∀ i, i < v.size → v.operator_index rc i = source.operator_index rc i)
    ∧ (∀ source : array_base N, (rc = false ∨ source.m_base ≠ 0) →
        ∃ v, const_array_base.of_array rc source = Except.ok v
          ∧ v.data rc = source.data rc ∧ v.size = source.size ∧ v.dims = source.dims
          ∧ v.end_ rc = source.end_ rc
          ∧ ∀ i, i < v.size → v.operator_index rc i = source.operator_index rc i) := by
  refine ⟨?_, ?_, ?_⟩
  · intro data dims h
    refine ⟨?_, rfl, rfl, ?_⟩
    · rcases h with h | h <;> simp [const_array_base.data, const_array_base.of_pointer, h]
    · intro i hi
      exact operator_index_ok rc _ i h hi
  · intro source h
    have hd : source.data rc = Except.ok source.m_base := by
      rcases h with h | h <;> simp [const_array_base.data, h]
    have he : source.end_ rc = Except.ok source.m_end := by
      rcases h with h | h <;> simp [const_array_base.end_, h]
    refine ⟨{ m_base := source.m_base, m_size := source.size, m_end := source.m_end,
              m_dims := source.dims }, ?_, ?_, rfl, rfl, ?_, ?_⟩
    · simp [const_array_base.of_const_array, hd, he]
    · rfl
    · rfl
    · intro i _
      rfl
  · intro source h
    have hd : source.data rc = Except.ok source.m_base := by
      rcases h with h | h <;> simp [array_base.data, h]
    have he : source.end_ rc = Except.ok source.m_end := by
      rcases h with h | h <;> simp [array_base.end_, h]
    refine ⟨{ m_base := source.m_base, m_size := source.size, m_end := source.m_end,
              m_dims := source.dims }, ?_, ?_, rfl, rfl, ?_, ?_⟩
    · simp [const_array_base.of_array, hd, he]
    · rw [hd]
      rcases h with h | h <;> simp [const_array_base.data, h]
    · rw [he]
      rcases h with h | h <;> simp [const_array_base.end_, h]
    · intro i hi
      have hi2 : ¬ source.m_size ≤ i := Nat.not_le.2 hi
      simp only [const_array_base.operator_index, array_base.operator_index,
        array_base.size, throw_n88_exception]
      rcases h with h | h <;> simp [h, hi2]

theorem view_construction_copies_metadata_witness :
    (const_array_base.of_pointer 1000 (![2, 3] : tuplet 2 Nat)).data true = Except.ok 1000
    ∧ (∃ v, const_array_base.of_const_array true
              (const_array_base.of_pointer 1000 (![2, 3] : tuplet 2 Nat)) = Except.ok v
          ∧ v.data true = Except.ok 1000 ∧ v.size = 6) :=
  ⟨((view_construction_copies_metadata true).1 1000 ![2, 3] (Or.inr (by decide))).1,
   match (view_construction_copies_metadata true).2.1
      (const_array_base.of_pointer 1000 (![2, 3] : tuplet 2 Nat)) (Or.inr (by decide)) with
   | ⟨v, h1, h2, h3, _⟩ => ⟨v, h1, h2, h3.trans (by decide)⟩⟩

/-- C10, counterexample: with range checking enabled, a view of dims (3,4)
accepts the index tuple (0,5), whose second component is outside its range,
and returns the element at flat position 5. -/
theorem out_of_range_component_accepted :
    (![3, 4] : tuplet 2 Nat) 1 ≤ (![0, 5] : tuplet 2 Nat) 1
    ∧ (const_array_base.of_pointer 1000 ![3, 4]).operator_call true ![0, 5]
        = Except.ok 1005
    ∧ const_array2.operator_call true (const_array_base.of_pointer 1000 ![3, 4]) 0 5
        = Except.ok 1005
    ∧ const_array2.operator_call_tuplet true (const_array_base.of_pointer 1000 ![3, 4])
        ![0, 5] = Except.ok 1005 :=
  ⟨by decide, rfl, rfl, rfl⟩

theorem prod_univ_eq_zero_mul {N : Nat} [NeZero N] (d : tuplet N Nat) :
    ∏ j : Fin N, d j = d 0 * ∏ j ∈ Finset.Ioi (0 : Fin N), d j := by
  have hfr := finRange_eq_zero_cons N
  have hnd : (indices_from_one N).Nodup :=
    (List.nodup_cons.1 (hfr ▸ List.nodup_finRange N)).2
  rw [Fin.prod_univ_def, hfr, List.map_cons, List.prod_cons,
    Ioi_eq_toFinset [] (indices_from_one N) 0 hfr.symm, List.prod_toFinset _ hnd]

/-- C10, amended: with range checking enabled, `operator()(indices)` throws
exactly when the view is not constructed or `flat_index(indices) >= size()`;
in particular, on a view with `size() == long_product(dims())` and a row-major
offset that fits `size_t`, it throws whenever the first component is out of
range (`i_0 >= dims[0]`). -/
theorem operator_call_throws_iff {N : Nat} [NeZero N] (a : const_array_base N)
    (indices : tuplet N Nat) :
    ((∃ e, a.operator_call true indices = Except.error e)
        ↔ (a.m_base = 0 ∨ a.m_size ≤ a.flat_index indices))
    ∧ (a.m_size = long_product a.m_dims →
        (∑ k : Fin N, indices k * ∏ j ∈ Finset.Ioi k, a.m_dims j) < 2 ^ 64 →
        a.m_dims 0 ≤ indices 0 →
        ∃ e, a.operator_call true indices = Except.error e) := by
  have hiff : (∃ e, a.operator_call true indices = Except.error e)
      ↔ (a.m_base = 0 ∨ a.m_size ≤ a.flat_index indices) := by
    simp only [const_array_base.operator_call, const_array_base.operator_index,
      throw_n88_exception, Bool.true_and]
    by_cases hb : a.m_base = 0
    · simp [hb]
    · by_cases hs : a.m_size ≤ a.flat_index indices
      · simp [hb, hs]
      · simp [hb, hs]
  refine ⟨hiff, ?_⟩
  intro hs hlt h0
  apply hiff.2
  right
  rw [flat_index_mod, Nat.mod_eq_of_lt (show _ < SIZE_MOD from hlt), hs, long_product_mod,
    prod_univ_eq_zero_mul]
  calc (a.m_dims 0 * ∏ j ∈ Finset.Ioi (0 : Fin N), a.m_dims j) % SIZE_MOD
      ≤ a.m_dims 0 * ∏ j ∈ Finset.Ioi (0 : Fin N), a.m_dims j := Nat.mod_le _ _
    _ ≤ indices 0 * ∏ j ∈ Finset.Ioi (0 : Fin N), a.m_dims j := Nat.mul_le_mul_right _ h0
    _ ≤ ∑ k : Fin N, indices k * ∏ j ∈ Finset.Ioi k, a.m_dims j :=
        Finset.single_le_sum (f := fun k => indices k * ∏ j ∈ Finset.Ioi k, a.m_dims j)
          (fun _ _ => Nat.zero_le _) (Finset.mem_univ 0)

theorem operator_call_throws_iff_witness :
    ∃ e, (const_array_base.of_pointer 1000 ![3, 4]).operator_call true ![3, 0]
      = Except.error e :=
  (operator_call_throws_iff (const_array_base.of_pointer 1000 ![3, 4]) ![3, 0]).2
    rfl (by decide) (by decide)

/-! ## Theorems: decimal text of an int -/

theorem digitChar_isDigit (d : Nat) (h : d < 10) :
    (Nat.digitChar d).isDigit = true ∧ (Nat.digitChar d).toNat - 48 = d := by
  interval_cases d <;> decide

theorem digits_value_append (xs : List Char) (c : Char) :
    istream.digits_value (xs ++ [c]) = 10 * istream.digits_value xs + (c.toNat - 48) := by
  simp [istream.digits_value, List.foldl_append]

theorem toDigitsCore_spec (fuel : Nat) : ∀ (n : Nat) (ds : List Char), n < fuel →
    ∃ xs : List Char, Nat.toDigitsCore 10 fuel n ds = xs ++ ds ∧ xs ≠ []
      ∧ (∀ c ∈ xs, c.isDigit = true) ∧ istream.digits_value xs = n := by
  induction fuel with
  | zero => intro n ds h; omega
  | succ fuel ih =>
    intro n ds h
    have hd := digitChar_isDigit (n % 10) (Nat.mod_lt _ (by decide))
    rw [Nat.toDigitsCore]
    by_cases h0 : n / 10 = 0
    · simp only [h0, if_true]
      refine ⟨[Nat.digitChar (n % 10)], rfl, by simp, ?_, ?_⟩
      · intro c hc
        rw [List.mem_singleton] at hc
        rw [hc]; exact hd.1
      · have hn : n % 10 = n := Nat.mod_eq_of_lt (by omega)
        have h2 := hd.2
        rw [hn] at h2
        simp [istream.digits_value, h2, hn]
    · simp only [h0, if_false]
      obtain ⟨xs, hx, hne, hdig, hval⟩ := ih (n / 10) (Nat.digitChar (n % 10) :: ds) (by omega)
      refine ⟨xs ++ [Nat.digitChar (n % 10)], by simp [hx], by simp, ?_, ?_⟩
      · intro c hc
        rcases List.mem_append.1 hc with hc | hc
        · exact hdig c hc
        · rw [List.mem_singleton] at hc
          rw [hc]; exact hd.1
      · rw [digits_value_append, hval, hd.2]
        omega

theorem toDigits_spec (n : Nat) :
    Nat.toDigits 10 n ≠ [] ∧ (∀ c ∈ Nat.toDigits 10 n, c.isDigit = true)
      ∧ istream.digits_value (Nat.toDigits 10 n) = n := by
  obtain ⟨xs, hx, hne, hdig, hval⟩ := toDigitsCore_spec (n + 1) n [] (Nat.lt_succ_self n)
  rw [List.append_nil] at hx
  rw [Nat.toDigits, hx]
  exact ⟨hne, hdig, hval⟩

theorem isDigit_not_special (c : Char) (h : c.isDigit = true) :
    istream.isspace c = false ∧ c ≠ '-' ∧ c ≠ '+' ∧ c ≠ ' ' ∧ c ≠ ',' := by
  have key : ∀ x : Char, x.isDigit = false → c ≠ x := by
    intro x hx hcx
    rw [hcx, hx] at h
    exact Bool.noConfusion h
  have h1 := key ' ' (by decide)
  have h2 := key (Char.ofNat 9) (by decide)
  have h3 := key (Char.ofNat 10) (by decide)
  have h4 := key (Char.ofNat 11) (by decide)
  have h5 := key (Char.ofNat 12) (by decide)
  have h6 := key (Char.ofNat 13) (by decide)
  refine ⟨?_, key '-' (by decide), key '+' (by decide), h1, key ',' (by decide)⟩
  simp [istream.isspace, h1, h2, h3, h4, h5, h6]

theorem takeWhile_run {p : Char → Bool} (xs rest : List Char) (hx : ∀ c ∈ xs, p c = true)
    (hr : ∀ c, rest.head? = some c → p c = false) :
    (xs ++ rest).takeWhile p = xs ∧ (xs ++ rest).dropWhile p = rest := by
  induction xs with
  | nil =>
    cases rest with
    | nil => simp
    | cons r rs => simp [hr r rfl]
  | cons x xs ih =>
    have hx1 := hx x (List.mem_cons_self _ _)
    have ih2 := ih (fun c hc => hx c (List.mem_cons_of_mem _ hc))
    simp [List.takeWhile, List.dropWhile, hx1, ih2.1, ih2.2]

theorem while_not_space (x : Char) (t : List Char) (h : istream.isspace x = false) :
    (x :: t).takeWhile istream.isspace = [] ∧ (x :: t).dropWhile istream.isspace = x :: t := by
  simp [List.takeWhile, List.dropWhile, h]

theorem read_int_nat_digits (xs rest bk : List Char) (old : Int) (hne : xs ≠ [])
    (hx : ∀ c ∈ xs, c.isDigit = true) (hr : ∀ c, rest.head? = some c → c.isDigit = false)
    (hhi : (istream.digits_value xs : Int) ≤ istream.INT_MAX) :
    (istream.clean bk (xs ++ rest)).read_int old
      = ({ back := xs.reverse ++ bk, front := rest, eofbit := rest.isEmpty, failbit := false,
           badbit := false }, (istream.digits_value xs : Int)) := by
  obtain ⟨x, xs1, rfl⟩ := List.exists_cons_of_ne_nil hne
  have hx0 := isDigit_not_special x (hx x (List.mem_cons_self _ _))
  have htd := takeWhile_run (x :: xs1) rest hx hr
  rw [List.cons_append] at htd
  have hws := while_not_space x (xs1 ++ rest) hx0.1
  have hlo : ¬ ((istream.digits_value (x :: xs1) : Int) < istream.INT_MIN) := by
    have : (0 : Int) ≤ (istream.digits_value (x :: xs1) : Int) := Int.natCast_nonneg _
    simp only [istream.INT_MIN]
    omega
  have hhi2 : ¬ (istream.INT_MAX < (istream.digits_value (x :: xs1) : Int)) := not_lt.2 hhi
  simp only [istream.read_int, istream.clean, istream.good, List.cons_append, hws.1, hws.2]
  simp [hx0.2.1, hx0.2.2.1, htd.1, htd.2, hlo, hhi2]

theorem read_int_neg_digits (xs rest bk : List Char) (old : Int) (hne : xs ≠ [])
    (hx : ∀ c ∈ xs, c.isDigit = true) (hr : ∀ c, rest.head? = some c → c.isDigit = false)
    (hlo : istream.INT_MIN ≤ - (istream.digits_value xs : Int)) :
    (istream.clean bk ('-' :: (xs ++ rest))).read_int old
      = ({ back := xs.reverse ++ '-' :: bk, front := rest, eofbit := rest.isEmpty,
           failbit := false, badbit := false }, - (istream.digits_value xs : Int)) := by
  have htd := takeWhile_run xs rest hx hr
  have hlo2 : ¬ (- (istream.digits_value xs : Int) < istream.INT_MIN) := not_lt.2 hlo
  have hhi2 : ¬ (istream.INT_MAX < - (istream.digits_value xs : Int)) := by
    have : (0 : Int) ≤ (istream.digits_value xs : Int) := Int.natCast_nonneg _
    simp only [istream.INT_MAX]
    omega
  have hws := while_not_space '-' (xs ++ rest) (by decide)
  simp only [istream.read_int, istream.clean, istream.good, hws.1, hws.2]
  simp [htd.1, htd.2, hlo2, hhi2, hne]

theorem read_int_int_text (v : Int) (hlo : istream.INT_MIN ≤ v) (hhi : v ≤ istream.INT_MAX)
    (bk rest : List Char) (old : Int)
    (hr : ∀ c, rest.head? = some c → c.isDigit = false) :
    (istream.clean bk (int_text v ++ rest)).read_int old
      = ({ back := (int_text v).reverse ++ bk, front := rest, eofbit := rest.isEmpty,
           failbit := false, badbit := false }, v) := by
  obtain ⟨hne, hdig, hval⟩ := toDigits_spec v.natAbs
  by_cases hv : v < 0
  · have e : int_text v = '-' :: Nat.toDigits 10 v.natAbs := by
      simp [int_text, write_int, hv]
    have hvv : - (istream.digits_value (Nat.toDigits 10 v.natAbs) : Int) = v := by
      rw [hval]; omega
    rw [e, List.cons_append, read_int_neg_digits _ rest bk old hne hdig hr (by rw [hvv]; exact hlo),
      hvv]
    simp
  · have e : int_text v = Nat.toDigits 10 v.natAbs := by
      simp [int_text, write_int, hv]
    have hvv : (istream.digits_value (Nat.toDigits 10 v.natAbs) : Int) = v := by
      rw [hval]; omega
    rw [e, read_int_nat_digits _ rest bk old hne hdig hr (by rw [hvv]; exact hhi), hvv]

theorem int_text_head (v : Int) :
    ∃ c cs, int_text v = c :: cs ∧ c ≠ ' ' ∧ c ≠ ',' ∧ c ≠ '[' ∧ c ≠ '(' := by
  obtain ⟨hne, hdig, _⟩ := toDigits_spec v.natAbs
  by_cases hv : v < 0
  · refine ⟨'-', Nat.toDigits 10 v.natAbs, by simp [int_text, write_int, hv], ?_⟩
    decide
  · obtain ⟨x, xs1, hx⟩ := List.exists_cons_of_ne_nil hne
    refine ⟨x, xs1, by simp [int_text, write_int, hv, hx], ?_⟩
    have hd : x.isDigit = true := hdig x (by rw [hx]; exact List.mem_cons_self _ _)
    have key : ∀ y : Char, y.isDigit = false → x ≠ y := by
      intro y hy hxy
      rw [hxy, hy] at hd
      exact Bool.noConfusion hd
    exact ⟨key ' ' (by decide), key ',' (by decide), key '[' (by decide), key '(' (by decide)⟩

/-! ## Theorems: the white-space loops -/

theorem check_outside_law : CheckLaw check_outside := by
  constructor
  · intro c s h
    simp only [istream.good, Bool.and_eq_true, Bool.not_eq_true'] at h
    simp [check_outside, istream.fail, istream.bad, istream.eof, h.1.1, h.1.2, h.2]
  · intro c s h
    cases s
    simp_all [check_outside, istream.fail, istream.setstate_failbit]

theorem check_inside_law (more : Bool) : CheckLaw (check_inside more) := by
  constructor
  · intro c s h
    simp only [istream.good, Bool.and_eq_true, Bool.not_eq_true'] at h
    simp [check_inside, istream.fail, istream.bad, istream.eof, h.1.1, h.1.2, h.2]
  · intro c s h
    simp [check_inside, istream.fail, h]

@[simp] theorem Flow.bind_returned {α β : Type} (s : istream) (k : α → Flow β) :
    (Flow.returned s : Flow α).bind k = Flow.returned s := rfl

@[simp] theorem Flow.bind_next {α β : Type} (a : α) (k : α → Flow β) :
    (Flow.next a).bind k = k a := rfl

@[simp] theorem clean_good (bk fr : List Char) : (istream.clean bk fr).good = true := rfl

@[simp] theorem get_clean_cons (bk fr : List Char) (x : Char) :
    (istream.clean bk (x :: fr)).get = (x, istream.clean (x :: bk) fr) := rfl

theorem get_clean_nil (bk : List Char) :
    (istream.clean bk []).get
      = (istream.eof_char, { back := bk, front := [], eofbit := true, failbit := true,
                             badbit := false }) := rfl

@[simp] theorem unget_clean_cons (bk fr : List Char) (x : Char) :
    (istream.clean (x :: bk) fr).unget = istream.clean bk (x :: fr) := rfl

theorem skip_spaces_ne {check : Char → istream → Flow (Char × istream)} (c : Char)
    (s : istream) (h : c ≠ ' ') : skip_spaces check c s = Flow.next (c, s) := by
  simp [skip_spaces, skip_spaces_fuel, h]

/-- The loop equation of `skip_spaces`: the fuel it starts with is enough. -/
theorem skip_spaces_unfold {check : Char → istream → Flow (Char × istream)}
    (law : CheckLaw check) (c : Char) (s : istream) :
    skip_spaces check c s
      = if c = ' ' then (check s.get.1 s.get.2).bind (fun p => skip_spaces check p.1 p.2)
        else Flow.next (c, s) := by
  by_cases hc : c = ' '
  · subst hc
    rw [skip_spaces, skip_spaces_fuel]
    simp only [if_true]
    by_cases hg : s.good = true
    · cases hf : s.front with
      | nil =>
        have e : s.get = (istream.eof_char, { s with eofbit := true, failbit := true }) := by
          simp [istream.get, hg, hf]
        rw [e]
        simp [law.returned_of_fail]
      | cons y fr =>
        have e : s.get = (y, { s with back := y :: s.back, front := fr }) := by
          simp [istream.get, hg, hf]
        have hg2 : ({ s with back := y :: s.back, front := fr } : istream).good = true := hg
        rw [e]
        simp only [law.next_of_good _ _ hg2, Flow.bind_next, List.length_cons]
        rfl
    · have e : s.get = (istream.eof_char, { s with failbit := true }) := by
        simp [istream.get, hg]
      rw [e]
      simp [law.returned_of_fail]
  · simp [skip_spaces_ne c s hc, hc]

theorem skip_spaces_run {check : Char → istream → Flow (Char × istream)}
    (law : CheckLaw check) (d : Char) (tl : List Char) (hd : d ≠ ' ') (n : Nat) :
    ∀ bk : List Char, ∃ bk1 : List Char,
      skip_spaces check ' ' (istream.clean bk (List.replicate n ' ' ++ d :: tl))
        = Flow.next (d, istream.clean (d :: bk1) tl) := by
  induction n with
  | zero =>
    intro bk
    refine ⟨bk, ?_⟩
    rw [skip_spaces_unfold law]
    simp [law.next_of_good, skip_spaces_ne _ _ hd]
  | succ n ih =>
    intro bk
    obtain ⟨bk1, h1⟩ := ih (' ' :: bk)
    refine ⟨bk1, ?_⟩
    rw [skip_spaces_unfold law]
    simp [law.next_of_good, List.replicate_succ, h1]

theorem skip_spaces_run_end {check : Char → istream → Flow (Char × istream)}
    (law : CheckLaw check) (n : Nat) :
    ∀ bk : List Char, ∃ s1 : istream,
      skip_spaces check ' ' (istream.clean bk (List.replicate n ' ')) = Flow.returned s1
        ∧ s1.failbit = true ∧ s1.eofbit = true := by
  induction n with
  | zero =>
    intro bk
    refine ⟨{ back := bk, front := [], eofbit := true, failbit := true, badbit := false },
      ?_, rfl, rfl⟩
    rw [skip_spaces_unfold law]
    simp only [if_true, List.replicate_zero, get_clean_nil]
    rw [law.returned_of_fail _ _ rfl]
    rfl
  | succ n ih =>
    intro bk
    obtain ⟨s1, h1, h2⟩ := ih (' ' :: bk)
    refine ⟨s1, ?_, h2⟩
    rw [skip_spaces_unfold law]
    simp [law.next_of_good, List.replicate_succ, h1]

/-- Reading one character and skipping white space, on a run of `n` spaces
followed by the character `d`. -/
theorem get_skip_run {check : Char → istream → Flow (Char × istream)}
    (law : CheckLaw check) (d : Char) (tl : List Char) (hd : d ≠ ' ') (n : Nat)
    (bk : List Char) : ∃ bk1 : List Char,
      (check (istream.clean bk (List.replicate n ' ' ++ d :: tl)).get.1
          (istream.clean bk (List.replicate n ' ' ++ d :: tl)).get.2).bind
        (fun p => skip_spaces check p.1 p.2)
        = Flow.next (d, istream.clean (d :: bk1) tl) := by
  have h := skip_spaces_run law d tl hd n bk
  rw [skip_spaces_unfold law] at h
  simpa using h

theorem get_skip_run_end {check : Char → istream → Flow (Char × istream)}
    (law : CheckLaw check) (n : Nat) (bk : List Char) : ∃ s1 : istream,
      (check (istream.clean bk (List.replicate n ' ')).get.1
          (istream.clean bk (List.replicate n ' ')).get.2).bind
        (fun p => skip_spaces check p.1 p.2) = Flow.returned s1
        ∧ s1.failbit = true ∧ s1.eofbit = true := by
  have h := skip_spaces_run_end law n bk
  rw [skip_spaces_unfold law] at h
  simpa using h

theorem Flow.bind_assoc {α β γ : Type} (x : Flow α) (f : α → Flow β) (g : β → Flow γ) :
    (x.bind f).bind g = x.bind (fun a => (f a).bind g) := by
  cases x <;> rfl

theorem get_skip_run_then {β : Type} {check : Char → istream → Flow (Char × istream)}
    (law : CheckLaw check) (d : Char) (tl : List Char) (hd : d ≠ ' ') (n : Nat)
    (bk : List Char) : ∃ bk1 : List Char, ∀ k : Char × istream → Flow β,
      (check (istream.clean bk (List.replicate n ' ' ++ d :: tl)).get.1
          (istream.clean bk (List.replicate n ' ' ++ d :: tl)).get.2).bind
        (fun p => (skip_spaces check p.1 p.2).bind k)
        = k (d, istream.clean (d :: bk1) tl) := by
  obtain ⟨bk1, h⟩ := get_skip_run law d tl hd n bk
  refine ⟨bk1, fun k => ?_⟩
  rw [← Flow.bind_assoc, h]
  rfl

theorem get_skip_run_end_then {β : Type} {check : Char → istream → Flow (Char × istream)}
    (law : CheckLaw check) (n : Nat) (bk : List Char) : ∃ s1 : istream,
      (∀ k : Char × istream → Flow β,
        (check (istream.clean bk (List.replicate n ' ')).get.1
            (istream.clean bk (List.replicate n ' ')).get.2).bind
          (fun p => (skip_spaces check p.1 p.2).bind k) = Flow.returned s1)
        ∧ s1.failbit = true ∧ s1.eofbit = true := by
  obtain ⟨s1, h, h2⟩ := get_skip_run_end law n bk
  refine ⟨s1, fun k => ?_, h2⟩
  rw [← Flow.bind_assoc, h]
  rfl

/-- After an element: spaces, a comma, spaces, then the character `d`. -/
theorem skip_separator_comma (more : Bool) (a b : Nat) (d : Char) (tl bk : List Char)
    (hd : d ≠ ' ') : ∃ bk1 : List Char,
      skip_separator more true
          (istream.clean bk (List.replicate a ' ' ++ ',' :: (List.replicate b ' ' ++ d :: tl)))
        = Flow.next (d, istream.clean (d :: bk1) tl) := by
  obtain ⟨bk1, h1⟩ := get_skip_run_then (β := Char × istream) (check_inside_law more) ','
    (List.replicate b ' ' ++ d :: tl) (by decide) a bk
  obtain ⟨bk2, h2⟩ := get_skip_run (check_inside_law more) d tl hd b (',' :: bk1)
  refine ⟨bk2, ?_⟩
  rw [skip_separator, h1]
  simpa using h2

/-- After an element: spaces, then a character `d` that is not taken as the
comma. -/
theorem skip_separator_plain (more comma : Bool) (a : Nat) (d : Char) (tl bk : List Char)
    (hd : d ≠ ' ') (hc : d ≠ ',' ∨ comma = false) : ∃ bk1 : List Char,
      skip_separator more comma (istream.clean bk (List.replicate a ' ' ++ d :: tl))
        = Flow.next (d, istream.clean (d :: bk1) tl) := by
  obtain ⟨bk1, h1⟩ := get_skip_run_then (β := Char × istream) (check_inside_law more) d
    tl hd a bk
  refine ⟨bk1, ?_⟩
  have hc2 : ¬ (d = ',' ∧ comma = true) := by
    rintro ⟨h3, h4⟩
    rcases hc with hc | hc
    · exact hc h3
    · rw [hc] at h4; exact Bool.noConfusion h4
  rw [skip_separator, h1]
  simp [hc2, skip_spaces_ne _ _ hd]

/-- After an element: spaces up to the end of the input. -/
theorem skip_separator_end (more comma : Bool) (a : Nat) (bk : List Char) :
    ∃ s1 : istream,
      skip_separator more comma (istream.clean bk (List.replicate a ' ')) = Flow.returned s1
        ∧ s1.failbit = true ∧ s1.eofbit = true := by
  obtain ⟨s1, h1, h2⟩ := get_skip_run_end_then (β := Char × istream) (check_inside_law more)
    a bk
  refine ⟨s1, ?_, h2⟩
  rw [skip_separator, h1]

/-- After an element: spaces, a comma, spaces up to the end of the input. -/
theorem skip_separator_comma_end (more : Bool) (a b : Nat) (bk : List Char) :
    ∃ s1 : istream,
      skip_separator more true
          (istream.clean bk (List.replicate a ' ' ++ ',' :: List.replicate b ' '))
        = Flow.returned s1 ∧ s1.failbit = true ∧ s1.eofbit = true := by
  obtain ⟨bk1, h1⟩ := get_skip_run_then (β := Char × istream) (check_inside_law more) ','
    (List.replicate b ' ') (by decide) a bk
  obtain ⟨s1, h2, h3⟩ := get_skip_run_end (check_inside_law more) b (',' :: bk1)
  refine ⟨s1, ?_, h3⟩
  rw [skip_separator, h1]
  simpa using h2

/-! ## Theorems: the element loop -/

theorem spaces_head_not_digit (a : Nat) (d : Char) (tl : List Char)
    (hd : a = 0 → d.isDigit = false) :
    ∀ c, (List.replicate a ' ' ++ d :: tl).head? = some c → c.isDigit = false := by
  intro c hc
  cases a with
  | zero =>
    simp at hc
    rw [← hc]; exact hd rfl
  | succ a =>
    simp [List.replicate_succ] at hc
    rw [← hc]; decide

/-- The state of the element loop after reading the text of an `int` that is
followed by more input. -/
theorem element_loop_read {N : Nat} (mb : Char) (i : Fin N) (rest : List (Fin N))
    (c : Char) (bk fr : List Char) (t : tuplet N Int) (v : Int)
    (hlo : istream.INT_MIN ≤ v) (hhi : v ≤ istream.INT_MAX) (fr2 : List Char)
    (hfr : c :: fr = int_text v ++ fr2) (hne : fr2 ≠ [])
    (hfr2 : ∀ y, fr2.head? = some y → y.isDigit = false) :
    (∀ s1, skip_separator (more_expected mb i) (decide (i.val + 1 < N))
            (istream.clean ((int_text v).reverse ++ bk) fr2) = Flow.returned s1 →
        element_loop read_int mb (i :: rest) c (istream.clean (c :: bk) fr) t
          = Except.ok (Flow.returned s1, Function.update t i v))
    ∧ (∀ p, skip_separator (more_expected mb i) (decide (i.val + 1 < N))
            (istream.clean ((int_text v).reverse ++ bk) fr2) = Flow.next p →
        element_loop read_int mb (i :: rest) c (istream.clean (c :: bk) fr) t
          = element_loop read_int mb rest p.1 p.2 (Function.update t i v)) := by
  obtain ⟨y, fr3, rfl⟩ := List.exists_cons_of_ne_nil hne
  have hr := read_int_int_text v hlo hhi bk (y :: fr3) (t i) hfr2
  have hc : ({ back := (int_text v).reverse ++ bk, front := y :: fr3,
               eofbit := (y :: fr3).isEmpty, failbit := false, badbit := false } : istream)
      = istream.clean ((int_text v).reverse ++ bk) (y :: fr3) := rfl
  rw [hc] at hr
  constructor
  · intro s1 hs
    rw [element_loop]
    simp only [unget_clean_cons, read_int, hfr, hr]
    unfold more_expected at hs
    rw [hs]
    rfl
  · intro p hs
    rw [element_loop]
    simp only [unget_clean_cons, read_int, hfr, hr]
    unfold more_expected at hs
    rw [hs]
    rfl

/-- The iteration of the element loop in which the text of an `int` ends the
input. -/
theorem element_loop_step_eof {N : Nat} (mb : Char) (i : Fin N) (rest : List (Fin N))
    (c : Char) (bk fr : List Char) (t : tuplet N Int) (v : Int)
    (hlo : istream.INT_MIN ≤ v) (hhi : v ≤ istream.INT_MAX)
    (hfr : c :: fr = int_text v) :
    element_loop read_int mb (i :: rest) c (istream.clean (c :: bk) fr) t
      = Except.ok (Flow.returned
          { back := (int_text v).reverse ++ bk, front := [], eofbit := true,
            failbit := more_expected mb i, badbit := false }, Function.update t i v) := by
  have h := read_int_int_text v hlo hhi bk [] (t i) (by simp)
  rw [List.append_nil] at h
  rw [element_loop]
  simp only [unget_clean_cons, read_int, hfr, h]
  unfold more_expected
  generalize (mb != Char.ofNat 0 || decide (i.val + 1 ≠ N)) = m
  cases m <;> rfl

/-- Reading an `int` at a character that cannot begin one fails without
extracting anything and stores 0. -/
theorem read_int_no_digits (c : Char) (bk fr : List Char) (old : Int)
    (h1 : istream.isspace c = false) (h2 : c ≠ '-') (h3 : c ≠ '+') (h4 : c.isDigit = false) :
    (istream.clean bk (c :: fr)).read_int old
      = ({ back := bk, front := c :: fr, eofbit := false, failbit := true, badbit := false },
         0) := by
  have hws := while_not_space c fr h1
  simp only [istream.read_int, istream.clean, istream.good, hws.1, hws.2]
  simp [h2, h3, List.takeWhile, List.dropWhile, h4]

/-- The iteration of the element loop on a character that cannot begin an
`int`: the element read fails. -/
theorem element_loop_step_fail {N : Nat} (mb : Char) (i : Fin N) (rest : List (Fin N))
    (c : Char) (bk fr : List Char) (t : tuplet N Int)
    (h1 : istream.isspace c = false) (h2 : c ≠ '-') (h3 : c ≠ '+') (h4 : c.isDigit = false) :
    element_loop read_int mb (i :: rest) c (istream.clean (c :: bk) fr) t
      = Except.ok (Flow.returned
          { back := bk, front := c :: fr, eofbit := false, failbit := true, badbit := false },
          Function.update t i 0) := by
  rw [element_loop]
  simp only [unget_clean_cons, read_int, read_int_no_digits c bk fr (t i) h1 h2 h3 h4]
  rfl

theorem elems_text_head {N : Nat} (u : tuplet N Int) (ga gb : Fin N → Nat)
    (l : List (Fin N)) (x : Char) (tl : List Char) (hx : x ≠ ' ') :
    ∃ d tl1, elems_text u ga gb l ++ x :: tl = d :: tl1 ∧ d ≠ ' ' := by
  cases l with
  | nil => exact ⟨x, tl, rfl, hx⟩
  | cons i rest =>
    obtain ⟨c, cs, hc, hc1, _⟩ := int_text_head (u i)
    refine ⟨c, cs ++ (List.replicate (ga i) ' ' ++
      ',' :: (List.replicate (gb i) ' ' ++ elems_text u ga gb rest)) ++ x :: tl, ?_, hc1⟩
    rw [elems_text, hc]
    rfl

/-- The element loop over elements that are each followed by white space, a
comma and white space. -/
theorem element_loop_elems {N : Nat} (mb : Char) (u : tuplet N Int) (ga gb : Fin N → Nat)
    (rest : List (Fin N)) (x : Char) (tl : List Char) (hx : x ≠ ' ') :
    ∀ (l : List (Fin N)) (c : Char) (bk fr : List Char) (t : tuplet N Int),
      (∀ i ∈ l, i.val + 1 < N ∧ istream.INT_MIN ≤ u i ∧ u i ≤ istream.INT_MAX) →
      c :: fr = elems_text u ga gb l ++ x :: tl →
      ∃ bk1 : List Char,
        element_loop read_int mb (l ++ rest) c (istream.clean (c :: bk) fr) t
          = element_loop read_int mb rest x (istream.clean (x :: bk1) tl) (assign u t l) := by
  intro l
  induction l with
  | nil =>
    intro c bk fr t _ h
    simp only [elems_text, List.nil_append, List.cons.injEq] at h
    refine ⟨bk, ?_⟩
    rw [h.1, h.2]
    rfl
  | cons i l ih =>
    intro c bk fr t hl h
    have hi := hl i (List.mem_cons_self _ _)
    obtain ⟨d, tl1, hd, hdne⟩ := elems_text_head u ga gb l x tl hx
    have h2 : c :: fr = int_text (u i) ++ (List.replicate (ga i) ' ' ++
        ',' :: (List.replicate (gb i) ' ' ++ d :: tl1)) := by
      rw [h, elems_text, ← hd]
      simp only [List.append_assoc, List.cons_append]
    obtain ⟨bk1, hs⟩ := skip_separator_comma (more_expected mb i) (ga i) (gb i) d tl1
      ((int_text (u i)).reverse ++ bk) hdne
    have hstep := (element_loop_read mb i (l ++ rest) c bk fr t (u i) hi.2.1 hi.2.2 _ h2
      (by simp) (spaces_head_not_digit _ _ _ (fun _ => by decide))).2
      (d, istream.clean (d :: bk1) tl1)
      (by rw [decide_eq_true hi.1]; exact hs)
    obtain ⟨bk2, h3⟩ := ih d bk1 tl1 (Function.update t i (u i))
      (fun j hj => hl j (List.mem_cons_of_mem _ hj)) hd.symm
    refine ⟨bk2, ?_⟩
    rw [List.cons_append, hstep, h3]
    rfl

/-- An iteration of the element loop on an element followed by white space and
a character `d` that is not taken as the comma. -/
theorem element_loop_plain {N : Nat} (mb : Char) (i : Fin N) (rest : List (Fin N))
    (c : Char) (bk fr : List Char) (t : tuplet N Int) (v : Int)
    (hlo : istream.INT_MIN ≤ v) (hhi : v ≤ istream.INT_MAX) (r : Nat) (d : Char)
    (tl : List Char) (hfr : c :: fr = int_text v ++ (List.replicate r ' ' ++ d :: tl))
    (hd : d ≠ ' ') (hdig : r = 0 → d.isDigit = false) (hc : d ≠ ',' ∨ i.val + 1 = N) :
    ∃ bk1 : List Char,
      element_loop read_int mb (i :: rest) c (istream.clean (c :: bk) fr) t
        = element_loop read_int mb rest d (istream.clean (d :: bk1) tl)
            (Function.update t i v) := by
  have hc2 : d ≠ ',' ∨ decide (i.val + 1 < N) = false := by
    rcases hc with hc | hc
    · exact Or.inl hc
    · right; simp [hc]
  obtain ⟨bk1, hs⟩ := skip_separator_plain (more_expected mb i) (decide (i.val + 1 < N)) r d tl
    ((int_text v).reverse ++ bk) hd hc2
  exact ⟨bk1, (element_loop_read mb i rest c bk fr t v hlo hhi _ hfr (by simp)
    (spaces_head_not_digit _ _ _ hdig)).2 (d, istream.clean (d :: bk1) tl) hs⟩

/-- An iteration of the element loop on an element followed by one or more
spaces that end the input: the function returns with `failbit` set. -/
theorem element_loop_spaces_end {N : Nat} (mb : Char) (i : Fin N) (rest : List (Fin N))
    (c : Char) (bk fr : List Char) (t : tuplet N Int) (v : Int)
    (hlo : istream.INT_MIN ≤ v) (hhi : v ≤ istream.INT_MAX) (r : Nat)
    (hfr : c :: fr = int_text v ++ List.replicate (r + 1) ' ') :
    ∃ s1 : istream,
      element_loop read_int mb (i :: rest) c (istream.clean (c :: bk) fr) t
        = Except.ok (Flow.returned s1, Function.update t i v)
      ∧ s1.failbit = true ∧ s1.eofbit = true := by
  obtain ⟨s1, hs, h2⟩ := skip_separator_end (more_expected mb i) (decide (i.val + 1 < N))
    (r + 1) ((int_text v).reverse ++ bk)
  refine ⟨s1, (element_loop_read mb i rest c bk fr t v hlo hhi _ hfr (by simp) ?_).1 s1 hs, h2⟩
  intro y hy
  simp [List.replicate_succ] at hy
  rw [← hy]; decide

theorem of_text_eq_clean (text : List Char) : istream.of_text text = istream.clean [] text :=
  rfl

/-- The opening of a bracketed tuple: white space, the bracket, white space and
the first character `d` of what follows. -/
theorem open_bracket_bracketed (sq : Bool) (l m : Nat) (d : Char) (tl : List Char)
    (hd : d ≠ ' ') : ∃ bk1 : List Char,
      open_bracket (istream.of_text (List.replicate l ' ' ++
          (if sq then '[' else '(') :: (List.replicate m ' ' ++ d :: tl)))
        = Flow.next (d, istream.clean (d :: bk1) tl, if sq then ']' else ')') := by
  have hob : (if sq then '[' else '(') ≠ ' ' := by cases sq <;> decide
  obtain ⟨bk1, h1⟩ := get_skip_run_then (β := Char × istream × Char) check_outside_law
    (if sq then '[' else '(') (List.replicate m ' ' ++ d :: tl) hob l []
  obtain ⟨bk2, h2⟩ := get_skip_run_then (β := Char × istream × Char) check_outside_law
    d tl hd m ((if sq then '[' else '(') :: bk1)
  refine ⟨bk2, ?_⟩
  rw [open_bracket, of_text_eq_clean, h1]
  cases sq
  · simp only [Bool.false_eq_true, if_false] at h2 ⊢
    simp only [show ('(' : Char) ≠ '[' by decide, if_false, if_true,
      show ((')' : Char) != Char.ofNat 0) = true by decide]
    rw [h2]
  · simp only [if_true] at h2 ⊢
    simp only [show ((']' : Char) != Char.ofNat 0) = true by decide, if_true]
    rw [h2]

/-- The opening of a tuple without bracket: white space and the first character
`d`. -/
theorem open_bracket_plain (l : Nat) (d : Char) (tl : List Char)
    (hd : d ≠ ' ') (h1 : d ≠ '[') (h2 : d ≠ '(') : ∃ bk1 : List Char,
      open_bracket (istream.of_text (List.replicate l ' ' ++ d :: tl))
        = Flow.next (d, istream.clean (d :: bk1) tl, Char.ofNat 0) := by
  obtain ⟨bk1, h⟩ := get_skip_run_then (β := Char × istream × Char) check_outside_law
    d tl hd l []
  refine ⟨bk1, ?_⟩
  rw [open_bracket, of_text_eq_clean, h]
  simp [h1, h2]

/-- The end of `operator>>` when a bracket has to be matched and the current
character `d` is not a space. -/
theorem close_bracket_at (mb d : Char) (bk tl : List Char) (hmb : mb ≠ Char.ofNat 0)
    (hd : d ≠ ' ') :
    close_bracket mb d (istream.clean (d :: bk) tl)
      = Except.ok (if d ≠ mb then (istream.clean (d :: bk) tl).setstate_failbit
                   else istream.clean (d :: bk) tl).peek := by
  rw [close_bracket, skip_spaces_ne _ _ hd]
  simp [n88_assert, hmb]

/-- The end of `operator>>` when no bracket was opened: the assertion fails. -/
theorem close_bracket_no_bracket (d : Char) (s : istream) :
    close_bracket (Char.ofNat 0) d s = Except.error "Assertion failure : match_bracket" := rfl

/-! ## Theorems: the element loop on the text of a tuplet -/

theorem body_text_concat {N : Nat} (u : tuplet N Int) (ga gb : Fin N → Nat) (i : Fin N) :
    ∀ l : List (Fin N),
      body_text u ga gb (l ++ [i]) = elems_text u ga gb l ++ int_text (u i) := by
  intro l
  induction l with
  | nil => rfl
  | cons j l ih =>
    cases l with
    | nil => simp [body_text, elems_text]
    | cons k l =>
      have ih2 : body_text u ga gb (k :: (l ++ [i]))
          = elems_text u ga gb (k :: l) ++ int_text (u i) := ih
      rw [List.cons_append, List.cons_append, body_text, ih2]
      simp only [elems_text, List.append_assoc, List.cons_append]

theorem assign_apply {N : Nat} {T : Type} (u : tuplet N T) (l : List (Fin N)) :
    ∀ (t : tuplet N T) (j : Fin N), assign u t l j = if j ∈ l then u j else t j := by
  induction l with
  | nil => intro t j; simp [assign]
  | cons i l ih =>
    intro t j
    rw [assign, List.foldl_cons]
    have h := ih (Function.update t i (u i)) j
    rw [assign] at h
    rw [h]
    by_cases hj : j ∈ l
    · simp [hj]
    · by_cases hji : j = i
      · subst hji; simp
      · simp [hj, hji, Function.update_noteq hji]

theorem assign_all {N : Nat} {T : Type} (u t : tuplet N T) (l : List (Fin N)) (i : Fin N)
    (h : l ++ [i] = List.finRange N) : Function.update (assign u t l) i (u i) = u := by
  funext j
  by_cases hji : j = i
  · subst hji; simp
  · rw [Function.update_noteq hji, assign_apply]
    have hm : j ∈ l ++ [i] := h ▸ List.mem_finRange j
    have hl : j ∈ l := by
      rcases List.mem_append.1 hm with hm | hm
      · exact hm
      · exact absurd (List.mem_singleton.1 hm) hji
    simp [hl]

/-- The indices of a tuplet of rank `N >= 1`: those before the last, each with
`i + 1 < N`, and the last. -/
theorem finRange_split (N : Nat) [NeZero N] :
    ∃ (l : List (Fin N)) (i : Fin N), l ++ [i] = List.finRange N ∧ i.val + 1 = N
      ∧ ∀ j ∈ l, j.val + 1 < N := by
  obtain ⟨n, rfl⟩ := Nat.exists_eq_succ_of_ne_zero (NeZero.ne N)
  refine ⟨(List.finRange n).map Fin.castSucc, Fin.last n, (List.finRange_succ_last n).symm,
    rfl, ?_⟩
  intro j hj
  obtain ⟨k, _, rfl⟩ := List.mem_map.1 hj
  simp

/-- The element loop on the text of a whole tuplet followed by white space and
a character `d` that is neither a space nor a digit. -/
theorem element_loop_body {N : Nat} [NeZero N] (mb : Char) (u t : tuplet N Int)
    (hu : in_int_range u) (ga gb : Fin N → Nat) (r : Nat) (d : Char) (tl : List Char)
    (hd : d ≠ ' ') (hdig : r = 0 → d.isDigit = false) (c : Char) (bk fr : List Char)
    (hfr : c :: fr = body_text u ga gb (List.finRange N) ++ (List.replicate r ' ' ++ d :: tl)) :
    ∃ bk1 : List Char,
      element_loop read_int mb (List.finRange N) c (istream.clean (c :: bk) fr) t
        = Except.ok (Flow.next (d, istream.clean (d :: bk1) tl), u) := by
  obtain ⟨l, i, hsplit, hi, hl⟩ := finRange_split N
  obtain ⟨x, xs, hx, hx1, _⟩ := int_text_head (u i)
  rw [← hsplit, body_text_concat, hx, List.append_assoc, List.cons_append] at hfr
  obtain ⟨bk1, h1⟩ := element_loop_elems mb u ga gb [i] x _ hx1 l c bk fr t
    (fun j hj => ⟨hl j hj, hu j⟩) hfr
  obtain ⟨bk2, h2⟩ := element_loop_plain mb i [] x bk1 (xs ++ (List.replicate r ' ' ++ d :: tl))
    (assign u t l) (u i) (hu i).1 (hu i).2 r d tl (by rw [hx]; rfl) hd hdig (Or.inr hi)
  refine ⟨bk2, ?_⟩
  rw [← hsplit, h1, h2, assign_all u t l i hsplit]
  rfl

/-- The element loop on the text of a whole tuplet that ends the input. -/
theorem element_loop_body_eof {N : Nat} [NeZero N] (mb : Char) (u t : tuplet N Int)
    (hu : in_int_range u) (ga gb : Fin N → Nat) (c : Char) (bk fr : List Char)
    (hfr : c :: fr = body_text u ga gb (List.finRange N)) :
    ∃ s1 : istream,
      element_loop read_int mb (List.finRange N) c (istream.clean (c :: bk) fr) t
        = Except.ok (Flow.returned s1, u)
      ∧ s1.eofbit = true ∧ s1.badbit = false
      ∧ s1.failbit = (mb != Char.ofNat 0) := by
  obtain ⟨l, i, hsplit, hi, hl⟩ := finRange_split N
  obtain ⟨x, xs, hx, hx1, _⟩ := int_text_head (u i)
  rw [← hsplit, body_text_concat, hx] at hfr
  obtain ⟨bk1, h1⟩ := element_loop_elems mb u ga gb [i] x _ hx1 l c bk fr t
    (fun j hj => ⟨hl j hj, hu j⟩) hfr
  have h2 := element_loop_step_eof mb i [] x bk1 xs (assign u t l) (u i) (hu i).1 (hu i).2
    hx.symm
  refine ⟨{ back := (int_text (u i)).reverse ++ bk1, front := [], eofbit := true,
            failbit := more_expected mb i, badbit := false }, ?_, rfl, rfl, ?_⟩
  · rw [← hsplit, h1, h2, assign_all u t l i hsplit]
  · simp [more_expected, hi]

/-- The element loop on the text of a whole tuplet followed by one or more
spaces that end the input. -/
theorem element_loop_body_spaces_end {N : Nat} [NeZero N] (mb : Char) (u t : tuplet N Int)
    (hu : in_int_range u) (ga gb : Fin N → Nat) (r : Nat) (c : Char) (bk fr : List Char)
    (hfr : c :: fr = body_text u ga gb (List.finRange N) ++ List.replicate (r + 1) ' ') :
    ∃ s1 : istream,
      element_loop read_int mb (List.finRange N) c (istream.clean (c :: bk) fr) t
        = Except.ok (Flow.returned s1, u)
      ∧ s1.failbit = true ∧ s1.eofbit = true := by
  obtain ⟨l, i, hsplit, hi, hl⟩ := finRange_split N
  obtain ⟨x, xs, hx, hx1, _⟩ := int_text_head (u i)
  rw [← hsplit, body_text_concat, hx, List.append_assoc, List.cons_append] at hfr
  obtain ⟨bk1, h1⟩ := element_loop_elems mb u ga gb [i] x _ hx1 l c bk fr t
    (fun j hj => ⟨hl j hj, hu j⟩) hfr
  obtain ⟨s1, h2, h3⟩ := element_loop_spaces_end mb i [] x bk1
    (xs ++ List.replicate (r + 1) ' ') (assign u t l) (u i)
    (hu i).1 (hu i).2 r (by rw [hx]; rfl)
  refine ⟨s1, ?_, h3⟩
  rw [← hsplit, h1, h2, assign_all u t l i hsplit]

theorem body_text_head {N : Nat} [NeZero N] (u : tuplet N Int) (ga gb : Fin N → Nat) :
    ∃ c cs, body_text u ga gb (List.finRange N) = c :: cs
      ∧ c ≠ ' ' ∧ c ≠ '[' ∧ c ≠ '(' := by
  obtain ⟨l, i, hsplit, _, _⟩ := finRange_split N
  rw [← hsplit, body_text_concat]
  cases l with
  | nil =>
    obtain ⟨c, cs, hc, h1, _, h3, h4⟩ := int_text_head (u i)
    exact ⟨c, cs, by simpa [elems_text] using hc, h1, h3, h4⟩
  | cons j l =>
    obtain ⟨c, cs, hc, h1, _, h3, h4⟩ := int_text_head (u j)
    refine ⟨c, cs ++ (List.replicate (ga j) ' ' ++
      ',' :: (List.replicate (gb j) ' ' ++ elems_text u ga gb l)) ++ int_text (u i),
      ?_, h1, h3, h4⟩
    rw [elems_text, hc]
    rfl

/-! ## Theorems: operator>> on well-formed and ill-formed texts -/

/-- A bracketed tuple text with white space: `l` spaces, the opening bracket,
`m` spaces, the elements separated by commas with spaces around them, `r`
spaces, then the character `g` and the rest of the input. -/
theorem parse_bracketed {N : Nat} [NeZero N] (u t : tuplet N Int) (hu : in_int_range u)
    (ga gb : Fin N → Nat) (square : Bool) (l m r : Nat) (g : Char) (tail : List Char)
    (hg : g ≠ ' ') (hdig : r = 0 → g.isDigit = false) :
    ∃ s1 : istream,
      parse_tuplet_int (spaces l ++ bracket_open square :: (spaces m ++
          (body_text u ga gb (List.finRange N) ++ (spaces r ++ g :: tail)))) t
        = Except.ok (s1, u)
      ∧ s1.failbit = decide (g ≠ bracket_close square) ∧ s1.badbit = false
      ∧ s1.eofbit = (decide (g = bracket_close square) && tail.isEmpty) := by
  obtain ⟨c, cs, hbody, hc1, _, _⟩ := body_text_head u ga gb
  obtain ⟨bk1, ho⟩ := open_bracket_bracketed square l m c (cs ++ (spaces r ++ g :: tail)) hc1
  obtain ⟨bk2, hl⟩ := element_loop_body (bracket_close square) u t hu ga gb r g tail hg hdig
    c bk1 (cs ++ (spaces r ++ g :: tail)) (by rw [hbody]; rfl)
  have hmb : bracket_close square ≠ Char.ofNat 0 := by cases square <;> decide
  have hcl := close_bracket_at (bracket_close square) g bk2 tail hmb hg
  have htext : spaces l ++ bracket_open square :: (spaces m ++
      (body_text u ga gb (List.finRange N) ++ (spaces r ++ g :: tail)))
      = List.replicate l ' ' ++ (if square then '[' else '(') ::
          (List.replicate m ' ' ++ c :: (cs ++ (spaces r ++ g :: tail))) := by
    rw [hbody]; rfl
  by_cases hgc : g = bracket_close square
  · refine ⟨(istream.clean (g :: bk2) tail).peek, ?_, ?_, ?_, ?_⟩
    · rw [parse_tuplet_int, operator_rshift, htext, ho]
      simp only []
      rw [show (if square then ']' else ')') = bracket_close square from rfl, hl]
      simp only []
      rw [hcl]
      simp [hgc]
    · cases tail <;> simp [hgc, istream.peek, istream.clean, istream.good]
    · cases tail <;> simp [istream.peek, istream.clean, istream.good]
    · cases tail <;> simp [hgc, istream.peek, istream.clean, istream.good]
  · refine ⟨(istream.clean (g :: bk2) tail).setstate_failbit.peek, ?_, ?_, ?_, ?_⟩
    · rw [parse_tuplet_int, operator_rshift, htext, ho]
      simp only []
      rw [show (if square then ']' else ')') = bracket_close square from rfl, hl]
      simp only []
      rw [hcl]
      simp [hgc]
    · simp [hgc, istream.peek, istream.clean, istream.good, istream.setstate_failbit]
    · simp [istream.peek, istream.clean, istream.good, istream.setstate_failbit]
    · simp [hgc, istream.peek, istream.clean, istream.good, istream.setstate_failbit]

/-- A bracketed tuple text whose input ends after the last element and `r`
spaces: the closing bracket is missing and `failbit` is set. -/
theorem parse_bracketed_unclosed {N : Nat} [NeZero N] (u t : tuplet N Int)
    (hu : in_int_range u) (ga gb : Fin N → Nat) (square : Bool) (l m r : Nat) :
    ∃ s1 : istream,
      parse_tuplet_int (spaces l ++ bracket_open square :: (spaces m ++
          (body_text u ga gb (List.finRange N) ++ spaces r))) t
        = Except.ok (s1, u)
      ∧ s1.failbit = true := by
  obtain ⟨c, cs, hbody, hc1, _, _⟩ := body_text_head u ga gb
  obtain ⟨bk1, ho⟩ := open_bracket_bracketed square l m c (cs ++ spaces r) hc1
  have hmb : (bracket_close square != Char.ofNat 0) = true := by cases square <;> decide
  have htext : spaces l ++ bracket_open square :: (spaces m ++
      (body_text u ga gb (List.finRange N) ++ spaces r))
      = List.replicate l ' ' ++ (if square then '[' else '(') ::
          (List.replicate m ' ' ++ c :: (cs ++ spaces r)) := by
    rw [hbody]; rfl
  cases r with
  | zero =>
    obtain ⟨s1, hl, _, _, hf⟩ := element_loop_body_eof (bracket_close square) u t hu ga gb
      c bk1 (cs ++ spaces 0) (by rw [hbody]; simp [spaces])
    refine ⟨s1, ?_, by rw [hf, hmb]⟩
    rw [parse_tuplet_int, operator_rshift, htext, ho]
    simp only []
    rw [show (if square then ']' else ')') = bracket_close square from rfl, hl]
  | succ r =>
    obtain ⟨s1, hl, hf, _⟩ := element_loop_body_spaces_end (bracket_close square) u t hu ga gb
      r c bk1 (cs ++ spaces (r + 1)) (by rw [hbody]; rfl)
    refine ⟨s1, ?_, hf⟩
    rw [parse_tuplet_int, operator_rshift, htext, ho]
    simp only []
    rw [show (if square then ']' else ')') = bracket_close square from rfl, hl]

/-- A tuple text without brackets that ends the input right after the last
element: the tuplet is read, `eofbit` is set and `failbit` is clear. -/
theorem parse_plain {N : Nat} [NeZero N] (u t : tuplet N Int) (hu : in_int_range u)
    (ga gb : Fin N → Nat) (l : Nat) :
    ∃ s1 : istream,
      parse_tuplet_int (spaces l ++ body_text u ga gb (List.finRange N)) t = Except.ok (s1, u)
      ∧ s1.failbit = false ∧ s1.badbit = false ∧ s1.eofbit = true := by
  obtain ⟨c, cs, hbody, hc1, hc2, hc3⟩ := body_text_head u ga gb
  obtain ⟨bk1, ho⟩ := open_bracket_plain l c cs hc1 hc2 hc3
  obtain ⟨s1, hl, he, hb, hf⟩ := element_loop_body_eof (Char.ofNat 0) u t hu ga gb
    c bk1 cs hbody.symm
  refine ⟨s1, ?_, by rw [hf]; decide, hb, he⟩
  rw [parse_tuplet_int, operator_rshift, hbody, show spaces l = List.replicate l ' ' from rfl, ho]
  simp only []
  rw [hl]

/-- A tuple text without brackets followed by one or more spaces that end the
input: the tuplet is read but `failbit` is set. -/
theorem parse_plain_trailing_spaces {N : Nat} [NeZero N] (u t : tuplet N Int)
    (hu : in_int_range u) (ga gb : Fin N → Nat) (l r : Nat) :
    ∃ s1 : istream,
      parse_tuplet_int (spaces l ++ (body_text u ga gb (List.finRange N) ++ spaces (r + 1))) t
        = Except.ok (s1, u)
      ∧ s1.failbit = true := by
  obtain ⟨c, cs, hbody, hc1, hc2, hc3⟩ := body_text_head u ga gb
  obtain ⟨bk1, ho⟩ := open_bracket_plain l c (cs ++ spaces (r + 1)) hc1 hc2 hc3
  obtain ⟨s1, hl, hf, _⟩ := element_loop_body_spaces_end (Char.ofNat 0) u t hu ga gb
    r c bk1 (cs ++ spaces (r + 1)) (by rw [hbody]; rfl)
  refine ⟨s1, ?_, hf⟩
  rw [parse_tuplet_int, operator_rshift, hbody, show spaces l = List.replicate l ' ' from rfl,
    List.cons_append, ho]
  simp only []
  rw [hl]

theorem write_int_eq (s : List Char) (v : Int) : write_int s v = s ++ int_text v := by
  simp [write_int, int_text]

theorem lshift_loop_eq {N : Nat} (t : tuplet N Int) (i : Fin N) :
    ∀ (l : List (Fin N)) (acc : List Char),
      l.foldl (fun s j => write_int (s ++ [',']) (t j)) (acc ++ int_text (t i))
        = acc ++ body_text t (fun _ => 0) (fun _ => 0) (i :: l) := by
  intro l
  induction l generalizing i with
  | nil => intro acc; simp [body_text]
  | cons j l ih =>
    intro acc
    rw [List.foldl_cons, write_int_eq, ih j (acc ++ int_text (t i) ++ [',']), body_text]
    simp [List.replicate]

/-- The text written by `operator<<` is `[e0,...,eN-1]`. -/
theorem operator_lshift_eq {N : Nat} [NeZero N] (s : List Char) (t : tuplet N Int) :
    operator_lshift write_int s t
      = s ++ '[' :: (body_text t (fun _ => 0) (fun _ => 0) (List.finRange N) ++ [']']) := by
  have h := lshift_loop_eq t 0 (indices_from_one N) (s ++ ['['])
  rw [operator_lshift, write_int_eq, show (List.finRange N).drop 1 = indices_from_one N from rfl, h,
    ← finRange_eq_zero_cons]
  simp

theorem comma_text_list {N : Nat} (t : tuplet N Int) :
    ∀ l : List (Fin N), [','].intercalate (l.map (fun i => int_text (t i)))
      = body_text t (fun _ => 0) (fun _ => 0) l := by
  intro l
  induction l with
  | nil => rfl
  | cons i l ih =>
    cases l with
    | nil => simp [List.intercalate, body_text]
    | cons j l =>
      rw [body_text, ← ih]
      simp [List.intercalate, List.intersperse]

theorem comma_text_eq {N : Nat} (t : tuplet N Int) :
    comma_text t = body_text t (fun _ => 0) (fun _ => 0) (List.finRange N) :=
  comma_text_list t _

/-- The indices before a non-empty rest of the index list are not the last. -/
theorem before_rest_lt {N : Nat} (pre rest : List (Fin N))
    (h : pre ++ rest = List.finRange N) (hrest : rest ≠ []) : ∀ j ∈ pre, j.val + 1 < N := by
  intro j hj
  obtain ⟨i, rest1, rfl⟩ := List.exists_cons_of_ne_nil hrest
  have hp : List.Pairwise (· < ·) (pre ++ i :: rest1) := h ▸ List.pairwise_lt_finRange N
  have hlt : j < i := (List.pairwise_append.1 hp).2.2 j hj i (List.mem_cons_self _ _)
  have := Fin.lt_def.1 hlt
  omega

/-- A bracketed text with fewer than `N` elements before the closing bracket:
`failbit` is set. -/
theorem parse_bracketed_too_few {N : Nat} (u t : tuplet N Int) (hu : in_int_range u)
    (ga gb : Fin N → Nat) (square : Bool) (l m r : Nat) (tail : List Char)
    (pre rest : List (Fin N)) (hsplit : pre ++ rest = List.finRange N) (hrest : rest ≠ []) :
    ∃ (s1 : istream) (t1 : tuplet N Int),
      parse_tuplet_int (spaces l ++ bracket_open square :: (spaces m ++
          (body_text u ga gb pre ++ (spaces r ++ bracket_close square :: tail)))) t
        = Except.ok (s1, t1)
      ∧ s1.failbit = true := by
  obtain ⟨i1, rest1, rfl⟩ := List.exists_cons_of_ne_nil hrest
  have hcb : bracket_close square ≠ ' ' ∧ istream.isspace (bracket_close square) = false
      ∧ bracket_close square ≠ '-' ∧ bracket_close square ≠ '+'
      ∧ (bracket_close square).isDigit = false ∧ bracket_close square ≠ ',' := by
    cases square <;> decide
  rcases List.eq_nil_or_concat pre with hpre | ⟨p0, i, hpre⟩
  · subst hpre
    obtain ⟨bk1, ho⟩ := open_bracket_bracketed square l (m + r) (bracket_close square) tail
      hcb.1
    have htext : spaces l ++ bracket_open square :: (spaces m ++
        (body_text u ga gb [] ++ (spaces r ++ bracket_close square :: tail)))
        = List.replicate l ' ' ++ (if square then '[' else '(') ::
            (List.replicate (m + r) ' ' ++ bracket_close square :: tail) := by
      simp only [spaces, body_text, bracket_open, List.nil_append, List.replicate_add,
        List.append_assoc]
    refine ⟨{ back := bk1, front := bracket_close square :: tail, eofbit := false,
              failbit := true, badbit := false }, Function.update t i1 0, ?_, ?_⟩
    · rw [parse_tuplet_int, operator_rshift, htext, ho]
      simp only []
      rw [show (if square then ']' else ')') = bracket_close square from rfl,
        ← hsplit, List.nil_append,
        element_loop_step_fail _ i1 rest1 _ bk1 tail t hcb.2.1 hcb.2.2.1 hcb.2.2.2.1
          hcb.2.2.2.2.1]
    · rfl
  · rw [List.concat_eq_append] at hpre
    subst hpre
    have hlt := before_rest_lt (p0 ++ [i]) (i1 :: rest1) hsplit (by simp)
    obtain ⟨x, xs, hx, hx1, hx2, hx3⟩ := int_text_head (u i)
    obtain ⟨c, tl1, hc, hc1⟩ := elems_text_head u ga gb p0 x
      (xs ++ (spaces r ++ bracket_close square :: tail)) hx1
    obtain ⟨bk1, ho⟩ := open_bracket_bracketed square l m c tl1 hc1
    have htext : spaces l ++ bracket_open square :: (spaces m ++
        (body_text u ga gb (p0 ++ [i]) ++ (spaces r ++ bracket_close square :: tail)))
        = List.replicate l ' ' ++ (if square then '[' else '(') ::
            (List.replicate m ' ' ++ c :: tl1) := by
      rw [body_text_concat, hx, ← hc]
      simp [spaces, bracket_open]
    obtain ⟨bk2, h1⟩ := element_loop_elems (bracket_close square) u ga gb (i :: i1 :: rest1) x
      (xs ++ (spaces r ++ bracket_close square :: tail)) hx1 p0 c bk1 tl1 t
      (fun j hj => ⟨hlt j (List.mem_append_left _ hj), hu j⟩) hc.symm
    obtain ⟨bk3, h2⟩ := element_loop_plain (bracket_close square) i (i1 :: rest1) x bk2
      (xs ++ (spaces r ++ bracket_close square :: tail)) (assign u t p0) (u i) (hu i).1 (hu i).2
      r (bracket_close square) tail (by rw [hx]; rfl) hcb.1 (fun _ => hcb.2.2.2.2.1)
      (Or.inl hcb.2.2.2.2.2)
    refine ⟨{ back := bk3, front := bracket_close square :: tail, eofbit := false,
              failbit := true, badbit := false },
      Function.update (Function.update (assign u t p0) i (u i)) i1 0, ?_, ?_⟩
    · rw [parse_tuplet_int, operator_rshift, htext, ho]
      simp only []
      rw [show (if square then ']' else ')') = bracket_close square from rfl,
        ← hsplit, List.append_assoc, List.singleton_append, h1, h2,
        element_loop_step_fail _ i1 rest1 _ bk3 tail _ hcb.2.1 hcb.2.2.1 hcb.2.2.2.1
          hcb.2.2.2.2.1]
    · rfl

/-! ## Theorems: the claims about operator>> -/

/-- A tuple text without brackets followed by a character that is not a space
(and not a digit directly after the last element): the assertion after the
element loop fails. -/
theorem parse_plain_trailing_char {N : Nat} [NeZero N] (u t : tuplet N Int)
    (hu : in_int_range u) (ga gb : Fin N → Nat) (l r : Nat) (g : Char) (tail : List Char)
    (hg : g ≠ ' ') (hdig : r = 0 → g.isDigit = false) :
    parse_tuplet_int
        (spaces l ++ (body_text u ga gb (List.finRange N) ++ (spaces r ++ g :: tail))) t
      = Except.error "Assertion failure : match_bracket" := by
  obtain ⟨c, cs, hbody, hc1, hc2, hc3⟩ := body_text_head u ga gb
  obtain ⟨bk1, ho⟩ := open_bracket_plain l c (cs ++ (spaces r ++ g :: tail)) hc1 hc2 hc3
  obtain ⟨bk2, hl⟩ := element_loop_body (Char.ofNat 0) u t hu ga gb r g tail hg hdig
    c bk1 (cs ++ (spaces r ++ g :: tail)) (by rw [hbody]; rfl)
  rw [parse_tuplet_int, operator_rshift, hbody, show spaces l = List.replicate l ' ' from rfl,
    List.cons_append, ho]
  simp only []
  rw [hl]
  rfl

/-- C4: writing a `tuplet<N,int>` with `operator<<` and reading the text back
with `operator>>` yields the same tuplet, with `fail()` false and `eof()`
true. -/
theorem write_then_read {N : Nat} [NeZero N] (t t0 : tuplet N Int) (ht : in_int_range t) :
    ∃ s1 : istream,
      operator_rshift read_int (istream.of_text (operator_lshift write_int [] t)) t0
        = Except.ok (s1, t)
      ∧ s1.fail = false ∧ s1.eof = true := by
  obtain ⟨s1, h1, h2, h3, h4⟩ := parse_bracketed t t0 ht (fun _ => 0) (fun _ => 0) true 0 0 0
    ']' [] (by decide) (fun _ => by decide)
  refine ⟨s1, ?_, ?_, ?_⟩
  · rw [operator_lshift_eq]
    exact h1
  · rw [istream.fail, h2, h3]; rfl
  · rw [istream.eof, h4]; rfl

theorem write_then_read_witness :
    in_int_range (![1, -4, 6] : tuplet 3 Int)
    ∧ ∃ s1 : istream,
        operator_rshift read_int
            (istream.of_text (operator_lshift write_int [] (![1, -4, 6] : tuplet 3 Int)))
            (fun _ => 0)
          = Except.ok (s1, ![1, -4, 6])
        ∧ s1.fail = false ∧ s1.eof = true :=
  ⟨by unfold in_int_range; decide,
   write_then_read ![1, -4, 6] (fun _ => 0) (by unfold in_int_range; decide)⟩

/-- C5: for every `tuplet<N,int>` `t`, each of the texts `[e0,...,eN-1]`,
`(e0,...,eN-1)` and `e0,...,eN-1`, taken as the whole stream, is read as `t`
with `eof()` true and `fail()` false. -/
theorem read_three_styles {N : Nat} [NeZero N] (t t0 : tuplet N Int) (ht : in_int_range t) :
    (∃ s1 : istream, parse_tuplet_int ('[' :: (comma_text t ++ [']'])) t0 = Except.ok (s1, t)
        ∧ s1.eof = true ∧ s1.fail = false)
    ∧ (∃ s1 : istream, parse_tuplet_int ('(' :: (comma_text t ++ [')'])) t0 = Except.ok (s1, t)
        ∧ s1.eof = true ∧ s1.fail = false)
    ∧ (∃ s1 : istream, parse_tuplet_int (comma_text t) t0 = Except.ok (s1, t)
        ∧ s1.eof = true ∧ s1.fail = false) := by
  refine ⟨?_, ?_, ?_⟩
  · obtain ⟨s1, h1, h2, h3, h4⟩ := parse_bracketed t t0 ht (fun _ => 0) (fun _ => 0) true
      0 0 0 ']' [] (by decide) (fun _ => by decide)
    refine ⟨s1, ?_, by rw [istream.eof, h4]; rfl, by rw [istream.fail, h2, h3]; rfl⟩
    rw [comma_text_eq]
    exact h1
  · obtain ⟨s1, h1, h2, h3, h4⟩ := parse_bracketed t t0 ht (fun _ => 0) (fun _ => 0) false
      0 0 0 ')' [] (by decide) (fun _ => by decide)
    refine ⟨s1, ?_, by rw [istream.eof, h4]; rfl, by rw [istream.fail, h2, h3]; rfl⟩
    rw [comma_text_eq]
    exact h1
  · obtain ⟨s1, h1, h2, h3, h4⟩ := parse_plain t t0 ht (fun _ => 0) (fun _ => 0) 0
    refine ⟨s1, ?_, by rw [istream.eof, h4], by rw [istream.fail, h2, h3]; rfl⟩
    rw [comma_text_eq]
    exact h1

theorem read_three_styles_witness :
    in_int_range (![1, 4, 6] : tuplet 3 Int)
    ∧ (∃ s1 : istream,
        parse_tuplet_int "[1,4,6]".toList (fun _ => 0) = Except.ok (s1, ![1, 4, 6])
        ∧ s1.eof = true ∧ s1.fail = false)
    ∧ (∃ s1 : istream,
        parse_tuplet_int "(1,4,6)".toList (fun _ => 0) = Except.ok (s1, ![1, 4, 6])
        ∧ s1.eof = true ∧ s1.fail = false)
    ∧ (∃ s1 : istream,
        parse_tuplet_int "1,4,6".toList (fun _ => 0) = Except.ok (s1, ![1, 4, 6])
        ∧ s1.eof = true ∧ s1.fail = false) :=
  ⟨by unfold in_int_range; decide,
   read_three_styles ![1, 4, 6] (fun _ => 0) (by unfold in_int_range; decide)⟩

theorem fail_of_failbit (s : istream) (h : s.failbit = true) : s.fail = true := by
  simp [istream.fail, h]

/-- C6: on an input that opens with `[` or `(`, `operator>>` for
`tuplet<N,int>` sets the fail flag when (a) the closing bracket is of the other
kind, (b) the closing bracket is missing, (c) fewer than `N` elements precede
the closing bracket, (d) something other than spaces stands between the `N`-th
element and the closing bracket. White space may surround the brackets, the
elements and the commas. -/
theorem bracketed_failures {N : Nat} [NeZero N] (u t : tuplet N Int) (hu : in_int_range u)
    (ga gb : Fin N → Nat) (square : Bool) (l m r : Nat) (tail : List Char) :
    (∃ s1 t1, parse_tuplet_int (spaces l ++ bracket_open square :: (spaces m ++
          (body_text u ga gb (List.finRange N)
            ++ (spaces r ++ bracket_close (!square) :: tail)))) t = Except.ok (s1, t1)
        ∧ s1.fail = true)
    ∧ (∃ s1 t1, parse_tuplet_int (spaces l ++ bracket_open square :: (spaces m ++
          (body_text u ga gb (List.finRange N) ++ spaces r))) t = Except.ok (s1, t1)
        ∧ s1.fail = true)
    ∧ (∀ pre rest : List (Fin N), pre ++ rest = List.finRange N → rest ≠ [] →
        ∃ s1 t1, parse_tuplet_int (spaces l ++ bracket_open square :: (spaces m ++
            (body_text u ga gb pre ++ (spaces r ++ bracket_close square :: tail)))) t
          = Except.ok (s1, t1)
        ∧ s1.fail = true)
    ∧ (∀ g : Char, g ≠ ' ' → g ≠ bracket_close square → (r = 0 → g.isDigit = false) →
        ∃ s1 t1, parse_tuplet_int (spaces l ++ bracket_open square :: (spaces m ++
            (body_text u ga gb (List.finRange N) ++ (spaces r ++ g :: tail)))) t
          = Except.ok (s1, t1)
        ∧ s1.fail = true) := by
  refine ⟨?_, ?_, ?_, ?_⟩
  · obtain ⟨s1, h1, h2, _⟩ := parse_bracketed u t hu ga gb square l m r
      (bracket_close (!square)) tail (by cases square <;> decide)
      (fun _ => by cases square <;> decide)
    refine ⟨s1, u, h1, fail_of_failbit s1 ?_⟩
    rw [h2]
    cases square <;> decide
  · obtain ⟨s1, h1, h2⟩ := parse_bracketed_unclosed u t hu ga gb square l m r
    exact ⟨s1, u, h1, fail_of_failbit s1 h2⟩
  · intro pre rest hsplit hrest
    obtain ⟨s1, t1, h1, h2⟩ := parse_bracketed_too_few u t hu ga gb square l m r tail pre rest
      hsplit hrest
    exact ⟨s1, t1, h1, fail_of_failbit s1 h2⟩
  · intro g hg hgc hdig
    obtain ⟨s1, h1, h2, _⟩ := parse_bracketed u t hu ga gb square l m r g tail hg hdig
    refine ⟨s1, u, h1, fail_of_failbit s1 ?_⟩
    rw [h2]
    simp [hgc]

theorem bracketed_failures_witness :
    in_int_range (![1, 4, 6] : tuplet 3 Int)
    ∧ (∃ s1 t1, parse_tuplet_int "[1,4,6)".toList (fun _ => 0 : tuplet 3 Int)
          = Except.ok (s1, t1) ∧ s1.fail = true)
    ∧ (∃ s1 t1, parse_tuplet_int "[1,4,6".toList (fun _ => 0 : tuplet 3 Int)
          = Except.ok (s1, t1) ∧ s1.fail = true)
    ∧ (∃ s1 t1, parse_tuplet_int "[1,4]".toList (fun _ => 0 : tuplet 3 Int)
          = Except.ok (s1, t1) ∧ s1.fail = true)
    ∧ (∃ s1 t1, parse_tuplet_int "[1,4,6,7]".toList (fun _ => 0 : tuplet 3 Int)
          = Except.ok (s1, t1) ∧ s1.fail = true) :=
  ⟨by unfold in_int_range; decide,
   (bracketed_failures ![1, 4, 6] (fun _ => 0) (by unfold in_int_range; decide)
      (fun _ => 0) (fun _ => 0) true 0 0 0 []).1,
   (bracketed_failures ![1, 4, 6] (fun _ => 0) (by unfold in_int_range; decide)
      (fun _ => 0) (fun _ => 0) true 0 0 0 []).2.1,
   (bracketed_failures ![1, 4, 6] (fun _ => 0) (by unfold in_int_range; decide)
      (fun _ => 0) (fun _ => 0) true 0 0 0 []).2.2.1 [0, 1] [2] rfl (by simp),
   (bracketed_failures ![1, 4, 6] (fun _ => 0) (by unfold in_int_range; decide)
      (fun _ => 0) (fun _ => 0) true 0 0 0 "7]".toList).2.2.2 ',' (by decide) (by decide)
      (fun _ => by decide)⟩

/-- C7, failing input: reading the text `1,4,6x` into a `tuplet<3,int>` reaches
`n88_assert(match_bracket)` with `match_bracket == 0`, so `operator>>` throws
instead of returning with the fail flag. -/
theorem unbracketed_trailing_char_throws :
    parse_tuplet_int "1,4,6x".toList (fun _ => 0 : tuplet 3 Int)
      = Except.error "Assertion failure : match_bracket" := rfl

/-- C8, failing input: reading the text `1,4,6` followed by one space into a
`tuplet<3,int>` assigns (1,4,6) but sets the fail flag. -/
theorem unbracketed_trailing_space_fails :
    observed (parse_tuplet_int "1,4,6 ".toList (fun _ => 0 : tuplet 3 Int))
      = Except.ok (true, true, [1, 4, 6]) := rfl

/-- C9, failing input: reading the text `[1 4 6]`, whose elements are
separated by spaces only, into a `tuplet<3,int>` assigns (1,4,6) with the fail
flag clear. -/
theorem space_separated_accepted :
    observed (parse_tuplet_int "[1 4 6]".toList (fun _ => 0 : tuplet 3 Int))
      = Except.ok (false, true, [1, 4, 6]) := rfl

/-! ## Theorems: elements separated by spaces only -/

/-- The element loop over elements separated by spaces only, followed by white
space and a character `g` that is neither a space nor a comma. -/
theorem element_loop_spaced {N : Nat} (mb : Char) (u : tuplet N Int) (hu : in_int_range u)
    (ga : Fin N → Nat) (r : Nat) (g : Char) (tail : List Char) (hg : g ≠ ' ')
    (hg2 : g ≠ ',') (hdig : r = 0 → g.isDigit = false) :
    ∀ (l : List (Fin N)), l ≠ [] → ∀ (c : Char) (bk fr : List Char) (t : tuplet N Int),
      c :: fr = spaced_text u ga l ++ (spaces r ++ g :: tail) →
      ∃ bk1 : List Char,
        element_loop read_int mb l c (istream.clean (c :: bk) fr) t
          = Except.ok (Flow.next (g, istream.clean (g :: bk1) tail), assign u t l) := by
  intro l
  induction l with
  | nil => intro h; exact absurd rfl h
  | cons i l ih =>
    intro _ c bk fr t hfr
    cases l with
    | nil =>
      obtain ⟨bk1, h1⟩ := element_loop_plain mb i [] c bk fr t (u i) (hu i).1 (hu i).2 r g tail
        hfr hg hdig (Or.inl hg2)
      exact ⟨bk1, by rw [h1]; rfl⟩
    | cons j l =>
      obtain ⟨d, ds, hd, hd1, hd2, _⟩ := int_text_head (u j)
      have htxt : ∃ tl1, spaced_text u ga (j :: l) ++ (spaces r ++ g :: tail) = d :: tl1 := by
        cases l with
        | nil => exact ⟨ds ++ (spaces r ++ g :: tail), by rw [spaced_text, hd]; rfl⟩
        | cons k l =>
          exact ⟨ds ++ (List.replicate (ga j + 1) ' ' ++ spaced_text u ga (k :: l))
            ++ (spaces r ++ g :: tail), by rw [spaced_text, hd]; simp⟩
      obtain ⟨tl1, htl⟩ := htxt
      have hfr2 : c :: fr = int_text (u i) ++ (List.replicate (ga i + 1) ' ' ++ d :: tl1) := by
        rw [hfr, spaced_text, ← htl]
        simp only [List.append_assoc]
      obtain ⟨bk1, h1⟩ := element_loop_plain mb i (j :: l) c bk fr t (u i) (hu i).1 (hu i).2
        (ga i + 1) d tl1 hfr2 hd1 (fun h => absurd h (Nat.succ_ne_zero _)) (Or.inl hd2)
      obtain ⟨bk2, h2⟩ := ih (by simp) d bk1 tl1 (Function.update t i (u i)) htl.symm
      exact ⟨bk2, by rw [h1, h2]; rfl⟩

theorem assign_finRange {N : Nat} {T : Type} (u t : tuplet N T) :
    assign u t (List.finRange N) = u := by
  funext j
  rw [assign_apply]
  simp

/-- A bracketed text whose elements are separated by spaces only, without any
comma: the tuplet is read and `failbit` stays clear. -/
theorem parse_space_separated {N : Nat} [NeZero N] (u t : tuplet N Int) (hu : in_int_range u)
    (ga : Fin N → Nat) (square : Bool) (l m r : Nat) (tail : List Char) :
    ∃ s1 : istream,
      parse_tuplet_int (spaces l ++ bracket_open square :: (spaces m ++
          (spaced_text u ga (List.finRange N) ++ (spaces r ++ bracket_close square :: tail)))) t
        = Except.ok (s1, u)
      ∧ s1.fail = false := by
  have hne : List.finRange N ≠ [] := by
    rw [finRange_eq_zero_cons]; simp
  have hcb : bracket_close square ≠ ' ' ∧ bracket_close square ≠ ','
      ∧ (bracket_close square).isDigit = false ∧ bracket_close square ≠ Char.ofNat 0 := by
    cases square <;> decide
  have hhead : ∃ c cs, spaced_text u ga (List.finRange N)
      ++ (spaces r ++ bracket_close square :: tail) = c :: cs ∧ c ≠ ' ' := by
    rw [finRange_eq_zero_cons]
    obtain ⟨d, ds, hd, hd1, _⟩ := int_text_head (u 0)
    cases indices_from_one N with
    | nil => exact ⟨d, _, by rw [spaced_text, hd]; rfl, hd1⟩
    | cons k l => exact ⟨d, _, by rw [spaced_text, hd]; rfl, hd1⟩
  obtain ⟨c, cs, hc, hc1⟩ := hhead
  obtain ⟨bk1, ho⟩ := open_bracket_bracketed square l m c cs hc1
  obtain ⟨bk2, hl⟩ := element_loop_spaced (bracket_close square) u hu ga r (bracket_close square)
    tail hcb.1 hcb.2.1 (fun _ => hcb.2.2.1) (List.finRange N) hne c bk1 cs t hc.symm
  have hcl := close_bracket_at (bracket_close square) (bracket_close square) bk2 tail
    hcb.2.2.2 hcb.1
  refine ⟨(istream.clean (bracket_close square :: bk2) tail).peek, ?_, ?_⟩
  · rw [parse_tuplet_int, operator_rshift, hc,
      show spaces l ++ bracket_open square :: (spaces m ++ c :: cs)
        = List.replicate l ' ' ++ (if square then '[' else '(') ::
            (List.replicate m ' ' ++ c :: cs) from rfl, ho]
    simp only []
    rw [show (if square then ']' else ')') = bracket_close square from rfl, hl]
    simp only []
    rw [hcl, assign_finRange]
    simp
  · cases tail <;> simp [istream.peek, istream.clean, istream.good, istream.fail]

/-! ## Theorems: verify_data -/

theorem int_to_size_t_natCast (n : Nat) : int_to_size_t (n : Int) = n % SIZE_MOD := by
  unfold int_to_size_t
  rw [← Int.natCast_mod, Int.toNat_natCast]

theorem int_to_size_t_of_nonneg (v : Int) (h : 0 ≤ v) : int_to_size_t v = v.toNat % SIZE_MOD := by
  have e : v = (v.toNat : Int) := (Int.toNat_of_nonneg h).symm
  rw [e, int_to_size_t_natCast, Int.toNat_natCast]

/-- With range checking, `verify_data` on the pointer to element `i` of a
constructed view succeeds exactly when `i` is a multiple of `sizeof(TValue)`. -/
theorem verify_data_element {N : Nat} (sizeof_TValue : Nat) (a : const_array_base N) (i : Nat)
    (hb : a.m_base ≠ 0) (he : a.m_end = a.m_base + a.m_size) (hi : i < a.m_size)
    (h64 : i < 2 ^ 64) :
    const_array_base.verify_data true sizeof_TValue a (a.m_base + i)
      = if i % sizeof_TValue = 0 then Except.ok (a.m_base + i)
        else Except.error "const_array pointer has incorrect offset." := by
  have h1 : ¬ (a.m_base + i < a.m_base) := by omega
  have h2 : ¬ (a.m_end ≤ a.m_base + i) := by omega
  have h3 : int_to_size_t (((a.m_base + i : Nat) : Int) - (a.m_base : Int)) = i := by
    have e : ((a.m_base + i : Nat) : Int) - (a.m_base : Int) = (i : Int) := by
      push_cast; ring
    rw [e, int_to_size_t_natCast]
    exact Nat.mod_eq_of_lt h64
  simp only [const_array_base.verify_data, throw_n88_exception, h3]
  by_cases hm : i % sizeof_TValue = 0 <;> simp [hb, h1, h2, hm]

/-- C11, failing input: with range checking, on a view of two `double`
(`sizeof(double) == 8`) at address 1000, `verify_data(data() + 1)` throws
although `data() + 1` points to the second element. -/
theorem verify_data_rejects_element :
    (const_array_base.of_pointer 1000 (![2] : tuplet 1 Nat)).size = 2
    ∧ const_array_base.verify_data true 8
        (const_array_base.of_pointer 1000 (![2] : tuplet 1 Nat)) (1000 + 1)
      = Except.error "const_array pointer has incorrect offset." :=
  ⟨rfl, rfl⟩

/-- C12: with range checking enabled `verify_data(p)` throws when the view is
not constructed, when `p < data()` and when `p >= end()`; with range checking
disabled it returns `p` for every `p`. -/
theorem verify_data_failures {N : Nat} (sizeof_TValue : Nat) (a : const_array_base N)
    (p : Nat) :
    (a.m_base = 0 → ∃ e, const_array_base.verify_data true sizeof_TValue a p = Except.error e)
    ∧ (p < a.m_base → ∃ e, const_array_base.verify_data true sizeof_TValue a p = Except.error e)
    ∧ (a.m_end ≤ p → ∃ e, const_array_base.verify_data true sizeof_TValue a p = Except.error e)
    ∧ const_array_base.verify_data false sizeof_TValue a p = Except.ok p := by
  refine ⟨?_, ?_, ?_, rfl⟩
  · intro h
    exact ⟨"const_array is not constructed.",
      by simp [const_array_base.verify_data, throw_n88_exception, h]⟩
  · intro h
    by_cases hb : a.m_base = 0
    · exact ⟨"const_array is not constructed.",
        by simp [const_array_base.verify_data, throw_n88_exception, hb]⟩
    · exact ⟨"const_array index out of bounds.",
        by simp [const_array_base.verify_data, throw_n88_exception, hb, h]⟩
  · intro h
    by_cases hb : a.m_base = 0
    · exact ⟨"const_array is not constructed.",
        by simp [const_array_base.verify_data, throw_n88_exception, hb]⟩
    · exact ⟨"const_array index out of bounds.",
        by simp [const_array_base.verify_data, throw_n88_exception, hb, h]⟩

theorem verify_data_failures_witness :
    (∃ e, const_array_base.verify_data true 8 (const_array_base.empty 2) 1000 = Except.error e)
    ∧ (∃ e, const_array_base.verify_data true 8
          (const_array_base.of_pointer 1000 (![3, 4] : tuplet 2 Nat)) 999 = Except.error e)
    ∧ (∃ e, const_array_base.verify_data true 8
          (const_array_base.of_pointer 1000 (![3, 4] : tuplet 2 Nat)) 1012 = Except.error e)
    ∧ const_array_base.verify_data false 8
          (const_array_base.of_pointer 1000 (![3, 4] : tuplet 2 Nat)) 5 = Except.ok 5 :=
  ⟨(verify_data_failures 8 (const_array_base.empty 2) 1000).1 rfl,
   (verify_data_failures 8 (const_array_base.of_pointer 1000 (![3, 4] : tuplet 2 Nat)) 999).2.1
     (by decide),
   (verify_data_failures 8 (const_array_base.of_pointer 1000 (![3, 4] : tuplet 2 Nat)) 1012).2.2.1
     (by decide),
   (verify_data_failures 8 (const_array_base.of_pointer 1000 (![3, 4] : tuplet 2 Nat)) 5).2.2.2⟩

/-! ## Theorems: construct_reference and the invariant of a view -/

theorem construct_reference_spec {N : Nat} [NeZero N] (self : const_array_base N) (data : Nat)
    (dims : tuplet N Nat) :
    (self.m_base ≠ 0 → self.construct_reference data dims
        = (Except.error "const_array is already constructed.", self))
    ∧ (self.m_base = 0 → self.construct_reference data dims
        = (Except.ok (), { m_base := data, m_size := long_product dims,
                           m_end := data + long_product dims, m_dims := dims })) := by
  constructor
  · intro h
    simp [const_array_base.construct_reference, throw_n88_exception, h]
  · intro h
    simp [const_array_base.construct_reference, h]

/-- C13, counterexample: in the range-checking build, `construct_reference`
from a view that is not constructed throws although the receiving view holds
a null base pointer. -/
theorem construct_reference_unconstructed_source_throws :
    (const_array_base.empty 1).m_base = 0
    ∧ ((const_array_base.empty 1).construct_reference_const_array true
          (const_array_base.empty 1)).1
        = Except.error "const_array is not constructed." :=
  ⟨rfl, rfl⟩

/-- C13, amended: `construct_reference` from pointer and dims throws iff the
view already holds a non-null base pointer, in every build mode;
`construct_reference` from a view or an array throws iff the view already
holds a non-null base pointer or, in the range-checking build, the source is
not constructed. When it throws the view is unchanged; when it succeeds the
view takes the source's pointer and dims, with `size = long_product(dims)` and
`end = data + size`. -/
theorem construct_reference_outcome {N : Nat} [NeZero N] (rc : Bool)
    (self : const_array_base N) :
    (∀ (data : Nat) (dims : tuplet N Nat),
      ((∃ e, (self.construct_reference data dims).1 = Except.error e) ↔ self.m_base ≠ 0)
      ∧ ((∃ e, (self.construct_reference data dims).1 = Except.error e) →
          (self.construct_reference data dims).2 = self)
      ∧ ((self.construct_reference data dims).1 = Except.ok () →
          (self.construct_reference data dims).2
            = { m_base := data, m_size := long_product dims,
                m_end := data + long_product dims, m_dims := dims }))
    ∧ (∀ source : const_array_base N,
      ((∃ e, (self.construct_reference_const_array rc source).1 = Except.error e)
          ↔ (self.m_base ≠ 0 ∨ (rc = true ∧ source.m_base = 0)))
      ∧ ((∃ e, (self.construct_reference_const_array rc source).1 = Except.error e) →
          (self.construct_reference_const_array rc source).2 = self)
      ∧ ((self.construct_reference_const_array rc source).1 = Except.ok () →
          (self.construct_reference_const_array rc source).2
            = { m_base := source.m_base, m_size := long_product source.m_dims,
                m_end := source.m_base + long_product source.m_dims,
                m_dims := source.m_dims }))
    ∧ (∀ source : array_base N,
      ((∃ e, (self.construct_reference_array rc source).1 = Except.error e)
          ↔ (self.m_base ≠ 0 ∨ (rc = true ∧ source.m_base = 0)))
      ∧ ((∃ e, (self.construct_reference_array rc source).1 = Except.error e) →
          (self.construct_reference_array rc source).2 = self)
      ∧ ((self.construct_reference_array rc source).1 = Except.ok () →
          (self.construct_reference_array rc source).2
            = { m_base := source.m_base, m_size := long_product source.m_dims,
                m_end := source.m_base + long_product source.m_dims,
                m_dims := source.m_dims })) := by
  have key : ∀ (data : Nat) (dims : tuplet N Nat),
      ((∃ e, (self.construct_reference data dims).1 = Except.error e) ↔ self.m_base ≠ 0)
      ∧ ((∃ e, (self.construct_reference data dims).1 = Except.error e) →
          (self.construct_reference data dims).2 = self)
      ∧ ((self.construct_reference data dims).1 = Except.ok () →
          (self.construct_reference data dims).2
            = { m_base := data, m_size := long_product dims,
                m_end := data + long_product dims, m_dims := dims }) := by
    intro data dims
    by_cases hb : self.m_base = 0
    · rw [(construct_reference_spec self data dims).2 hb]
      simp [hb]
    · rw [(construct_reference_spec self data dims).1 hb]
      simp [hb]
  refine ⟨key, ?_, ?_⟩
  · intro source
    by_cases hs : rc = true ∧ source.m_base = 0
    · obtain ⟨hrc, hsb⟩ := hs
      subst hrc
      have hd : source.data true = Except.error "const_array is not constructed." := by
        simp [const_array_base.data, throw_n88_exception, hsb]
      simp only [const_array_base.construct_reference_const_array, hd]
      simp [hsb]
    · have hd : source.data rc = Except.ok source.m_base := by
        by_cases hrc : rc = true
        · have hb : source.m_base ≠ 0 := fun h => hs ⟨hrc, h⟩
          simp [const_array_base.data, hb]
        · simp [const_array_base.data, hrc]
      have hk := key source.m_base source.m_dims
      simp only [const_array_base.construct_reference_const_array, hd,
        const_array_base.dims, hs, or_false]
      exact hk
  · intro source
    by_cases hs : rc = true ∧ source.m_base = 0
    · obtain ⟨hrc, hsb⟩ := hs
      subst hrc
      have hd : source.data true = Except.error "array is not constructed." := by
        simp [array_base.data, throw_n88_exception, hsb]
      simp only [const_array_base.construct_reference_array, hd]
      simp [hsb]
    · have hd : source.data rc = Except.ok source.m_base := by
        by_cases hrc : rc = true
        · have hb : source.m_base ≠ 0 := fun h => hs ⟨hrc, h⟩
          simp [array_base.data, hb]
        · simp [array_base.data, hrc]
      have hk := key source.m_base source.m_dims
      simp only [const_array_base.construct_reference_array, hd, array_base.dims, hs,
        or_false]
      exact hk

theorem construct_reference_outcome_witness :
    ((const_array_base.of_pointer 1000 (![3, 4] : tuplet 2 Nat)).construct_reference
        2000 ![2, 3]).2 = const_array_base.of_pointer 1000 (![3, 4] : tuplet 2 Nat)
    ∧ ((const_array_base.empty 2).construct_reference 2000 ![2, 3]).2
        = { m_base := 2000, m_size := long_product (![2, 3] : tuplet 2 Nat),
            m_end := 2000 + long_product (![2, 3] : tuplet 2 Nat), m_dims := ![2, 3] } :=
  ⟨((construct_reference_outcome true
        (const_array_base.of_pointer 1000 (![3, 4] : tuplet 2 Nat))).1 2000 ![2, 3]).2.1
      ⟨"const_array is already constructed.", rfl⟩,
   ((construct_reference_outcome true (const_array_base.empty 2)).1 2000 ![2, 3]).2.2 rfl⟩

theorem long_product_zeros (N : Nat) [NeZero N] : long_product (tuplet.zeros N) = 0 := by
  rw [long_product_mod]
  simp [tuplet.zeros, Finset.prod_const, NeZero.ne N]

theorem construct_reference_invariant {N : Nat} [NeZero N] (self : const_array_base N)
    (data : Nat) (dims : tuplet N Nat)
    (h : self.m_size = long_product self.m_dims ∧ self.m_end = self.m_base + self.m_size) :
    (self.construct_reference data dims).2.m_size
        = long_product (self.construct_reference data dims).2.m_dims
    ∧ (self.construct_reference data dims).2.m_end
        = (self.construct_reference data dims).2.m_base
          + (self.construct_reference data dims).2.m_size := by
  by_cases hb : self.m_base = 0
  · rw [(construct_reference_spec self data dims).2 hb]
    exact ⟨rfl, rfl⟩
  · rw [(construct_reference_spec self data dims).1 hb]
    exact h

/-- The invariant of a view: `size == long_product(dims)` and
`end == data + size`. -/
theorem reachable_invariant {N : Nat} [NeZero N] (rc : Bool) (v : const_array_base N)
    (h : const_array_base.Reachable rc v) :
    v.m_size = long_product v.m_dims ∧ v.m_end = v.m_base + v.m_size := by
  induction h with
  | empty => exact ⟨(long_product_zeros N).symm, rfl⟩
  | of_pointer data dims => exact ⟨rfl, rfl⟩
  | of_const_array source v _ hv ih =>
    by_cases hs : rc = true ∧ source.m_base = 0
    · obtain ⟨hrc, hsb⟩ := hs
      subst hrc
      simp [const_array_base.of_const_array, const_array_base.data, throw_n88_exception, hsb]
        at hv
    · have hd : source.data rc = Except.ok source.m_base := by
        by_cases hrc : rc = true
        · have hb : source.m_base ≠ 0 := fun h => hs ⟨hrc, h⟩
          simp [const_array_base.data, hb]
        · simp [const_array_base.data, hrc]
      have he : source.end_ rc = Except.ok source.m_end := by
        by_cases hrc : rc = true
        · have hb : source.m_base ≠ 0 := fun h => hs ⟨hrc, h⟩
          simp [const_array_base.end_, hb]
        · simp [const_array_base.end_, hrc]
      simp only [const_array_base.of_const_array, hd, he, Except.ok.injEq] at hv
      rw [← hv]
      exact ih
  | of_array source v h1 h2 hv =>
    by_cases hs : rc = true ∧ source.m_base = 0
    · obtain ⟨hrc, hsb⟩ := hs
      subst hrc
      simp [const_array_base.of_array, array_base.data, throw_n88_exception, hsb] at hv
    · have hd : source.data rc = Except.ok source.m_base := by
        by_cases hrc : rc = true
        · have hb : source.m_base ≠ 0 := fun h => hs ⟨hrc, h⟩
          simp [array_base.data, hb]
        · simp [array_base.data, hrc]
      have he : source.end_ rc = Except.ok source.m_end := by
        by_cases hrc : rc = true
        · have hb : source.m_base ≠ 0 := fun h => hs ⟨hrc, h⟩
          simp [array_base.end_, hb]
        · simp [array_base.end_, hrc]
      simp only [const_array_base.of_array, hd, he, Except.ok.injEq] at hv
      rw [← hv]
      exact ⟨h1, h2⟩
  | construct_reference self data dims _ ih =>
    exact construct_reference_invariant self data dims ih
  | construct_reference_const_array self source _ ih =>
    unfold const_array_base.construct_reference_const_array
    cases source.data rc with
    | error e => exact ih
    | ok d => exact construct_reference_invariant self d source.dims ih
  | construct_reference_array self source _ ih =>
    unfold const_array_base.construct_reference_array
    cases source.data rc with
    | error e => exact ih
    | ok d => exact construct_reference_invariant self d source.dims ih
  | destruct self _ _ => exact ⟨(long_product_zeros N).symm, rfl⟩

/-- C14: in every state of a view reachable through its constructors,
`construct_reference` and `destruct`, `size() == long_product(dims())` and
`end() == data() + size()`; the default-constructed and the destructed state
have null data, size 0 and all-zero dims. -/
theorem view_invariant {N : Nat} [NeZero N] (rc : Bool) (v : const_array_base N)
    (h : const_array_base.Reachable rc v) :
    v.size = long_product v.dims
    ∧ v.m_end = v.m_base + v.size
    ∧ (∀ d e, v.data rc = Except.ok d → v.end_ rc = Except.ok e → e = d + v.size)
    ∧ ((const_array_base.empty N).m_base = 0 ∧ (const_array_base.empty N).size = 0
        ∧ ∀ i, (const_array_base.empty N).dims i = 0)
    ∧ (v.destruct.m_base = 0 ∧ v.destruct.size = 0 ∧ ∀ i, v.destruct.dims i = 0) := by
  obtain ⟨h1, h2⟩ := reachable_invariant rc v h
  refine ⟨h1, h2, ?_, ⟨rfl, rfl, fun _ => rfl⟩, ⟨rfl, rfl, fun _ => rfl⟩⟩
  intro d e hd he
  by_cases hs : rc = true ∧ v.m_base = 0
  · obtain ⟨hrc, hsb⟩ := hs
    subst hrc
    simp [const_array_base.data, throw_n88_exception, hsb] at hd
  · have hd2 : v.data rc = Except.ok v.m_base := by
      by_cases hrc : rc = true
      · have hb : v.m_base ≠ 0 := fun h => hs ⟨hrc, h⟩
        simp [const_array_base.data, hb]
      · simp [const_array_base.data, hrc]
    have he2 : v.end_ rc = Except.ok v.m_end := by
      by_cases hrc : rc = true
      · have hb : v.m_base ≠ 0 := fun h => hs ⟨hrc, h⟩
        simp [const_array_base.end_, hb]
      · simp [const_array_base.end_, hrc]
    rw [hd2] at hd
    rw [he2] at he
    injection hd with hd
    injection he with he
    rw [← hd, ← he]
    exact h2

theorem view_invariant_witness :
    const_array_base.Reachable true (const_array_base.of_pointer 1000 (![3, 4] : tuplet 2 Nat))
    ∧ (const_array_base.of_pointer 1000 (![3, 4] : tuplet 2 Nat)).m_end = 1000 + 12 :=
  ⟨const_array_base.Reachable.of_pointer 1000 ![3, 4],
   (view_invariant true (const_array_base.of_pointer 1000 (![3, 4] : tuplet 2 Nat))
      (const_array_base.Reachable.of_pointer 1000 ![3, 4])).2.1⟩

/-! ## Theorems: long_product and equality of tuplets -/

theorem int_to_size_t_lt (v : Int) : int_to_size_t v < SIZE_MOD := by
  unfold int_to_size_t
  have hpos : (0 : Int) < (SIZE_MOD : Int) := by decide
  have h1 := Int.emod_lt_of_pos v hpos
  have h2 := Int.emod_nonneg v (ne_of_gt hpos)
  omega

theorem to_size_t_int_to_size_t (v : Int) : to_size_t (int_to_size_t v) = int_to_size_t v :=
  Nat.mod_eq_of_lt (int_to_size_t_lt v)

theorem long_product_int_eq {N : Nat} [NeZero N] (x : tuplet N Int) :
    long_product_int x = long_product (fun i => int_to_size_t (x i)) := by
  simp only [long_product_int, long_product, to_size_t_int_to_size_t]

/-- C15: for a tuplet of non-negative `int` elements whose exact product is
below `2^64`, `long_product` returns the exact product; in particular the
product of `(1073741824, 1073741824)` is `1152921504606846976`. -/
theorem long_product_exact {N : Nat} [NeZero N] (x : tuplet N Int) (h0 : ∀ i, 0 ≤ x i)
    (hlt : ∏ i, x i < 2 ^ 64) :
    (long_product_int x : Int) = ∏ i, x i
    ∧ long_product_int (tuplet2 1073741824 1073741824) = 1152921504606846976 := by
  refine ⟨?_, by decide⟩
  have hcast : ((∏ i, (x i).toNat : Nat) : Int) = ∏ i, x i := by
    rw [Nat.cast_prod]
    exact Finset.prod_congr rfl (fun i _ => Int.toNat_of_nonneg (h0 i))
  have hnat : (∏ i, (x i).toNat) < 2 ^ 64 := by
    have : ((∏ i, (x i).toNat : Nat) : Int) < ((2 ^ 64 : Nat) : Int) := by
      rw [hcast]; exact_mod_cast hlt
    exact_mod_cast this
  rw [long_product_int_eq, long_product_mod, ← hcast]
  congr 1
  have e : ∀ i, int_to_size_t (x i) = (x i).toNat % SIZE_MOD :=
    fun i => int_to_size_t_of_nonneg (x i) (h0 i)
  simp only [e]
  rw [← Finset.prod_nat_mod]
  exact Nat.mod_eq_of_lt hnat

theorem long_product_exact_witness :
    (∀ i, 0 ≤ (tuplet2 1073741824 1073741824 : tuplet 2 Int) i)
    ∧ (long_product_int (tuplet2 1073741824 1073741824) : Int) = 1152921504606846976 :=
  ⟨by decide,
   (long_product_exact (tuplet2 1073741824 1073741824) (by decide) (by decide)).1.trans
     (by decide)⟩

theorem operator_eq_loop_iff {N : Nat} {T T2 : Type} (ne : T → T2 → Bool) (a : tuplet N T)
    (b : tuplet N T2) (l : List (Fin N)) :
    operator_eq_loop ne a b l = true ↔ ∀ i ∈ l, ne (a i) (b i) = false := by
  induction l with
  | nil => simp [operator_eq_loop]
  | cons i l ih =>
    rw [operator_eq_loop]
    by_cases h : ne (a i) (b i) = true
    · simp [h]
    · simp [h, ih]

theorem operator_ne_loop_iff {N : Nat} {T T2 : Type} (ne : T → T2 → Bool) (a : tuplet N T)
    (b : tuplet N T2) (l : List (Fin N)) :
    operator_ne_loop ne a b l = true ↔ ∃ i ∈ l, ne (a i) (b i) = true := by
  induction l with
  | nil => simp [operator_ne_loop]
  | cons i l ih =>
    rw [operator_ne_loop]
    by_cases h : ne (a i) (b i) = true
    · simp [h]
    · simp [h, ih]

/-- C16: tuple equality is element-wise: `a == b` is true iff no element pair
compares unequal, `a != b` is true iff some element pair compares unequal, so
`!=` is the negation of `==`; for an element type with decidable equality
`a == b` iff `a[i] == b[i]` for every `i`. -/
theorem equality_elementwise {N : Nat} {T T2 : Type} (ne : T → T2 → Bool) (a : tuplet N T)
    (b : tuplet N T2) :
    (operator_eq ne a b = true ↔ ∀ i, ne (a i) (b i) = false)
    ∧ (operator_ne ne a b = true ↔ ∃ i, ne (a i) (b i) = true)
    ∧ operator_ne ne a b = !operator_eq ne a b
    ∧ (∀ {U : Type} [DecidableEq U] (c d : tuplet N U),
        (operator_eq (fun x y => x != y) c d = true ↔ ∀ i, c i = d i)
        ∧ (operator_ne (fun x y => x != y) c d = true ↔ ∃ i, c i ≠ d i)) := by
  have h1 : ∀ {T T2 : Type} (ne : T → T2 → Bool) (a : tuplet N T) (b : tuplet N T2),
      (operator_eq ne a b = true ↔ ∀ i, ne (a i) (b i) = false) := by
    intro T T2 ne a b
    rw [operator_eq, operator_eq_loop_iff]
    simp
  have h2 : ∀ {T T2 : Type} (ne : T → T2 → Bool) (a : tuplet N T) (b : tuplet N T2),
      (operator_ne ne a b = true ↔ ∃ i, ne (a i) (b i) = true) := by
    intro T T2 ne a b
    rw [operator_ne, operator_ne_loop_iff]
    simp
  refine ⟨h1 ne a b, h2 ne a b, ?_, ?_⟩
  · by_cases h : operator_eq ne a b = true
    · have hn : ¬ (operator_ne ne a b = true) := by
        rw [h2]
        rintro ⟨i, hi⟩
        rw [(h1 ne a b).1 h i] at hi
        exact Bool.noConfusion hi
      simp [h, hn]
    · have hn : operator_ne ne a b = true := by
        rw [h2]
        by_contra hc
        apply h
        rw [h1]
        intro i
        by_contra hi
        exact hc ⟨i, by simpa using hi⟩
      simp [h, hn]
  · intro U _ c d
    constructor
    · rw [h1]; simp
    · rw [h2]; simp

/-! ## Theorems: arithmetic and reductions of tuplets -/

/-- The loop `for (int i=0; i<N; ++i) {x[i] = f(i);}` over the indices in `l`
leaves in `x[j]` the value `f(j)` when `j` was visited. -/
theorem fill_loop_apply {N : Nat} {T : Type} (f : Fin N → T) (l : List (Fin N)) :
    ∀ (x : tuplet N T) (j : Fin N),
      (l.foldl (fun x i => Function.update x i (f i)) x) j = if j ∈ l then f j else x j := by
  induction l with
  | nil => intro x j; simp
  | cons i l ih =>
    intro x j
    rw [List.foldl_cons, ih]
    by_cases hj : j ∈ l
    · simp [hj]
    · by_cases hji : j = i
      · subst hji; simp [hj]
      · simp [hj, hji, Function.update_noteq hji]

theorem fill_apply {N : Nat} {T : Type} (f : Fin N → T) (x : tuplet N T) (j : Fin N) :
    ((List.finRange N).foldl (fun x i => Function.update x i (f i)) x) j = f j := by
  rw [fill_loop_apply]
  simp

/-- C17: tuple arithmetic acts on each element independently, in the generic
loops (any rank `N`, whatever the local tuplet held before) and in the closed
forms for ranks 1, 2 and 3. -/
theorem arithmetic_elementwise {T : Type} [Add T] [Sub T] [Mul T] [Div T] [Neg T] :
    (∀ {N : Nat} (x a b : tuplet N T) (s : T) (i : Fin N),
      operator_plus x a b i = a i + b i
      ∧ operator_minus x a b i = a i - b i
      ∧ operator_times x a b i = a i * b i
      ∧ operator_divide x a b i = a i / b i
      ∧ operator_plus_scalar x a s i = a i + s
      ∧ operator_minus_scalar x a s i = a i - s
      ∧ operator_times_scalar_left x s a i = s * a i
      ∧ operator_times_scalar x a s i = s * a i
      ∧ operator_divide_scalar x a s i = a i / s
      ∧ operator_negate x a i = - a i)
    ∧ (∀ (a b : tuplet 1 T) (s : T) (i : Fin 1),
      rank1.operator_plus a b i = a i + b i
      ∧ rank1.operator_minus a b i = a i - b i
      ∧ rank1.operator_times a b i = a i * b i
      ∧ rank1.operator_divide a b i = a i / b i
      ∧ rank1.operator_plus_scalar a s i = a i + s
      ∧ rank1.operator_minus_scalar a s i = a i - s
      ∧ rank1.operator_times_scalar_left s a i = s * a i
      ∧ rank1.operator_times_scalar a s i = s * a i
      ∧ rank1.operator_divide_scalar a s i = a i / s)
    ∧ (∀ (a b : tuplet 2 T) (s : T) (i : Fin 2),
      rank2.operator_plus a b i = a i + b i
      ∧ rank2.operator_minus a b i = a i - b i
      ∧ rank2.operator_times a b i = a i * b i
      ∧ rank2.operator_divide a b i = a i / b i
      ∧ rank2.operator_plus_scalar a s i = a i + s
      ∧ rank2.operator_minus_scalar a s i = a i - s
      ∧ rank2.operator_times_scalar_left s a i = s * a i
      ∧ rank2.operator_times_scalar a s i = s * a i
      ∧ rank2.operator_divide_scalar a s i = a i / s)
    ∧ (∀ (a b : tuplet 3 T) (s : T) (i : Fin 3),
      rank3.operator_plus a b i = a i + b i
      ∧ rank3.operator_minus a b i = a i - b i
      ∧ rank3.operator_times a b i = a i * b i
      ∧ rank3.operator_divide a b i = a i / b i
      ∧ rank3.operator_plus_scalar a s i = a i + s
      ∧ rank3.operator_minus_scalar a s i = a i - s
      ∧ rank3.operator_times_scalar_left s a i = s * a i
      ∧ rank3.operator_times_scalar a s i = s * a i
      ∧ rank3.operator_divide_scalar a s i = a i / s) := by
  refine ⟨?_, ?_, ?_, ?_⟩
  · intro N x a b s i
    exact ⟨fill_apply (fun i => a i + b i) x i, fill_apply (fun i => a i - b i) x i,
      fill_apply (fun i => a i * b i) x i, fill_apply (fun i => a i / b i) x i,
      fill_apply (fun i => a i + s) x i, fill_apply (fun i => a i - s) x i,
      fill_apply (fun i => s * a i) x i, fill_apply (fun i => s * a i) x i,
      fill_apply (fun i => a i / s) x i, fill_apply (fun i => - a i) x i⟩
  · intro a b s i
    fin_cases i
    exact ⟨rfl, rfl, rfl, rfl, rfl, rfl, rfl, rfl, rfl⟩
  · intro a b s i
    fin_cases i
    · exact ⟨rfl, rfl, rfl, rfl, rfl, rfl, rfl, rfl, rfl⟩
    · exact ⟨rfl, rfl, rfl, rfl, rfl, rfl, rfl, rfl, rfl⟩
  · intro a b s i
    fin_cases i
    · exact ⟨rfl, rfl, rfl, rfl, rfl, rfl, rfl, rfl, rfl⟩
    · exact ⟨rfl, rfl, rfl, rfl, rfl, rfl, rfl, rfl, rfl⟩
    · exact ⟨rfl, rfl, rfl, rfl, rfl, rfl, rfl, rfl, rfl⟩

theorem sum_loop_eq {N : Nat} {T : Type} [AddCommMonoid T] (f : Fin N → T)
    (l : List (Fin N)) : ∀ acc : T, l.foldl (fun s i => s + f i) acc = acc + (l.map f).sum := by
  induction l with
  | nil => intro acc; simp
  | cons i l ih =>
    intro acc
    rw [List.foldl_cons, ih, List.map_cons, List.sum_cons, add_assoc]

theorem product_loop_eq {N : Nat} {T : Type} [CommMonoid T] (f : Fin N → T)
    (l : List (Fin N)) : ∀ acc : T, l.foldl (fun p i => p * f i) acc = acc * (l.map f).prod := by
  induction l with
  | nil => intro acc; simp
  | cons i l ih =>
    intro acc
    rw [List.foldl_cons, ih, List.map_cons, List.prod_cons, mul_assoc]

theorem sum_eq_finset_sum {N : Nat} [NeZero N] {T : Type} [AddCommMonoid T] (x : tuplet N T) :
    sum x = ∑ i, x i := by
  rw [sum, sum_loop_eq, Fin.sum_univ_def, finRange_eq_zero_cons, List.map_cons, List.sum_cons]

theorem product_eq_finset_prod {N : Nat} [NeZero N] {T : Type} [CommMonoid T]
    (x : tuplet N T) : product x = ∏ i, x i := by
  rw [product, product_loop_eq, Fin.prod_univ_def, finRange_eq_zero_cons, List.map_cons,
    List.prod_cons]

theorem dot_eq_finset_sum {N : Nat} [NeZero N] {T : Type} [AddCommMonoid T] [Mul T]
    (a b : tuplet N T) : dot a b = ∑ i, a i * b i := by
  rw [dot, sum_loop_eq (fun i => a i * b i), Fin.sum_univ_def, finRange_eq_zero_cons,
    List.map_cons, List.sum_cons]

theorem operator_times_eq {N : Nat} {T : Type} [Mul T] (x a b : tuplet N T) :
    operator_times x a b = fun i => a i * b i :=
  funext (fun i => fill_apply (fun i => a i * b i) x i)

/-- C18: `dot(a,b)` is the sum over `i < N` of `a[i]*b[i]`, in the generic loop
and in the closed forms for ranks 1, 2 and 3, and equals `sum(a*b)`; for
instance `dot((2,3,4,5),(40,30,20,10)) == 300`. -/
theorem dot_is_sum_of_products {N : Nat} [NeZero N] {T : Type} [AddCommMonoid T] [Mul T]
    (a b : tuplet N T) :
    dot a b = ∑ i, a i * b i
    ∧ (∀ x : tuplet N T, dot a b = sum (operator_times x a b))
    ∧ (∀ c d : tuplet 1 T, rank1.dot c d = ∑ i, c i * d i)
    ∧ (∀ c d : tuplet 2 T, rank2.dot c d = ∑ i, c i * d i)
    ∧ (∀ c d : tuplet 3 T, rank3.dot c d = ∑ i, c i * d i)
    ∧ dot (tuplet4 2 3 4 5 : tuplet 4 Int) (tuplet4 40 30 20 10) = 300 := by
  refine ⟨dot_eq_finset_sum a b, ?_, ?_, ?_, ?_, by decide⟩
  · intro x
    rw [operator_times_eq]
    rfl
  · intro c d
    rw [Fin.sum_univ_one]; rfl
  · intro c d
    rw [Fin.sum_univ_two]; rfl
  · intro c d
    rw [Fin.sum_univ_three]; rfl

theorem dot_is_sum_of_products_witness :
    dot (tuplet4 2 3 4 5 : tuplet 4 Int) (tuplet4 40 30 20 10)
      = ∑ i, (tuplet4 2 3 4 5 : tuplet 4 Int) i * (tuplet4 40 30 20 10 : tuplet 4 Int) i :=
  (dot_is_sum_of_products (tuplet4 2 3 4 5 : tuplet 4 Int) (tuplet4 40 30 20 10)).1

theorem reverse_index_involutive {N : Nat} (i : Fin N) : reverse_index (reverse_index i) = i := by
  apply Fin.ext
  have := i.isLt
  simp only [reverse_index]
  omega

theorem reverse_loop_apply {N : Nat} {T : Type} (a : tuplet N T) (l : List (Fin N)) :
    ∀ (b : tuplet N T) (k : Fin N),
      (l.foldl (fun b i => Function.update b (reverse_index i) (a i)) b) k
        = if reverse_index k ∈ l then a (reverse_index k) else b k := by
  induction l with
  | nil => intro b k; simp
  | cons i l ih =>
    intro b k
    rw [List.foldl_cons, ih]
    by_cases hk : reverse_index k ∈ l
    · simp [hk]
    · by_cases hki : reverse_index k = i
      · subst hki
        simp only [hk, if_false, List.mem_cons, true_or, if_true]
        rw [reverse_index_involutive, Function.update_same]
      · have hne : k ≠ reverse_index i := by
          intro e
          apply hki
          rw [e, reverse_index_involutive]
        simp [hk, hki, Function.update_noteq hne]

/-- C19: `reverse(a)[i] == a[N-1-i]` for every `i < N`, in the generic loop
and in the closed forms for ranks 1, 2 and 3; for instance
`reverse((2,3,4,5)) == (5,4,3,2)`. -/
theorem reverse_elements {N : Nat} {T : Type} (b a : tuplet N T) (i : Fin N) :
    reverse b a i = a (reverse_index i)
    ∧ (reverse_index i).val = N - 1 - i.val
    ∧ (∀ (c : tuplet 1 T) (j : Fin 1), rank1.reverse c j = c (reverse_index j))
    ∧ (∀ (c : tuplet 2 T) (j : Fin 2), rank2.reverse c j = c (reverse_index j))
    ∧ (∀ (c : tuplet 3 T) (j : Fin 3), rank3.reverse c j = c (reverse_index j))
    ∧ (∀ x : tuplet 4 Int, reverse x (tuplet4 2 3 4 5) = tuplet4 5 4 3 2) := by
  have hgen : ∀ {M : Nat} {U : Type} (y c : tuplet M U) (j : Fin M),
      reverse y c j = c (reverse_index j) := by
    intro M U y c j
    rw [reverse, reverse_loop_apply]
    simp
  refine ⟨hgen b a i, rfl, ?_, ?_, ?_, ?_⟩
  · intro c j
    fin_cases j
    rfl
  · intro c j
    fin_cases j <;> rfl
  · intro c j
    fin_cases j <;> rfl
  · intro x
    funext j
    rw [hgen]
    fin_cases j <;> rfl

/-- C20: `product(x)` is the product and `sum(x)` the sum of all `N` elements,
computed in the element type; for rank 1 both return `x[0]`; for instance
`product((2,3,4,5)) == 120` and `sum((2,3,4,5)) == 14`. -/
theorem product_and_sum {N : Nat} [NeZero N] {T : Type} [CommSemiring T] (x : tuplet N T) :
    product x = ∏ i, x i
    ∧ sum x = ∑ i, x i
    ∧ (∀ y : tuplet 1 T, product y = y 0 ∧ sum y = y 0)
    ∧ product (tuplet4 2 3 4 5 : tuplet 4 Int) = 120
    ∧ sum (tuplet4 2 3 4 5 : tuplet 4 Int) = 14 :=
  ⟨product_eq_finset_prod x, sum_eq_finset_sum x, fun _ => ⟨rfl, rfl⟩, by decide, by decide⟩

theorem product_and_sum_witness :
    product (tuplet4 2 3 4 5 : tuplet 4 Int) = ∏ i, (tuplet4 2 3 4 5 : tuplet 4 Int) i
    ∧ sum (tuplet4 2 3 4 5 : tuplet 4 Int) = ∑ i, (tuplet4 2 3 4 5 : tuplet 4 Int) i :=
  ⟨(product_and_sum (tuplet4 2 3 4 5 : tuplet 4 Int)).1,
   (product_and_sum (tuplet4 2 3 4 5 : tuplet 4 Int)).2.1⟩

/-! ## Theorems: operator<< -/

theorem int_text_no_comma (v : Int) : ',' ∉ int_text v := by
  obtain ⟨_, hdig, _⟩ := toDigits_spec v.natAbs
  have key : ',' ∉ Nat.toDigits 10 v.natAbs := fun h => by
    have := hdig _ h
    exact absurd this (by decide)
  by_cases hv : v < 0
  · simp [int_text, write_int, hv, key]
  · simp [int_text, write_int, hv, key]

theorem lshift_loop_text {N : Nat} {T : Type} (txt : T → List Char) (t : tuplet N T) (i : Fin N) :
    ∀ (l : List (Fin N)) (acc : List Char),
      l.foldl (fun s j => write_text txt (s ++ [',']) (t j)) (acc ++ txt (t i))
        = acc ++ [','].intercalate ((i :: l).map (fun j => txt (t j))) := by
  intro l
  induction l generalizing i with
  | nil => intro acc; simp [List.intercalate]
  | cons j l ih =>
    intro acc
    rw [List.foldl_cons, show write_text txt (acc ++ txt (t i) ++ [',']) (t j)
      = (acc ++ txt (t i) ++ [',']) ++ txt (t j) from rfl, ih j]
    simp [List.intercalate, List.intersperse]

theorem operator_lshift_text {N : Nat} [NeZero N] {T : Type} (txt : T → List Char)
    (s : List Char) (t : tuplet N T) :
    operator_lshift (write_text txt) s t
      = s ++ '[' :: ([','].intercalate (List.ofFn (fun i => txt (t i))) ++ [']']) := by
  have h := lshift_loop_text txt t 0 (indices_from_one N) (s ++ ['['])
  rw [operator_lshift, show (List.finRange N).drop 1 = indices_from_one N from rfl]
  rw [show write_text txt (s ++ ['[']) (t 0) = s ++ ['['] ++ txt (t 0) from rfl, h,
    ← finRange_eq_zero_cons, List.ofFn_eq_map]
  simp

theorem count_comma_list {N : Nat} (t : tuplet N Int) :
    ∀ l : List (Fin N), (body_text t (fun _ => 0) (fun _ => 0) l).count ',' = l.length - 1 := by
  intro l
  induction l with
  | nil => rfl
  | cons i l ih =>
    have hi : (int_text (t i)).count ',' = 0 := List.count_eq_zero.2 (int_text_no_comma _)
    cases l with
    | nil => simpa [body_text] using hi
    | cons j l =>
      rw [body_text]
      simp only [List.replicate, List.nil_append, List.count_append, List.count_cons_self, ih, hi]
      simp

theorem int_text_no_space (v : Int) : ' ' ∉ int_text v := by
  obtain ⟨_, hdig, _⟩ := toDigits_spec v.natAbs
  have key : ' ' ∉ Nat.toDigits 10 v.natAbs := fun h => by
    have := hdig _ h
    exact absurd this (by decide)
  by_cases hv : v < 0
  · simp [int_text, write_int, hv, key]
  · simp [int_text, write_int, hv, key]

theorem no_space_list {N : Nat} (t : tuplet N Int) :
    ∀ l : List (Fin N), ' ' ∉ body_text t (fun _ => 0) (fun _ => 0) l := by
  intro l
  induction l with
  | nil => simp [body_text]
  | cons i l ih =>
    cases l with
    | nil => simpa [body_text] using int_text_no_space (t i)
    | cons j l =>
      rw [body_text]
      simp only [List.replicate, List.nil_append, List.mem_append, List.mem_cons, not_or]
      exact ⟨int_text_no_space (t i), by decide, ih⟩

/-- C21: `operator<<` writes a `tuplet<N,T>` as `[`, the texts of the `N`
elements in index order separated by single commas, and `]`: the element texts
are joined by `N-1` separating commas. For `T = int` the text is
`[e0,...,eN-1]` with exactly `N-1` commas and no space, such as `[4,24,1]`. -/
theorem lshift_bracketed_commas {N : Nat} [NeZero N] (s : List Char) :
    (∀ (T : Type) (txt : T → List Char) (t : tuplet N T),
        operator_lshift (write_text txt) s t
          = s ++ '[' :: ([','].intercalate (List.ofFn (fun i => txt (t i))) ++ [']'])
        ∧ (List.ofFn (fun i => txt (t i))).length = N)
    ∧ ∀ t : tuplet N Int,
        operator_lshift write_int s t = s ++ '[' :: (comma_text t ++ [']'])
        ∧ (comma_text t).count ',' = N - 1 ∧ ' ' ∉ comma_text t := by
  refine ⟨fun T txt t => ⟨operator_lshift_text txt s t, List.length_ofFn _⟩, fun t => ⟨?_, ?_, ?_⟩⟩
  · rw [operator_lshift_eq, comma_text_eq]
  · rw [comma_text_eq, count_comma_list, List.length_finRange]
  · rw [comma_text_eq]
    exact no_space_list t _

theorem lshift_bracketed_commas_witness :
    operator_lshift write_int [] (![4, 24, 1] : tuplet 3 Int) = "[4,24,1]".toList
    ∧ (comma_text (![4, 24, 1] : tuplet 3 Int)).count ',' = 2 :=
  ⟨((lshift_bracketed_commas []).2 ![4, 24, 1]).1.trans (by decide),
   ((lshift_bracketed_commas []).2 ![4, 24, 1]).2.1⟩

/-! ## Theorems: bintohex and hextobin -/

set_option maxRecDepth 100000 in
theorem sprintf_byte : ∀ v, v < 256 → strncpy (sprintf_02X v) 2 = hex_pair v := by
  decide

set_option maxRecDepth 100000 in
theorem digit_facts : ∀ a, a < 16 → upper_hex_digit a ∈ valid_hex_chars
    ∧ upper_hex_digit a ≠ NUL ∧ hex_digit_value (upper_hex_digit a) = some a := by
  decide

theorem valid_is_digit : ∀ c ∈ valid_hex_chars, ∃ a, a < 16 ∧ c = upper_hex_digit a := by
  decide

theorem bintohex_loop_eq (buf : Nat → Nat) : ∀ (n p : Nat) (h : List Char),
    bintohex_loop buf n p h
      = h ++ hex_text ((List.range' p n).map (fun k => buf k % 256)) := by
  intro n
  induction n with
  | zero => intro p h; simp [bintohex_loop, hex_text]
  | succ n ih =>
    intro p h
    rw [bintohex_loop, ih, sprintf_byte _ (Nat.mod_lt _ (by decide)), List.range'_succ]
    simp [hex_text]

theorem strncpy_two (x y : Char) (tl : List Char) (hx : x ≠ NUL) (hy : y ≠ NUL) :
    strncpy (x :: y :: tl) 2 = [x, y] := by
  have hx1 : (x != NUL) = true := by simpa using hx
  have hy1 : (y != NUL) = true := by simpa using hy
  simp [strncpy, List.takeWhile_cons, hx1, hy1]

theorem strchr_valid_iff (c : Char) (hc : c ≠ NUL) :
    strchr valid_hex_chars c = true ↔ c ∈ valid_hex_chars := by
  simp [strchr, hc]

theorem sscanf_pair (a c : Nat) (ha : a < 16) (hc : c < 16) :
    sscanf_X [upper_hex_digit a, upper_hex_digit c] = some (16 * a + c) := by
  obtain ⟨_, ha2, ha3⟩ := digit_facts a ha
  obtain ⟨_, hc2, hc3⟩ := digit_facts c hc
  have ha1 : (upper_hex_digit a != NUL) = true := by simpa using ha2
  have hc1 : (upper_hex_digit c != NUL) = true := by simpa using hc2
  simp [sscanf_X, List.takeWhile_cons, ha1, hc1, ha3, hc3]

/-- One iteration of the loop of `hextobin` on two valid characters. -/
theorem hextobin_loop_step (l a c : Nat) (ha : a < 16) (hc : c < 16) (tl : List Char)
    (b : List Nat) :
    hextobin_loop (l + 1) (upper_hex_digit a :: upper_hex_digit c :: tl) b
      = hextobin_loop l tl (b ++ [16 * a + c]) := by
  obtain ⟨ha1, ha2, _⟩ := digit_facts a ha
  obtain ⟨hc1, hc2, _⟩ := digit_facts c hc
  have h256 : (16 * a + c) % 256 = 16 * a + c := Nat.mod_eq_of_lt (by omega)
  rw [hextobin_loop]
  simp only [strncpy_two _ _ tl ha2 hc2, sscanf_pair a c ha hc, h256]
  simp [(strchr_valid_iff _ ha2).2 ha1, (strchr_valid_iff _ hc2).2 hc1]

theorem hextobin_loop_hex_text : ∀ (bs : List Nat) (rest : List Char) (b : List Nat),
    (∀ v ∈ bs, v < 256) → hextobin_loop bs.length (hex_text bs ++ rest) b = some (b ++ bs) := by
  intro bs
  induction bs with
  | nil => intro rest b _; simp [hextobin_loop]
  | cons v bs ih =>
    intro rest b hb
    have hv : v < 256 := hb v (List.mem_cons_self _ _)
    have e : hex_text (v :: bs) ++ rest
        = upper_hex_digit (v / 16) :: upper_hex_digit (v % 16) :: (hex_text bs ++ rest) := by
      simp [hex_text, hex_pair]
    rw [e, List.length_cons, hextobin_loop_step _ _ _ (by omega) (Nat.mod_lt _ (by decide)),
      ih rest _ (fun w hw => hb w (List.mem_cons_of_mem _ hw)),
      show 16 * (v / 16) + v % 16 = v by omega]
    simp

theorem hex_text_valid : ∀ bs : List Nat, (∀ v ∈ bs, v < 256) →
    ∀ c ∈ hex_text bs, c ∈ valid_hex_chars ∧ c ≠ NUL := by
  intro bs hb c hc
  simp only [hex_text, List.mem_flatMap, hex_pair] at hc
  obtain ⟨v, hv, hcv⟩ := hc
  have hv2 := hb v hv
  simp only [List.mem_cons, List.mem_singleton, List.not_mem_nil, or_false] at hcv
  rcases hcv with h | h
  · rw [h]; exact ⟨(digit_facts _ (by omega)).1, (digit_facts _ (by omega)).2.1⟩
  · rw [h]
    exact ⟨(digit_facts _ (Nat.mod_lt _ (by decide))).1,
      (digit_facts _ (Nat.mod_lt _ (by decide))).2.1⟩

theorem hex_text_length (bs : List Nat) : (hex_text bs).length = 2 * bs.length := by
  induction bs with
  | nil => rfl
  | cons v bs ih =>
    have : hex_text (v :: bs) = hex_pair v ++ hex_text bs := by simp [hex_text]
    rw [this, List.length_append, ih, List.length_cons]
    simp [hex_pair]; omega

theorem strlen_of_no_NUL (s : List Char) (h : ∀ c ∈ s, c ≠ NUL) : strlen s = s.length := by
  have : s.takeWhile (fun c => c != NUL) = s := by
    rw [List.takeWhile_eq_self_iff]
    intro c hc
    simpa using h c hc
  rw [strlen, this]

theorem bytes_of_lt (buf : Nat → Nat) (n : Nat) : ∀ v ∈ bytes_of buf n, v < 256 := by
  intro v hv
  simp only [bytes_of, List.mem_map] at hv
  obtain ⟨k, _, rfl⟩ := hv
  exact Nat.mod_lt _ (by decide)

theorem bytes_of_buffer_of (bs : List Nat) (hb : ∀ v ∈ bs, v < 256) :
    bytes_of (buffer_of bs) bs.length = bs := by
  apply List.ext_getElem
  · simp [bytes_of]
  · intro i h1 h2
    have hlt : bs[i] < 256 := hb _ (List.getElem_mem _)
    simp [bytes_of, buffer_of, List.getElem?_eq_getElem h2, Nat.mod_eq_of_lt hlt]

theorem bintohex_ok (buf : Nat → Nat) (n : Nat) :
    bintohex true buf (n : Int) = (1, some (hex_text (bytes_of buf n))) := by
  have h0 : ¬ ((n : Int) < 0) := by omega
  simp [bintohex, h0, bintohex_loop_eq, bytes_of, List.range_eq_range']

theorem hextobin_hex_text (bs : List Nat) (hb : ∀ v ∈ bs, v < 256) :
    hextobin true (hex_text bs) = (1, some bs, (bs.length : Int)) := by
  have hl : strlen (hex_text bs) / 2 = bs.length := by
    rw [strlen_of_no_NUL _ (fun c hc => (hex_text_valid bs hb c hc).2), hex_text_length]
    omega
  have h := hextobin_loop_hex_text bs [] [] hb
  rw [List.append_nil] at h
  simp [hextobin, hl, h]

/-- A text of even length over the valid characters is the text of a list of
bytes. -/
theorem valid_text_is_hex_text : ∀ (n : Nat) (h : List Char), h.length = 2 * n →
    (∀ c ∈ h, c ∈ valid_hex_chars) →
    ∃ bs : List Nat, (∀ v ∈ bs, v < 256) ∧ bs.length = n ∧ h = hex_text bs := by
  intro n
  induction n with
  | zero =>
    intro h hl _
    refine ⟨[], by simp, rfl, ?_⟩
    exact List.length_eq_zero.1 (by omega)
  | succ n ih =>
    intro h hl hv
    match h, hl, hv with
    | x :: y :: tl, hl, hv =>
      obtain ⟨a, ha, rfl⟩ := valid_is_digit x (hv x (by simp))
      obtain ⟨c, hc, rfl⟩ := valid_is_digit y (hv y (by simp))
      obtain ⟨bs, hb, hbl, rfl⟩ := ih tl (by simp at hl; omega)
        (fun z hz => hv z (by simp [hz]))
      refine ⟨(16 * a + c) :: bs, ?_, by simp [hbl], ?_⟩
      · intro v hv2
        rcases List.mem_cons.1 hv2 with h1 | h1
        · omega
        · exact hb v h1
      · have e1 : (16 * a + c) / 16 = a := by omega
        have e2 : (16 * a + c) % 16 = c := by omega
        simp [hex_text, hex_pair, e1, e2]
    | [], hl, _ => simp at hl
    | [_], hl, _ => simp at hl; omega

/-- The loop of `hextobin` stops at the first pair with a character that is
not valid. -/
theorem hextobin_loop_invalid : ∀ (n : Nat) (h : List Char) (b : List Nat), h.length = 2 * n →
    (∀ c ∈ h, c ≠ NUL) → (∃ c ∈ h, c ∉ valid_hex_chars) → hextobin_loop n h b = none := by
  intro n
  induction n with
  | zero =>
    intro h b hl _ hbad
    have : h = [] := List.length_eq_zero.1 (by omega)
    subst this
    simp at hbad
  | succ n ih =>
    intro h b hl hnul hbad
    match h, hl, hnul, hbad with
    | [], hl, _, _ => simp at hl
    | [_], hl, _, _ => simp at hl; omega
    | x :: y :: tl, hl, hnul, hbad =>
      have hx := hnul x (by simp)
      have hy := hnul y (by simp)
      by_cases hxv : x ∈ valid_hex_chars
      · by_cases hyv : y ∈ valid_hex_chars
        · obtain ⟨a, ha, rfl⟩ := valid_is_digit x hxv
          obtain ⟨c, hc, rfl⟩ := valid_is_digit y hyv
          rw [hextobin_loop_step _ _ _ ha hc]
          apply ih tl _ (by simp at hl; omega) (fun z hz => hnul z (by simp [hz]))
          obtain ⟨z, hz, hzb⟩ := hbad
          simp only [List.mem_cons] at hz
          rcases hz with rfl | rfl | hz
          · exact absurd hxv hzb
          · exact absurd hyv hzb
          · exact ⟨z, hz, hzb⟩
        · have : strchr valid_hex_chars y = false := by
            rw [← Bool.not_eq_true, strchr_valid_iff _ hy]; exact hyv
          rw [hextobin_loop]
          simp [strncpy_two _ _ tl hx hy, this]
      · have : strchr valid_hex_chars x = false := by
          rw [← Bool.not_eq_true, strchr_valid_iff _ hx]; exact hxv
        rw [hextobin_loop]
        simp [strncpy_two _ _ tl hx hy, this]

theorem hex_text_getD : ∀ (bs : List Nat) (k : Nat), k < bs.length →
    (hex_text bs).getD (2 * k) NUL = upper_hex_digit (bs.getD k 0 / 16)
    ∧ (hex_text bs).getD (2 * k + 1) NUL = upper_hex_digit (bs.getD k 0 % 16) := by
  intro bs
  induction bs with
  | nil => intro k hk; simp at hk
  | cons v bs ih =>
    intro k hk
    have e : hex_text (v :: bs)
        = upper_hex_digit (v / 16) :: upper_hex_digit (v % 16) :: hex_text bs := by
      simp [hex_text, hex_pair]
    cases k with
    | zero => simp [e]
    | succ k =>
      have hk2 : k < bs.length := by simpa using hk
      have := ih k hk2
      rw [e, show 2 * (k + 1) = 2 * k + 1 + 1 by ring]
      simpa using this

/-- C23: `bintohex` followed by `hextobin` gives back the original bytes: for
every buffer and every length `n >= 0`, with both allocations succeeding,
`bintohex` returns 1 with a string `h`, and `hextobin(h)` returns 1 with
`len == n` and the `n` bytes of the buffer, zero bytes included. -/
theorem bin_to_hex_to_bin (buf : Nat → Nat) (n : Nat) :
    ∃ h : List Char, bintohex true buf (n : Int) = (1, some h)
      ∧ hextobin true h = (1, some (bytes_of buf n), (n : Int)) := by
  refine ⟨hex_text (bytes_of buf n), bintohex_ok buf n, ?_⟩
  have h := hextobin_hex_text (bytes_of buf n) (bytes_of_lt buf n)
  simpa [bytes_of] using h

theorem bin_to_hex_to_bin_witness :
    ∃ h : List Char, bintohex true (buffer_of [84, 0, 255, 10]) 4 = (1, some h)
      ∧ hextobin true h = (1, some [84, 0, 255, 10], 4) :=
  bin_to_hex_to_bin (buffer_of [84, 0, 255, 10]) 4

/-- C24: `hextobin` followed by `bintohex` gives back the original text: for
every string `h` of even length over the characters 0-9 and A-F, with both
allocations succeeding, `hextobin(h)` returns 1 with `len == length(h)/2`, and
`bintohex` of the returned buffer returns 1 with the string `h`. -/
theorem hex_to_bin_to_hex (h : List Char) (heven : h.length % 2 = 0)
    (hvalid : ∀ c ∈ h, c ∈ valid_hex_chars) :
    ∃ b : List Nat, hextobin true h = (1, some b, ((h.length / 2 : Nat) : Int))
      ∧ bintohex true (buffer_of b) ((h.length / 2 : Nat) : Int) = (1, some h) := by
  obtain ⟨bs, hb, hbl, rfl⟩ := valid_text_is_hex_text (h.length / 2) h (by omega) hvalid
  refine ⟨bs, ?_, ?_⟩
  · rw [hextobin_hex_text bs hb, hbl]
  · rw [bintohex_ok, ← hbl, bytes_of_buffer_of bs hb]

theorem hex_to_bin_to_hex_witness :
    "3081FA0201000241".toList.length % 2 = 0
    ∧ (∀ c ∈ "3081FA0201000241".toList, c ∈ valid_hex_chars)
    ∧ ∃ b : List Nat,
        hextobin true "3081FA0201000241".toList
          = (1, some b, (("3081FA0201000241".toList.length / 2 : Nat) : Int))
        ∧ bintohex true (buffer_of b) (("3081FA0201000241".toList.length / 2 : Nat) : Int)
          = (1, some "3081FA0201000241".toList) :=
  ⟨by decide, by decide, hex_to_bin_to_hex "3081FA0201000241".toList (by decide) (by decide)⟩

/-- C25: `hextobin` rejects invalid hex: for every string of even length that
contains a character that is not one of 0123456789ABCDEF, `hextobin` returns 0
and leaves `*buf == NULL` and `*len == 0`, whether the allocation succeeds or
not; the lower-case letters a-f are not among the valid characters. -/
theorem hextobin_rejects_invalid (malloc_ok : Bool) (h : List Char)
    (hstr : ∀ c ∈ h, c ≠ NUL) (heven : h.length % 2 = 0) (c : Char) (hc : c ∈ h)
    (hbad : c ∉ valid_hex_chars) :
    hextobin malloc_ok h = (0, none, 0)
      ∧ ∀ x ∈ "abcdef".toList, x ∉ valid_hex_chars := by
  refine ⟨?_, by decide⟩
  cases malloc_ok with
  | false => rfl
  | true =>
    have hl := hextobin_loop_invalid (h.length / 2) h [] (by omega) hstr ⟨c, hc, hbad⟩
    simp [hextobin, strlen_of_no_NUL h hstr, hl]

theorem hextobin_rejects_invalid_witness :
    (∀ c ∈ "3081FA0T01000241".toList, c ≠ NUL)
    ∧ "3081FA0T01000241".toList.length % 2 = 0
    ∧ 'T' ∈ "3081FA0T01000241".toList ∧ 'T' ∉ valid_hex_chars
    ∧ hextobin true "3081FA0T01000241".toList = (0, none, 0)
    ∧ hextobin true "3081FA00T1000241".toList = (0, none, 0) :=
  ⟨by decide, by decide, by decide, by decide,
   (hextobin_rejects_invalid true "3081FA0T01000241".toList (by decide) (by decide) 'T'
      (by decide) (by decide)).1,
   (hextobin_rejects_invalid true "3081FA00T1000241".toList (by decide) (by decide) 'T'
      (by decide) (by decide)).1⟩

/-- C26: for every buffer and every `len >= 0`, with the allocation succeeding,
`bintohex` returns 1 and a null-terminated string of exactly `2*len`
characters in which the characters `2k` and `2k+1` are the upper-case
hexadecimal digits of the high and the low nibble of byte `k`, so that every
character is one of 0123456789ABCDEF; an empty buffer gives a non-null empty
string; a negative `len` gives the return value 0 and `*hex == NULL`. -/
theorem bintohex_text (buf : Nat → Nat) (malloc_ok : Bool) (len : Int) :
    (0 ≤ len → ∃ h : List Char, bintohex true buf len = (1, some h)
        ∧ h.length = 2 * len.toNat ∧ strlen h = 2 * len.toNat
        ∧ (∀ k, k < len.toNat →
            h.getD (2 * k) NUL = upper_hex_digit (buf k % 256 / 16)
            ∧ h.getD (2 * k + 1) NUL = upper_hex_digit (buf k % 256 % 16))
        ∧ ∀ c ∈ h, c ∈ valid_hex_chars)
    ∧ bintohex true buf 0 = (1, some [])
    ∧ (len < 0 → bintohex malloc_ok buf len = (0, none)) := by
  refine ⟨?_, rfl, ?_⟩
  · intro h0
    obtain ⟨n, rfl⟩ := Int.eq_ofNat_of_zero_le h0
    have hv := hex_text_valid (bytes_of buf n) (bytes_of_lt buf n)
    have hlen : (hex_text (bytes_of buf n)).length = 2 * n := by
      rw [hex_text_length]; simp [bytes_of]
    refine ⟨hex_text (bytes_of buf n), bintohex_ok buf n, by simpa using hlen, ?_, ?_,
      fun c hc => (hv c hc).1⟩
    · rw [strlen_of_no_NUL _ (fun c hc => (hv c hc).2)]; simpa using hlen
    · intro k hk
      simp only [Int.toNat_ofNat] at hk
      exact hex_text_getD (bytes_of buf n) k (by simpa [bytes_of] using hk) |>.imp
        (fun h => by simpa [bytes_of, hk] using h) (fun h => by simpa [bytes_of, hk] using h)
  · intro hneg
    simp [bintohex, hneg]

theorem bintohex_text_witness :
    (∃ h : List Char, bintohex true (buffer_of [250, 7]) 2 = (1, some h)
        ∧ h.length = 2 * (2 : Int).toNat ∧ strlen h = 2 * (2 : Int).toNat
        ∧ (∀ k, k < (2 : Int).toNat →
            h.getD (2 * k) NUL = upper_hex_digit (buffer_of [250, 7] k % 256 / 16)
            ∧ h.getD (2 * k + 1) NUL = upper_hex_digit (buffer_of [250, 7] k % 256 % 16))
        ∧ ∀ c ∈ h, c ∈ valid_hex_chars)
    ∧ bintohex true (buffer_of [250, 7]) (-1) = (0, none) :=
  ⟨(bintohex_text (buffer_of [250, 7]) true 2).1 (by decide),
   (bintohex_text (buffer_of [250, 7]) true (-1)).2.2 (by decide)⟩

/-! ## Theorems: split_arguments and split_trim -/

theorem not_sep_fun (seps : List Char) :
    (fun x => !(drop_sep seps).is_dropped x && !(drop_sep seps).is_kept x)
      = fun x => !seps.contains x := by
  funext x
  simp [char_separator.is_dropped, char_separator.is_kept, drop_sep]

theorem not_sep_fun_keep (seps : List Char) (done : Bool) :
    (fun x => !(keep_sep seps done).is_dropped x && !(keep_sep seps done).is_kept x)
      = fun x => !seps.contains x := by
  funext x
  simp [char_separator.is_dropped, char_separator.is_kept, keep_sep]

theorem dropWhile_head_false {q : Char → Bool} : ∀ (s : List Char) (d : Char) (as : List Char),
    s.dropWhile q = d :: as → q d = false := by
  intro s
  induction s with
  | nil => intro d as h; simp at h
  | cons x xs ih =>
    intro d as h
    rw [List.dropWhile_cons] at h
    by_cases hx : q x = true
    · rw [if_pos hx] at h; exact ih d as h
    · rw [if_neg hx] at h
      simp only [List.cons.injEq] at h
      rw [← h.1]
      simpa using hx

/-- Splitting after a run of characters that are not separators. -/
theorem splitOnP_run (seps : List Char) (s : List Char) :
    s.splitOnP (fun c => seps.contains c)
      = match s.dropWhile (fun x => !seps.contains x) with
        | [] => [s.takeWhile (fun x => !seps.contains x)]
        | _ :: as => s.takeWhile (fun x => !seps.contains x)
            :: as.splitOnP (fun c => seps.contains c) := by
  have hsplit := List.takeWhile_append_dropWhile (fun x => !seps.contains x) s
  have htw : ∀ x ∈ s.takeWhile (fun x => !seps.contains x),
      ¬ (fun c => seps.contains c) x = true := by
    intro x hx
    have := List.mem_takeWhile_imp hx
    simpa using this
  cases hd : s.dropWhile (fun x => !seps.contains x) with
  | nil =>
    rw [hd, List.append_nil] at hsplit
    simp only []
    rw [hsplit]
    exact List.splitOnP_eq_single _ _ (fun x hx => htw x (by rw [hsplit]; exact hx))
  | cons d as =>
    have hpd : (fun c => seps.contains c) d = true := by
      have := dropWhile_head_false s d as hd
      simpa using this
    simp only []
    conv_lhs => rw [← hsplit, hd]
    exact List.splitOnP_first _ _ htw d hpd as

theorem dropWhile_length_le {q : Char → Bool} (s : List Char) :
    (s.dropWhile q).length ≤ s.length := by
  induction s with
  | nil => simp
  | cons x xs ih =>
    rw [List.dropWhile_cons]
    split
    · simp only [List.length_cons]; omega
    · exact Nat.le_refl _

theorem fields_dropWhile (seps : List Char) (s : List Char) :
    fields seps (s.dropWhile (fun c => seps.contains c)) = fields seps s := by
  induction s with
  | nil => rfl
  | cons x xs ih =>
    rw [List.dropWhile_cons]
    by_cases hx : seps.contains x = true
    · rw [if_pos hx, ih, fields, fields, List.splitOnP_cons]
      simp only [hx, if_true]
      rfl
    · rw [if_neg hx]

theorem fields_run (seps : List Char) (c : Char) (cs : List Char)
    (hc : seps.contains c = false) :
    fields seps (c :: cs)
      = (c :: cs).takeWhile (fun x => !seps.contains x)
          :: fields seps ((c :: cs).dropWhile (fun x => !seps.contains x)) := by
  have hne : ((c :: cs).takeWhile (fun x => !seps.contains x)).isEmpty = false := by
    simp only [List.takeWhile_cons, hc, Bool.not_false, if_true]
    rfl
  have hrun := splitOnP_run seps (c :: cs)
  cases hd : (c :: cs).dropWhile (fun x => !seps.contains x) with
  | nil =>
    rw [hd] at hrun
    simp only [] at hrun
    rw [fields, hrun, List.filter_cons, hne]
    rfl
  | cons d as =>
    rw [hd] at hrun
    simp only [] at hrun
    have hpd : seps.contains d = true := by
      have := dropWhile_head_false _ d as hd
      simpa using this
    rw [fields, hrun, List.filter_cons, hne, fields, List.splitOnP_cons]
    simp only [hpd, if_true, Bool.not_false, List.filter_cons, List.isEmpty_nil, Bool.not_true]
    rfl

theorem drop_call (seps : List Char) (s : List Char) :
    (drop_sep seps).operator_call s
      = match s.dropWhile (fun c => seps.contains c) with
        | [] => none
        | c :: cs => some ((c :: cs).takeWhile (fun x => !seps.contains x),
            (c :: cs).dropWhile (fun x => !seps.contains x), drop_sep seps) := by
  have e : (drop_sep seps).is_dropped = fun c => seps.contains c := rfl
  rw [char_separator.operator_call.eq_def, not_sep_fun, e]
  cases s.dropWhile (fun c => seps.contains c) with
  | nil => rfl
  | cons c cs => rfl

/-- The loop of `split_arguments`: with more fuel than characters it appends the
non-empty fields. -/
theorem push_tokens_drop (seps : List Char) : ∀ (fuel : Nat) (s : List Char)
    (acc : List (List Char)), s.length < fuel →
    push_tokens id fuel (drop_sep seps) s acc = acc ++ fields seps s := by
  intro fuel
  induction fuel with
  | zero => intro s acc h; omega
  | succ fuel ih =>
    intro s acc h
    rw [push_tokens, drop_call, ← fields_dropWhile]
    have hlen := dropWhile_length_le (q := fun c => seps.contains c) s
    cases hd : s.dropWhile (fun c => seps.contains c) with
    | nil => simp [fields]
    | cons c cs =>
      have hc : seps.contains c = false := dropWhile_head_false s c cs hd
      rw [hd] at hlen
      have hlen2 := dropWhile_length_le (q := fun x => !seps.contains x) (c :: cs)
      have hlt : ((c :: cs).dropWhile (fun x => !seps.contains x)).length < (c :: cs).length := by
        rw [List.dropWhile_cons]
        simp only [hc, Bool.not_false, if_true, List.length_cons]
        have := dropWhile_length_le (q := fun x => !seps.contains x) cs
        omega
      simp only []
      rw [ih _ _ (by omega), fields_run seps c cs hc]
      simp

theorem keep_call_done (seps : List Char) (c : Char) (cs : List Char)
    (hc : seps.contains c = true) :
    (keep_sep seps true).operator_call (c :: cs)
      = some (cs.takeWhile (fun x => !seps.contains x),
          cs.dropWhile (fun x => !seps.contains x), keep_sep seps true) := by
  have e : (keep_sep seps true).is_dropped c = true := hc
  rw [char_separator.operator_call.eq_def, not_sep_fun_keep]
  simp only [e]
  rfl

theorem keep_call_first_sep (seps : List Char) (c : Char) (cs : List Char)
    (hc : seps.contains c = true) :
    (keep_sep seps false).operator_call (c :: cs)
      = some ([], c :: cs, keep_sep seps true) := by
  have e : (keep_sep seps false).is_dropped c = true := hc
  rw [char_separator.operator_call.eq_def]
  simp only [e]
  rfl

theorem keep_call_first_run (seps : List Char) (c : Char) (cs : List Char)
    (hc : seps.contains c = false) :
    (keep_sep seps false).operator_call (c :: cs)
      = some ((c :: cs).takeWhile (fun x => !seps.contains x),
          (c :: cs).dropWhile (fun x => !seps.contains x), keep_sep seps true) := by
  have e : (keep_sep seps false).is_dropped c = false := hc
  rw [char_separator.operator_call.eq_def, not_sep_fun_keep]
  simp only [e]
  rfl

/-- The loop of `split_trim` once `m_output_done` is set, at the end of the
input or at a separator: with more fuel than characters it appends the fields
that follow. -/
theorem push_tokens_keep (g : List Char → List Char) (seps : List Char) :
    ∀ (fuel : Nat) (s : List Char) (acc : List (List Char)), s.length < fuel →
    (∀ c, s.head? = some c → seps.contains c = true) →
    push_tokens g fuel (keep_sep seps true) s acc = acc ++ (fields_after seps s).map g := by
  intro fuel
  induction fuel with
  | zero => intro s acc h; omega
  | succ fuel ih =>
    intro s acc h hs
    cases s with
    | nil =>
      rw [push_tokens]
      simp [char_separator.operator_call, keep_sep, fields_after]
    | cons c cs =>
      have hc := hs c rfl
      have hlen := dropWhile_length_le (q := fun x => !seps.contains x) cs
      rw [push_tokens, keep_call_done seps c cs hc]
      simp only []
      rw [ih _ _ (by simp only [List.length_cons] at h; omega)
        (fun d hd => by
          cases hdw : cs.dropWhile (fun x => !seps.contains x) with
          | nil => rw [hdw] at hd; simp at hd
          | cons d1 as =>
            rw [hdw] at hd
            simp only [List.head?_cons, Option.some.injEq] at hd
            have := dropWhile_head_false cs d1 as hdw
            rw [← hd]
            simpa using this)]
      rw [fields_after, splitOnP_run seps cs]
      cases cs.dropWhile (fun x => !seps.contains x) with
      | nil => simp [fields_after]
      | cons d as => simp [fields_after]

/-- The loop of `split_trim` on a non-empty input. -/
theorem tokenize_keep (g : List Char → List Char) (seps : List Char) (s : List Char)
    (hs : s ≠ []) (acc : List (List Char)) :
    tokenize g (keep_sep seps false) s acc
      = acc ++ (s.splitOnP (fun c => seps.contains c)).map g := by
  obtain ⟨c, cs, rfl⟩ := List.exists_cons_of_ne_nil hs
  rw [tokenize]
  simp only [List.isEmpty_cons, Bool.false_eq_true, if_false]
  rw [show 2 * (c :: cs).length + 2 = (2 * cs.length + 3) + 1 by
    simp only [List.length_cons]; omega, push_tokens]
  by_cases hc : seps.contains c = true
  · rw [keep_call_first_sep seps c cs hc]
    simp only []
    rw [push_tokens_keep g seps _ _ _ (by simp only [List.length_cons]; omega)
      (fun d hd => by simp only [List.head?_cons, Option.some.injEq] at hd; rw [← hd]; exact hc),
      fields_after, List.splitOnP_cons]
    simp only [hc, if_true]
    simp
  · have hc2 : seps.contains c = false := by simpa using hc
    have hlen := dropWhile_length_le (q := fun x => !seps.contains x) (c :: cs)
    rw [keep_call_first_run seps c cs hc2]
    simp only []
    rw [push_tokens_keep g seps _ _ _ (by simp only [List.length_cons] at hlen; omega)
      (fun d hd => by
        cases hdw : (c :: cs).dropWhile (fun x => !seps.contains x) with
        | nil => rw [hdw] at hd; simp at hd
        | cons d1 as =>
          rw [hdw] at hd
          simp only [List.head?_cons, Option.some.injEq] at hd
          have := dropWhile_head_false (c :: cs) d1 as hdw
          rw [← hd]
          simpa using this)]
    rw [splitOnP_run seps (c :: cs)]
    cases (c :: cs).dropWhile (fun x => !seps.contains x) with
    | nil => simp [fields_after]
    | cons d as => simp [fields_after]

theorem splitOnP_length (p : Char → Bool) (s : List Char) :
    (s.splitOnP p).length = s.countP p + 1 := by
  induction s with
  | nil => rfl
  | cons x xs ih =>
    rw [List.splitOnP_cons, List.countP_cons]
    by_cases hx : p x = true
    · simp [hx, ih]
    · simp [hx, ih]

theorem splitOnP_no_sep (p : Char → Bool) (s : List Char) :
    ∀ t ∈ s.splitOnP p, ∀ c ∈ t, p c = false := by
  induction s with
  | nil => intro t ht c hc; simp at ht; subst ht; simp at hc
  | cons x xs ih =>
    intro t ht c hc
    rw [List.splitOnP_cons] at ht
    by_cases hx : p x = true
    · rw [if_pos hx] at ht
      rcases List.mem_cons.1 ht with h | h
      · subst h; simp at hc
      · exact ih t h c hc
    · rw [if_neg hx] at ht
      cases hsp : xs.splitOnP p with
      | nil => exact absurd hsp (List.splitOnP_ne_nil _ _)
      | cons hd tl =>
        rw [hsp] at ht ih
        simp only [List.modifyHead_cons, List.mem_cons] at ht
        rcases ht with h | h
        · subst h
          rcases List.mem_cons.1 hc with h2 | h2
          · rw [h2]; simpa using hx
          · exact ih hd (List.mem_cons_self _ _) c h2
        · exact ih t (List.mem_cons_of_mem _ h) c hc

theorem tokenize_drop (seps : List Char) (s : List Char) :
    tokenize id (drop_sep seps) s [] = fields seps s := by
  rw [tokenize]
  cases s with
  | nil => rfl
  | cons c cs =>
    simp only [List.isEmpty_cons, Bool.false_eq_true, if_false]
    rw [push_tokens_drop seps _ _ _ (by omega), List.nil_append]

theorem fields_mem (seps : List Char) (s : List Char) :
    ∀ t ∈ fields seps s, t ≠ [] ∧ ∀ c ∈ t, c ∉ seps := by
  intro t ht
  rw [fields, List.mem_filter] at ht
  refine ⟨fun h => by rw [h] at ht; simp at ht, fun c hc hmem => ?_⟩
  have := splitOnP_no_sep _ s t ht.1 c hc
  have h2 : seps.contains c = true := by simpa using hmem
  rw [h2] at this
  exact Bool.noConfusion this

/-- What `trim_copy` returns: the part of the input between its leading and its
trailing white space. -/
theorem trim_copy_eq (a m b : List Char) (ha : ∀ c ∈ a, istream.isspace c = true)
    (hb : ∀ c ∈ b, istream.isspace c = true)
    (hfirst : ∀ x, m.head? = some x → istream.isspace x = false)
    (hlast : ∀ x, m.getLast? = some x → istream.isspace x = false) :
    trim_copy (a ++ (m ++ b)) = m := by
  by_cases hm : m = []
  · subst hm
    have h1 := (takeWhile_run (p := istream.isspace) (a ++ ([] ++ b)).reverse []
      (fun c hc => by
        rcases List.mem_append.1 (List.mem_reverse.1 hc) with h | h
        · exact ha c h
        · exact hb c (by simpa using h))
      (by simp)).2
    rw [List.append_nil] at h1
    rw [trim_copy, h1]
    rfl
  · have h1 : ((a ++ (m ++ b)).reverse).dropWhile istream.isspace = m.reverse ++ a.reverse := by
      rw [List.reverse_append, List.reverse_append, List.append_assoc]
      refine (takeWhile_run (p := istream.isspace) b.reverse (m.reverse ++ a.reverse)
        (fun c hc => hb c (List.mem_reverse.1 hc)) ?_).2
      intro c hc
      apply hlast c
      obtain ⟨x, xs, hx⟩ := List.exists_cons_of_ne_nil (by simpa using hm : m.reverse ≠ [])
      rw [hx] at hc
      simp only [List.cons_append, List.head?_cons, Option.some.injEq] at hc
      have : m = xs.reverse ++ [x] := by
        rw [← List.reverse_reverse m, hx]; simp
      rw [this, ← hc]
      simp
    rw [trim_copy, h1, List.reverse_append, List.reverse_reverse, List.reverse_reverse]
    have := (takeWhile_run (p := istream.isspace) a (m ++ []) ha (by simpa using hfirst)).2
    simpa using this

/-- C27: `split_arguments(s, tokens, seps)` replaces the previous content of
`tokens` by the non-empty fields of `s` between separator characters (the
maximal non-empty substrings without a separator), in left-to-right order:
no token is empty and no token holds a separator; when `seps` is `NULL` the
separators are space, tab and comma. -/
theorem split_arguments_fields (s : List Char) (tokens : List (List Char)) :
    (∀ seps : List Char,
        split_arguments s tokens (some seps)
          = (s.splitOnP (fun c => seps.contains c)).filter (fun t => !t.isEmpty)
        ∧ ∀ t ∈ split_arguments s tokens (some seps), t ≠ [] ∧ ∀ c ∈ t, c ∉ seps)
    ∧ split_arguments s tokens none = split_arguments s tokens (some [' ', Char.ofNat 9, ',']) :=
  ⟨fun seps => ⟨tokenize_drop seps s, fun t ht =>
      fields_mem seps s t (by rw [← tokenize_drop seps s]; exact ht)⟩, rfl⟩

theorem split_arguments_fields_witness :
    split_arguments "one  two\t,3".toList [['x']] none
        = ["one".toList, "two".toList, "3".toList]
    ∧ split_arguments "one two\t3 four,five".toList [] (some "f3".toList)
        = ["one two\t".toList, " ".toList, "our,".toList, "ive".toList] :=
  ⟨((split_arguments_fields "one  two\t,3".toList [['x']]).2).trans
      (((split_arguments_fields "one  two\t,3".toList [['x']]).1 _).1.trans (by decide)),
   ((split_arguments_fields "one two\t3 four,five".toList []).1 "f3".toList).1.trans (by decide)⟩

/-- C28: `split_trim(s, tokens, seps)` on a non-empty `s` produces exactly
(number of separator characters in `s`) + 1 tokens, the k-th token being the
k-th field between separators with its leading and trailing white space
removed and its interior white space kept; empty fields between consecutive
separators are kept as empty tokens, and the default separator is the comma. -/
theorem split_trim_fields (s : List Char) (tokens : List (List Char)) (hs : s ≠ []) :
    (∀ seps : List Char,
        split_trim s tokens (some seps)
          = (s.splitOnP (fun c => seps.contains c)).map trim_copy
        ∧ (split_trim s tokens (some seps)).length
          = s.countP (fun c => seps.contains c) + 1)
    ∧ split_trim s tokens none = split_trim s tokens (some [','])
    ∧ ∀ a m b : List Char, (∀ c ∈ a, istream.isspace c = true) →
        (∀ c ∈ b, istream.isspace c = true) →
        (∀ x, m.head? = some x → istream.isspace x = false) →
        (∀ x, m.getLast? = some x → istream.isspace x = false) →
        trim_copy (a ++ (m ++ b)) = m := by
  have key : ∀ seps : List Char, split_trim s tokens (some seps)
      = (s.splitOnP (fun c => seps.contains c)).map trim_copy := by
    intro seps
    have := tokenize_keep trim_copy seps s hs []
    rw [List.nil_append] at this
    exact this
  refine ⟨fun seps => ⟨key seps, ?_⟩, rfl, trim_copy_eq⟩
  rw [key, List.length_map, splitOnP_length]

theorem split_trim_fields_witness :
    "one, two\t3 four,,five".toList ≠ []
    ∧ split_trim "one, two\t3 four,,five".toList [] none
        = ["one".toList, "two\t3 four".toList, [], "five".toList] :=
  ⟨by decide,
   ((split_trim_fields "one, two\t3 four,,five".toList [] (by decide)).2.1).trans
     (((split_trim_fields "one, two\t3 four,,five".toList [] (by decide)).1 _).1.trans
       (by decide))⟩

/-! ## Theorems: operator>> on nested tuplets -/

theorem read_int_reads : ReadsText read_int int_text
    (fun v => istream.INT_MIN ≤ v ∧ v ≤ istream.INT_MAX) (fun y => y.isDigit = false) := by
  constructor
  · intro v hv bk y fr old hy
    refine ⟨(int_text v).reverse ++ bk, ?_⟩
    rw [read_int, read_int_int_text v hv.1 hv.2 bk (y :: fr) old
      (fun c hc => by simp only [List.head?_cons, Option.some.injEq] at hc; rw [← hc]; exact hy)]
    rfl
  · intro v _
    obtain ⟨c, cs, h, hc, _⟩ := int_text_head v
    exact ⟨c, cs, h, hc⟩

/-- One iteration of the element loop on the text of an element followed by the
character `y`. -/
theorem element_loop_step_text {N : Nat} {T : Type}
    {read : istream → T → Except String (istream × T)} {txt : T → List Char}
    {good : T → Prop} {follow : Char → Prop} (law : ReadsText read txt good follow)
    (mb : Char) (i : Fin N) (c : Char) (bk fr : List Char) (t : tuplet N T) (v : T)
    (hv : good v) (y : Char) (fr2 : List Char) (hy : follow y)
    (hfr : c :: fr = txt v ++ y :: fr2) :
    ∃ bk1 : List Char, ∀ (rest : List (Fin N)) (p : Char × istream),
      skip_separator (more_expected mb i) (decide (i.val + 1 < N))
          (istream.clean bk1 (y :: fr2)) = Flow.next p →
      element_loop read mb (i :: rest) c (istream.clean (c :: bk) fr) t
        = element_loop read mb rest p.1 p.2 (Function.update t i v) := by
  obtain ⟨bk1, hr⟩ := law.reads v hv bk y fr2 (t i) hy
  refine ⟨bk1, fun rest p hs => ?_⟩
  rw [element_loop]
  simp only [unget_clean_cons, hfr, hr]
  unfold more_expected at hs
  rw [hs]
  rfl

theorem joined_text_head {N : Nat} {T : Type}
    {read : istream → T → Except String (istream × T)} {txt : T → List Char}
    {good : T → Prop} {follow : Char → Prop} (law : ReadsText read txt good follow)
    (u : tuplet N T) (hu : ∀ i, good (u i)) (j : Fin N) (rest : List (Fin N))
    (tl : List Char) :
    ∃ c cs, joined_text txt u (j :: rest) ++ tl = c :: cs ∧ c ≠ ' ' := by
  obtain ⟨c, cs, h, hc⟩ := law.head (u j) (hu j)
  cases rest with
  | nil => exact ⟨c, cs ++ tl, by rw [joined_text, h]; rfl, hc⟩
  | cons k rest =>
    exact ⟨c, cs ++ ',' :: joined_text txt u (k :: rest) ++ tl, by rw [joined_text, h]; simp, hc⟩

/-- The element loop over the texts of the elements listed, separated by single
commas and followed by a character `d` that is neither a space nor a comma. -/
theorem element_loop_joined {N : Nat} {T : Type}
    {read : istream → T → Except String (istream × T)} {txt : T → List Char}
    {good : T → Prop} {follow : Char → Prop} (law : ReadsText read txt good follow)
    (hcomma : follow ',') (mb : Char) (u : tuplet N T) (hu : ∀ i, good (u i))
    (d : Char) (tl : List Char) (hd : d ≠ ' ') (hd2 : d ≠ ',') (hfd : follow d) :
    ∀ (l pre : List (Fin N)), l ≠ [] → pre ++ l = List.finRange N →
      ∀ (c : Char) (bk fr : List Char) (t : tuplet N T),
      c :: fr = joined_text txt u l ++ d :: tl →
      ∃ bk1 : List Char,
        element_loop read mb l c (istream.clean (c :: bk) fr) t
          = Except.ok (Flow.next (d, istream.clean (d :: bk1) tl), assign u t l) := by
  intro l
  induction l with
  | nil => intro pre h; exact absurd rfl h
  | cons i l ih =>
    intro pre _ hsplit c bk fr t hfr
    cases l with
    | nil =>
      obtain ⟨bk1, hstep⟩ := element_loop_step_text law mb i c bk fr t (u i) (hu i) d tl hfd hfr
      obtain ⟨bk2, hs⟩ := skip_separator_plain (more_expected mb i) (decide (i.val + 1 < N)) 0 d
        tl bk1 hd (Or.inl hd2)
      refine ⟨bk2, ?_⟩
      rw [hstep [] (d, istream.clean (d :: bk2) tl) hs]
      rfl
    | cons j l =>
      obtain ⟨c2, cs2, hc2, hc2ne⟩ := joined_text_head law u hu j l (d :: tl)
      have hfr2 : c :: fr = txt (u i) ++ ',' :: c2 :: cs2 := by
        rw [hfr, joined_text, ← hc2]; simp
      obtain ⟨bk1, hstep⟩ := element_loop_step_text law mb i c bk fr t (u i) (hu i) ','
        (c2 :: cs2) hcomma hfr2
      have hlt : i.val + 1 < N :=
        before_rest_lt (pre ++ [i]) (j :: l) (by simpa using hsplit) (by simp) i (by simp)
      obtain ⟨bk2, hs⟩ := skip_separator_comma (more_expected mb i) 0 0 c2 cs2 bk1 hc2ne
      obtain ⟨bk3, h3⟩ := ih (pre ++ [i]) (by simp) (by simpa using hsplit) c2 bk2 cs2
        (Function.update t i (u i)) hc2.symm
      refine ⟨bk3, ?_⟩
      rw [hstep (j :: l) (c2, istream.clean (c2 :: bk2) cs2)
        (by rw [decide_eq_true hlt]; exact hs), h3]
      rfl

/-- The opening of a tuple text that begins, at any position of the stream,
with `[` directly followed by the character `d`. -/
theorem open_bracket_at (bk : List Char) (d : Char) (tl : List Char) (hd : d ≠ ' ') :
    ∃ bk1 : List Char,
      open_bracket (istream.clean bk ('[' :: d :: tl))
        = Flow.next (d, istream.clean (d :: bk1) tl, ']') := by
  obtain ⟨bk1, h1⟩ := get_skip_run_then (β := Char × istream × Char) check_outside_law
    '[' (d :: tl) (by decide) 0 bk
  obtain ⟨bk2, h2⟩ := get_skip_run_then (β := Char × istream × Char) check_outside_law
    d tl hd 0 ('[' :: bk1)
  refine ⟨bk2, ?_⟩
  simp only [List.replicate, List.nil_append] at h1 h2
  rw [open_bracket, h1]
  simp only [if_true, show ((']' : Char) != Char.ofNat 0) = true by decide]
  rw [h2]

/-- The call `s >> t` at any position of the stream on the text
`[e0,...,eN-1]`, followed by the rest of the input: the text is extracted up to
and including its closing bracket, and `peek()` looks at what follows. -/
theorem rshift_tuplet_text {N : Nat} [NeZero N] {T : Type}
    {read : istream → T → Except String (istream × T)} {txt : T → List Char}
    {good : T → Prop} {follow : Char → Prop} (law : ReadsText read txt good follow)
    (hcomma : follow ',') (hclose : follow ']') (u t : tuplet N T) (hu : ∀ i, good (u i))
    (bk rest : List Char) :
    ∃ bk1 : List Char,
      operator_rshift read (istream.clean bk (tuplet_text txt u ++ rest)) t
        = Except.ok ((istream.clean bk1 rest).peek, u) := by
  have hne : List.finRange N ≠ [] := by
    rw [finRange_eq_zero_cons]; exact List.cons_ne_nil _ _
  obtain ⟨i0, l0, hl0⟩ := List.exists_cons_of_ne_nil hne
  obtain ⟨c, cs, hc, hcne⟩ := joined_text_head law u hu i0 l0 (']' :: rest)
  rw [← hl0] at hc
  have htext : tuplet_text txt u ++ rest = '[' :: c :: cs := by
    rw [tuplet_text, ← hc]; simp
  obtain ⟨bk1, ho⟩ := open_bracket_at bk c cs hcne
  obtain ⟨bk2, hl⟩ := element_loop_joined law hcomma ']' u hu ']' rest (by decide) (by decide)
    hclose (List.finRange N) [] hne rfl c bk1 cs t hc.symm
  have hcl := close_bracket_at ']' ']' bk2 rest (by decide) (by decide)
  refine ⟨']' :: bk2, ?_⟩
  rw [operator_rshift, htext, ho]
  simp only []
  rw [hl]
  simp only []
  rw [hcl, assign_finRange]
  simp

/-- The input operator of a tuplet reads the text of a tuplet when the input
operator of the element type reads the texts of the elements. -/
theorem rshift_reads {N : Nat} [NeZero N] {T : Type}
    {read : istream → T → Except String (istream × T)} {txt : T → List Char}
    {good : T → Prop} {follow : Char → Prop} (law : ReadsText read txt good follow)
    (hcomma : follow ',') (hclose : follow ']') :
    ReadsText (operator_rshift (N := N) read) (tuplet_text txt) (fun u => ∀ i, good (u i))
      (fun _ => True) := by
  constructor
  · intro u hu bk y fr old _
    obtain ⟨bk1, h⟩ := rshift_tuplet_text law hcomma hclose u old hu bk (y :: fr)
    exact ⟨bk1, h⟩
  · intro u _
    exact ⟨'[', _, rfl, by decide⟩

theorem joined_text_eq {N : Nat} {T : Type} (txt : T → List Char) (u : tuplet N T) :
    ∀ l : List (Fin N), joined_text txt u l = [','].intercalate (l.map (fun i => txt (u i))) := by
  intro l
  induction l with
  | nil => rfl
  | cons i l ih =>
    cases l with
    | nil => simp [List.intercalate, joined_text]
    | cons j l =>
      rw [joined_text, ih]
      simp [List.intercalate, List.intersperse]

/-- The text written by `operator<<` with an element writer that appends the
text of the element. -/
theorem operator_lshift_tuplet_text {N : Nat} [NeZero N] {T : Type} (txt : T → List Char)
    (s : List Char) (u : tuplet N T) :
    operator_lshift (write_text txt) s u = s ++ tuplet_text txt u := by
  rw [operator_lshift_text, tuplet_text, joined_text_eq, List.ofFn_eq_map]

theorem write_int_eq_write_text : write_int = write_text int_text := by
  funext s v
  exact write_int_eq s v

theorem lshift_int_eq_write_text {M : Nat} [NeZero M] :
    (operator_lshift write_int : List Char → tuplet M Int → List Char)
      = write_text (tuplet_text int_text) := by
  funext s v
  rw [write_int_eq_write_text, operator_lshift_tuplet_text]
  rfl

/-- C22: nested tuples parse compositionally. For every value `t` of type
`tuplet<N,tuplet<M,int>>`, reading the text written by `operator<<` (such as
`[[2,4],[3,5]]`) yields `t` with `fail()` false and `eof()` true; and the
parse of an inner tuple, wherever its text stands in the stream and whatever
follows it, yields that tuple and extracts exactly its own text up to and
including its closing bracket: what follows is left in the stream. -/
theorem nested_write_then_read {N M : Nat} [NeZero N] [NeZero M]
    (t t0 : tuplet N (tuplet M Int)) (ht : ∀ i, in_int_range (t i)) :
    (∃ s1 : istream,
      operator_rshift (operator_rshift read_int)
          (istream.of_text (operator_lshift (operator_lshift write_int) [] t)) t0
        = Except.ok (s1, t)
      ∧ s1.fail = false ∧ s1.eof = true)
    ∧ ∀ (i : Fin N) (bk rest : List Char) (old : tuplet M Int),
        ∃ s2 : istream,
          operator_rshift read_int
              (istream.clean bk (operator_lshift write_int [] (t i) ++ rest)) old
            = Except.ok (s2, t i)
          ∧ s2.front = rest ∧ s2.fail = false ∧ s2.eof = rest.isEmpty := by
  have hdig1 : (',' : Char).isDigit = false := by decide
  have hdig2 : (']' : Char).isDigit = false := by decide
  constructor
  · obtain ⟨bk1, h⟩ := rshift_tuplet_text
      (rshift_reads (N := M) read_int_reads hdig1 hdig2) trivial trivial t t0 ht [] []
    refine ⟨(istream.clean bk1 []).peek, ?_, rfl, rfl⟩
    rw [lshift_int_eq_write_text, operator_lshift_tuplet_text, of_text_eq_clean]
    rw [List.append_nil] at h
    exact h
  · intro i bk rest old
    obtain ⟨bk1, h⟩ := rshift_tuplet_text read_int_reads hdig1 hdig2 (t i) old (ht i) bk rest
    refine ⟨(istream.clean bk1 rest).peek, ?_, ?_, ?_, ?_⟩
    · rw [write_int_eq_write_text, operator_lshift_tuplet_text]
      exact h
    · cases rest <;> rfl
    · cases rest <;> rfl
    · cases rest <;> rfl

theorem nested_write_then_read_witness :
    (∀ i, in_int_range ((![![2, 4], ![3, 5]] : tuplet 2 (tuplet 2 Int)) i))
    ∧ operator_lshift (operator_lshift write_int) []
        (![![2, 4], ![3, 5]] : tuplet 2 (tuplet 2 Int)) = "[[2,4],[3,5]]".toList
    ∧ ∃ s1 : istream,
        operator_rshift (operator_rshift read_int)
            (istream.of_text (operator_lshift (operator_lshift write_int) []
              (![![2, 4], ![3, 5]] : tuplet 2 (tuplet 2 Int)))) (fun _ _ => 0)
          = Except.ok (s1, ![![2, 4], ![3, 5]])
        ∧ s1.fail = false ∧ s1.eof = true :=
  ⟨by unfold in_int_range; decide, by decide,
   (nested_write_then_read ![![2, 4], ![3, 5]] (fun _ _ => 0)
      (by unfold in_int_range; decide)).1⟩

/-! ## Theorems: copy and construction of owning arrays -/

theorem row_major_lt {N : Nat} (d idx : tuplet N Nat) : ∀ l : List (Fin N),
    (∀ k ∈ l, idx k < d k) → row_major d idx l < (l.map d).prod := by
  intro l
  induction l with
  | nil => intro _; simp [row_major]
  | cons k l ih =>
    intro h
    have hk := h k (List.mem_cons_self _ _)
    have hr := ih (fun j hj => h j (List.mem_cons_of_mem _ hj))
    rw [row_major, List.map_cons, List.prod_cons]
    calc idx k * (l.map d).prod + row_major d idx l
        < idx k * (l.map d).prod + (l.map d).prod := by omega
      _ = (idx k + 1) * (l.map d).prod := by ring
      _ ≤ d k * (l.map d).prod := Nat.mul_le_mul_right _ hk

theorem row_major_lex {N : Nat} (d x y : tuplet N Nat) : ∀ (pre : List (Fin N)) (k : Fin N)
    (post : List (Fin N)), (∀ j ∈ post, x j < d j) → (∀ j ∈ pre, x j = y j) → x k < y k →
    row_major d x (pre ++ k :: post) < row_major d y (pre ++ k :: post) := by
  intro pre
  induction pre with
  | nil =>
    intro k post hx _ hk
    have hr := row_major_lt d x post hx
    rw [List.nil_append, row_major, row_major]
    calc x k * (post.map d).prod + row_major d x post
        < x k * (post.map d).prod + (post.map d).prod := by omega
      _ = (x k + 1) * (post.map d).prod := by ring
      _ ≤ y k * (post.map d).prod := Nat.mul_le_mul_right _ hk
      _ ≤ y k * (post.map d).prod + row_major d y post := Nat.le_add_right _ _
  | cons p pre ih =>
    intro k post hx hpre hk
    have hp := hpre p (List.mem_cons_self _ _)
    have := ih k post hx (fun j hj => hpre j (List.mem_cons_of_mem _ hj)) hk
    rw [List.cons_append, row_major, row_major, hp]
    omega

theorem flat_index_row_major_mod {N : Nat} [NeZero N] (a : const_array_base N)
    (idx : tuplet N Nat) :
    a.flat_index idx = row_major a.m_dims idx (List.finRange N) % SIZE_MOD := by
  have hs := row_major_eq_sum a.m_dims idx (List.finRange N) [] rfl
  rw [List.toFinset_finRange] at hs
  rw [flat_index_mod, hs]

/-- For in-range indices and dimensions whose product fits `size_t`, the
generic `flat_index` is the exact row-major offset, below the product. -/
theorem flat_index_in_range {N : Nat} [NeZero N] (a : const_array_base N) (idx : tuplet N Nat)
    (hprod : ∏ j, a.m_dims j < 2 ^ 64) (hidx : ∀ k, idx k < a.m_dims k) :
    a.flat_index idx = row_major a.m_dims idx (List.finRange N)
    ∧ a.flat_index idx < ∏ j, a.m_dims j := by
  have hlt := row_major_lt a.m_dims idx (List.finRange N) (fun k _ => hidx k)
  rw [← Fin.prod_univ_def] at hlt
  have he : a.flat_index idx = row_major a.m_dims idx (List.finRange N) := by
    rw [flat_index_row_major_mod]
    exact Nat.mod_eq_of_lt (lt_trans hlt hprod)
  exact ⟨he, by rw [he]; exact hlt⟩

theorem finRange_split_at {N : Nat} (k : Fin N) :
    ∃ pre post : List (Fin N), List.finRange N = pre ++ k :: post ∧ ∀ j ∈ pre, j < k := by
  obtain ⟨pre, post, h⟩ := List.append_of_mem (List.mem_finRange k)
  refine ⟨pre, post, h, fun j hj => ?_⟩
  have hp : List.Pairwise (· < ·) (pre ++ k :: post) := h ▸ List.pairwise_lt_finRange N
  exact (List.pairwise_append.1 hp).2.2 j hj k (List.mem_cons_self _ _)

theorem flat_index_lex {N : Nat} [NeZero N] (a : const_array_base N)
    (hprod : ∏ j, a.m_dims j < 2 ^ 64) (x y : tuplet N Nat) (hx : ∀ k, x k < a.m_dims k)
    (hy : ∀ k, y k < a.m_dims k) (h : lex_lt x y) : a.flat_index x < a.flat_index y := by
  obtain ⟨k, hpre, hk⟩ := h
  obtain ⟨pre, post, hsplit, hlt⟩ := finRange_split_at k
  rw [(flat_index_in_range a x hprod hx).1, (flat_index_in_range a y hprod hy).1, hsplit]
  exact row_major_lex a.m_dims x y pre k post (fun j _ => hx j) (fun j hj => hpre j (hlt j hj)) hk

theorem lex_trichotomy {N : Nat} (x y : tuplet N Nat) (h : x ≠ y) : lex_lt x y ∨ lex_lt y x := by
  have hex : ∃ k : Fin N, x k ≠ y k := by
    by_contra hne
    push_neg at hne
    exact h (funext hne)
  classical
  let k := Finset.min' (Finset.univ.filter (fun k : Fin N => x k ≠ y k))
    (by obtain ⟨k, hk⟩ := hex; exact ⟨k, by simp [hk]⟩)
  have hkmem : k ∈ Finset.univ.filter (fun k : Fin N => x k ≠ y k) := Finset.min'_mem _ _
  have hk : x k ≠ y k := (Finset.mem_filter.1 hkmem).2
  have hmin : ∀ j : Fin N, j < k → x j = y j := by
    intro j hj
    by_contra hne
    have := Finset.min'_le (Finset.univ.filter (fun k : Fin N => x k ≠ y k)) j
      (by simp [hne])
    exact absurd hj (not_lt.2 this)
  rcases Nat.lt_or_gt_of_ne hk with h1 | h1
  · exact Or.inl ⟨k, hmin, h1⟩
  · exact Or.inr ⟨k, fun j hj => (hmin j hj).symm, h1⟩

theorem flat_index_injective {N : Nat} [NeZero N] (a : const_array_base N)
    (hprod : ∏ j, a.m_dims j < 2 ^ 64) (x y : tuplet N Nat) (hx : ∀ k, x k < a.m_dims k)
    (hy : ∀ k, y k < a.m_dims k) (h : a.flat_index x = a.flat_index y) : x = y := by
  by_contra hne
  rcases lex_trichotomy x y hne with h1 | h1
  · exact absurd h (ne_of_lt (flat_index_lex a hprod x y hx hy h1))
  · exact absurd h.symm (ne_of_lt (flat_index_lex a hprod y x hy hx h1))

theorem flat_index_surjective {N : Nat} [NeZero N] (a : const_array_base N)
    (hprod : ∏ j, a.m_dims j < 2 ^ 64) (m : Nat) (hm : m < ∏ j, a.m_dims j) :
    ∃ x : tuplet N Nat, (∀ k, x k < a.m_dims k) ∧ a.flat_index x = m := by
  classical
  let S : Finset (Fin N → Nat) := Fintype.piFinset (fun k => Finset.range (a.m_dims k))
  have hS : ∀ x, x ∈ S ↔ ∀ k, x k < a.m_dims k := by
    intro x
    simp [S, Fintype.mem_piFinset]
  have hinj : Set.InjOn (fun x : Fin N → Nat => a.flat_index x) (S : Set (Fin N → Nat)) := by
    intro x hx y hy hxy
    exact flat_index_injective a hprod x y ((hS x).1 hx) ((hS y).1 hy) hxy
  have hsub : S.image (fun x => a.flat_index x) ⊆ Finset.range (∏ j, a.m_dims j) := by
    intro v hv
    obtain ⟨x, hx, rfl⟩ := Finset.mem_image.1 hv
    exact Finset.mem_range.2 (flat_index_in_range a x hprod ((hS x).1 hx)).2
  have hcard : (Finset.range (∏ j, a.m_dims j)).card
      ≤ (S.image (fun x => a.flat_index x)).card := by
    rw [Finset.card_image_of_injOn hinj, Fintype.card_piFinset]
    simp
  have heq := Finset.eq_of_subset_of_card_le hsub hcard
  have hmem : m ∈ S.image (fun x => a.flat_index x) := by
    rw [heq]; exact Finset.mem_range.2 hm
  obtain ⟨x, hx, hxm⟩ := Finset.mem_image.1 hmem
  exact ⟨x, (hS x).1 hx, hxm⟩

theorem of_pointer_size {N : Nat} [NeZero N] (data : Nat) (dims : tuplet N Nat)
    (hprod : ∏ j, dims j < 2 ^ 64) :
    (const_array_base.of_pointer data dims).size = ∏ j, dims j := by
  rw [const_array_base.size, const_array_base.of_pointer, long_product_mod]
  exact Nat.mod_eq_of_lt hprod

/-- C34: in-range indices never trip the bounds check. For every rank
`N >= 1` and dimensions whose exact product is below `2 ^ 64`, on the view
built from a non-null pointer and these dimensions: `size()` is
`long_product(dims)`, the product of the dimensions; if `i_k < dims[k]` for
every `k` then `flat_index(i0,...,iN-1) < size()`, and the range-checked
`operator()` returns the element at that offset and does not throw. -/
theorem in_range_index_accepted {N : Nat} [NeZero N] (data : Nat) (dims idx : tuplet N Nat)
    (hdata : data ≠ 0) (hprod : ∏ j, dims j < 2 ^ 64) (hidx : ∀ k, idx k < dims k) :
    (const_array_base.of_pointer data dims).size = long_product dims
    ∧ long_product dims = ∏ j, dims j
    ∧ (const_array_base.of_pointer data dims).flat_index idx
        < (const_array_base.of_pointer data dims).size
    ∧ (const_array_base.of_pointer data dims).operator_call true idx
        = Except.ok (data + (const_array_base.of_pointer data dims).flat_index idx) := by
  have hsize := of_pointer_size data dims hprod
  have hlt : (const_array_base.of_pointer data dims).flat_index idx
      < (const_array_base.of_pointer data dims).size := by
    rw [hsize]
    exact (flat_index_in_range (const_array_base.of_pointer data dims) idx hprod hidx).2
  refine ⟨rfl, ?_, hlt, ?_⟩
  · rw [long_product_mod]
    exact Nat.mod_eq_of_lt hprod
  · rw [const_array_base.operator_call]
    exact operator_index_ok true _ _ (Or.inr hdata) hlt

theorem in_range_index_accepted_witness :
    (1000 : Nat) ≠ 0 ∧ ∏ j, (![3, 4] : tuplet 2 Nat) j < 2 ^ 64
    ∧ (∀ k, (![2, 3] : tuplet 2 Nat) k < (![3, 4] : tuplet 2 Nat) k)
    ∧ (const_array_base.of_pointer 1000 ![3, 4]).operator_call true ![2, 3]
        = Except.ok (1000 + (const_array_base.of_pointer 1000 ![3, 4]).flat_index ![2, 3]) :=
  ⟨by decide, by decide, by decide,
   (in_range_index_accepted 1000 ![3, 4] ![2, 3] (by decide) (by decide) (by decide)).2.2.2⟩

/-- C35: for every rank `N >= 1` and dimensions whose exact product is below
`2 ^ 64`, `flat_index` restricted to the in-range index tuples (`i_k < d_k` for
all `k`) is a bijection onto `{0,...,size()-1}`: distinct in-range tuples have
distinct offsets, every offset below `size()` is that of exactly one in-range
tuple, and `flat_index` is strictly increasing for the lexicographic order of
the index tuples. -/
theorem flat_index_bijection {N : Nat} [NeZero N] (data : Nat) (dims : tuplet N Nat)
    (hprod : ∏ j, dims j < 2 ^ 64) :
    (∀ x y : tuplet N Nat, (∀ k, x k < dims k) → (∀ k, y k < dims k) →
        (const_array_base.of_pointer data dims).flat_index x
          = (const_array_base.of_pointer data dims).flat_index y → x = y)
    ∧ (∀ x : tuplet N Nat, (∀ k, x k < dims k) →
        (const_array_base.of_pointer data dims).flat_index x
          < (const_array_base.of_pointer data dims).size)
    ∧ (∀ m, m < (const_array_base.of_pointer data dims).size →
        ∃! x : tuplet N Nat, (∀ k, x k < dims k)
          ∧ (const_array_base.of_pointer data dims).flat_index x = m)
    ∧ (∀ x y : tuplet N Nat, (∀ k, x k < dims k) → (∀ k, y k < dims k) → lex_lt x y →
        (const_array_base.of_pointer data dims).flat_index x
          < (const_array_base.of_pointer data dims).flat_index y) := by
  have hsize := of_pointer_size data dims hprod
  refine ⟨fun x y hx hy h => flat_index_injective _ hprod x y hx hy h, fun x hx => ?_,
    fun m hm => ?_, fun x y hx hy h => flat_index_lex _ hprod x y hx hy h⟩
  · rw [hsize]
    exact (flat_index_in_range (const_array_base.of_pointer data dims) x hprod hx).2
  · rw [hsize] at hm
    obtain ⟨x, hx, hxm⟩ := flat_index_surjective (const_array_base.of_pointer data dims) hprod m hm
    refine ⟨x, ⟨hx, hxm⟩, fun y hy => ?_⟩
    exact flat_index_injective (const_array_base.of_pointer data dims) hprod y x hy.1 hx
      (hy.2.trans hxm.symm)

theorem flat_index_bijection_witness :
    ∏ j, (![3, 4] : tuplet 2 Nat) j < 2 ^ 64
    ∧ (const_array_base.of_pointer 1000 ![3, 4]).size = 12
    ∧ ∃! x : tuplet 2 Nat, (∀ k, x k < (![3, 4] : tuplet 2 Nat) k)
        ∧ (const_array_base.of_pointer 1000 ![3, 4]).flat_index x = 11 :=
  ⟨by decide, by decide,
   (flat_index_bijection 1000 ![3, 4] (by decide)).2.2.1 11 (by decide)⟩

/-! ## Theorems: the closed forms of flat_index -/

/-- A step of the loop of `flat_index` after a reduction modulo `2 ^ 64`. -/
theorem flat_step_mod (x d i : Nat) :
    ((x % SIZE_MOD) * d + i) % SIZE_MOD = (x * d + i) % SIZE_MOD := by
  apply Nat.ModEq.add_right
  apply Nat.ModEq.mul_right
  exact Nat.mod_mod _ _

theorem flat_index_rank1 (a : const_array_base 1) (x : tuplet 1 Nat) :
    a.flat_index x = to_size_t (x 0) := rfl

theorem flat_index_rank2 (a : const_array_base 2) (x : tuplet 2 Nat) :
    a.flat_index x = (to_size_t (x 0) * to_size_t (a.m_dims 1) + to_size_t (x 1)) % SIZE_MOD :=
  rfl

theorem flat_index_rank3 (a : const_array_base 3) (x : tuplet 3 Nat) :
    a.flat_index x
      = ((to_size_t (x 0) * to_size_t (a.m_dims 1) + to_size_t (x 1)) * to_size_t (a.m_dims 2)
          + to_size_t (x 2)) % SIZE_MOD := by
  have e : a.flat_index x
      = (((to_size_t (x 0) * to_size_t (a.m_dims 1) + to_size_t (x 1)) % SIZE_MOD)
            * to_size_t (a.m_dims 2) + to_size_t (x 2)) % SIZE_MOD := rfl
  rw [e, flat_step_mod]

theorem flat_index_rank4 (a : const_array_base 4) (x : tuplet 4 Nat) :
    a.flat_index x
      = (((to_size_t (x 0) * to_size_t (a.m_dims 1) + to_size_t (x 1)) * to_size_t (a.m_dims 2)
          + to_size_t (x 2)) * to_size_t (a.m_dims 3) + to_size_t (x 3)) % SIZE_MOD := by
  have e : a.flat_index x
      = ((((((to_size_t (x 0) * to_size_t (a.m_dims 1) + to_size_t (x 1)) % SIZE_MOD)
            * to_size_t (a.m_dims 2) + to_size_t (x 2)) % SIZE_MOD)
            * to_size_t (a.m_dims 3)) + to_size_t (x 3)) % SIZE_MOD := rfl
  rw [e, flat_step_mod]
  apply Nat.ModEq.add_right
  apply Nat.ModEq.mul_right
  exact flat_step_mod _ _ _

/-- C36: for ranks 1, 2, 3 and 4 the closed-form `flat_index` overloads of the
rank-specialised `const_array` classes, in the scalar-argument form (ranks 2
to 4; rank 1 has the tuple form only) and in the tuple-argument form, return
the value of the generic loop `const_array_base::flat_index`, for all
dimensions and all indices, wraparound modulo `2 ^ 64` included. -/
theorem closed_form_flat_index :
    (∀ (a : const_array_base 1) (x : tuplet 1 Nat),
        const_array1.flat_index_tuplet a x = a.flat_index x)
    ∧ (∀ (a : const_array_base 2) (x : tuplet 2 Nat),
        const_array2.flat_index_tuplet a x = a.flat_index x
        ∧ const_array2.flat_index a (x 0) (x 1) = a.flat_index x)
    ∧ (∀ (a : const_array_base 3) (x : tuplet 3 Nat),
        const_array3.flat_index_tuplet a x = a.flat_index x
        ∧ const_array3.flat_index a (x 0) (x 1) (x 2) = a.flat_index x)
    ∧ (∀ (a : const_array_base 4) (x : tuplet 4 Nat),
        const_array4.flat_index_tuplet a x = a.flat_index x
        ∧ const_array4.flat_index a (x 0) (x 1) (x 2) (x 3) = a.flat_index x) := by
  refine ⟨fun a x => rfl, fun a x => ⟨rfl, rfl⟩, fun a x => ?_, fun a x => ?_⟩
  · rw [flat_index_rank3]
    exact ⟨rfl, rfl⟩
  · rw [flat_index_rank4]
    exact ⟨rfl, rfl⟩

theorem closed_form_flat_index_witness :
    const_array3.flat_index (const_array_base.of_pointer 1 ![2, 3, 4]) 1 2 3 = 23
    ∧ (const_array_base.of_pointer 1 ![2, 3, 4]).flat_index ![1, 2, 3] = 23
    ∧ const_array2.flat_index (const_array_base.of_pointer 1 ![3, 2 ^ 63]) 2 1
        = (const_array_base.of_pointer 1 ![3, 2 ^ 63]).flat_index ![2, 1] :=
  ⟨by decide, by decide,
   ((closed_form_flat_index.2.1 (const_array_base.of_pointer 1 ![3, 2 ^ 63]) ![2, 1]).2)⟩

/-! ## Theorems: reverse is an involution -/

theorem reverse_apply {N : Nat} {T : Type} (b a : tuplet N T) (j : Fin N) :
    reverse b a j = a (reverse_index j) := by
  rw [reverse, reverse_loop_apply]
  simp

/-- C39: `reverse` is an involution: `reverse(reverse(a)) == a` for every
tuplet `a`, in the generic loop (whatever the local tuplets hold before the
loops) and in the closed forms for ranks 1, 2 and 3. -/
theorem reverse_involution {N : Nat} {T : Type} (b b1 a : tuplet N T) :
    reverse b1 (reverse b a) = a
    ∧ (∀ c : tuplet 1 T, rank1.reverse (rank1.reverse c) = c)
    ∧ (∀ c : tuplet 2 T, rank2.reverse (rank2.reverse c) = c)
    ∧ (∀ c : tuplet 3 T, rank3.reverse (rank3.reverse c) = c) := by
  refine ⟨?_, fun c => rfl, fun c => ?_, fun c => ?_⟩
  · funext j
    rw [reverse_apply, reverse_apply, reverse_index_involutive]
  · funext j
    fin_cases j <;> rfl
  · funext j
    fin_cases j <;> rfl

theorem reverse_involution_witness :
    reverse (fun _ => 0) (reverse (fun _ => 0) (tuplet4 2 3 4 5 : tuplet 4 Int))
      = tuplet4 2 3 4 5 :=
  (reverse_involution (fun _ => 0) (fun _ => 0) (tuplet4 2 3 4 5 : tuplet 4 Int)).1

/-! ## Theorems: hextobin on an input of odd length -/

/-- The loop of `hextobin` with `n` iterations looks at the first `2 * n`
characters only. -/
theorem hextobin_loop_prefix : ∀ (n : Nat) (xs rest : List Char) (b : List Nat),
    xs.length = 2 * n → (∀ c ∈ xs, c ≠ NUL) →
    hextobin_loop n (xs ++ rest) b = hextobin_loop n xs b := by
  intro n
  induction n with
  | zero => intro xs rest b _ _; rfl
  | succ n ih =>
    intro xs rest b hl hnul
    match xs, hl, hnul with
    | [], hl, _ => simp at hl
    | [_], hl, _ => simp at hl; omega
    | x :: y :: tl, hl, hnul =>
      have hx := hnul x (by simp)
      have hy := hnul y (by simp)
      have htl := ih tl rest
      rw [List.cons_append, List.cons_append, hextobin_loop, hextobin_loop,
        strncpy_two _ _ _ hx hy, strncpy_two _ _ _ hx hy]
      simp only [List.drop_succ_cons, List.drop_zero]
      split
      · rfl
      · split
        · rfl
        · exact htl _ (by simp at hl; omega) (fun z hz => hnul z (by simp [hz]))

/-- C37: `hextobin` ignores the last character of an input of odd length `n`:
the result is that of the input without its last character, so it returns 1,
with `len == (n-1)/2`, exactly when the first `n-1` characters are all in
0-9A-F, and a following `bintohex` then yields the input without its last
character. -/
theorem hextobin_odd_length (h : List Char) (hstr : ∀ c ∈ h, c ≠ NUL)
    (hodd : h.length % 2 = 1) :
    hextobin true h = hextobin true h.dropLast
    ∧ ((hextobin true h).1 = 1 ↔ ∀ c ∈ h.dropLast, c ∈ valid_hex_chars)
    ∧ ((∀ c ∈ h.dropLast, c ∈ valid_hex_chars) →
        ∃ b : List Nat,
          hextobin true h = (1, some b, (((h.length - 1) / 2 : Nat) : Int))
          ∧ bintohex true (buffer_of b) (((h.length - 1) / 2 : Nat) : Int)
            = (1, some h.dropLast)) := by
  have hne : h ≠ [] := by
    intro h0
    rw [h0] at hodd
    simp at hodd
  have hsplit : h = h.dropLast ++ [h.getLast hne] := (List.dropLast_append_getLast hne).symm
  have hdl : h.dropLast.length = 2 * ((h.length - 1) / 2) := by
    rw [List.length_dropLast]; omega
  have hnul2 : ∀ c ∈ h.dropLast, c ≠ NUL := fun c hc => hstr c (List.mem_of_mem_dropLast hc)
  have hlen1 : strlen h / 2 = (h.length - 1) / 2 := by
    rw [strlen_of_no_NUL h hstr]; omega
  have hlen2 : strlen h.dropLast / 2 = (h.length - 1) / 2 := by
    rw [strlen_of_no_NUL _ hnul2, hdl]; omega
  have hloop : hextobin_loop ((h.length - 1) / 2) h []
      = hextobin_loop ((h.length - 1) / 2) h.dropLast [] := by
    have := hextobin_loop_prefix _ h.dropLast [h.getLast hne] [] hdl hnul2
    rw [← hsplit] at this
    exact this
  have heq : hextobin true h = hextobin true h.dropLast := by
    simp only [hextobin, hlen1, hlen2, hloop]
  have hgood : (∀ c ∈ h.dropLast, c ∈ valid_hex_chars) →
      ∃ b : List Nat,
        hextobin true h = (1, some b, (((h.length - 1) / 2 : Nat) : Int))
        ∧ bintohex true (buffer_of b) (((h.length - 1) / 2 : Nat) : Int)
          = (1, some h.dropLast) := by
    intro hv
    obtain ⟨bs, hb, hbl, hbs⟩ := valid_text_is_hex_text _ h.dropLast hdl hv
    refine ⟨bs, ?_, ?_⟩
    · rw [heq, hbs, hextobin_hex_text bs hb, hbl]
    · rw [bintohex_ok, ← hbl, bytes_of_buffer_of bs hb, hbs]
  refine ⟨heq, ⟨fun h1 => ?_, fun hv => ?_⟩, hgood⟩
  · by_contra hbad
    push_neg at hbad
    obtain ⟨c, hc, hcb⟩ := hbad
    have hl := hextobin_loop_invalid _ h.dropLast [] hdl hnul2 ⟨c, hc, hcb⟩
    rw [heq] at h1
    simp [hextobin, hlen2, hl] at h1
  · obtain ⟨b, hb, _⟩ := hgood hv
    rw [hb]

theorem hextobin_odd_length_witness :
    (∀ c ∈ "3081F".toList, c ≠ NUL) ∧ "3081F".toList.length % 2 = 1
    ∧ hextobin true "3081F".toList = hextobin true "3081".toList
    ∧ hextobin true "3081F".toList = (1, some [48, 129], 2) :=
  ⟨by decide, by decide,
   (hextobin_odd_length "3081F".toList (by decide) (by decide)).1.trans (by decide),
   (hextobin_odd_length "3081F".toList (by decide) (by decide)).1.trans (by decide)⟩

/-! ## Theorems: sum, max and min of arraymath -/

theorem sum_loop_spec {T : Type} [Add T] (mem : Nat → T) : ∀ (n fuel a : Nat) (s : T),
    n ≤ fuel →
    arraymath.sum_loop mem (a + n) fuel a s
      = some ((List.range' a n).foldl (fun s p => s + mem p) s) := by
  intro n
  induction n with
  | zero =>
    intro fuel a s _
    cases fuel <;> simp [arraymath.sum_loop]
  | succ n ih =>
    intro fuel a s h
    obtain ⟨f, rfl⟩ : ∃ f, fuel = f + 1 := ⟨fuel - 1, by omega⟩
    have hne : (a != a + (n + 1)) = true := by simp
    rw [arraymath.sum_loop, if_pos hne, show a + (n + 1) = (a + 1) + n by omega,
      ih f (a + 1) _ (by omega), List.range'_succ, List.foldl_cons]

theorem max_loop_spec {T : Type} [LinearOrder T] (mem : Nat → T) :
    ∀ (n fuel a : Nat) (m : T) (c : Nat), n ≤ fuel →
    arraymath.max_loop mem (a + n) fuel a m c
      = some ((List.range' a n).foldl (fun m p => Max.max m (mem p)) m, c + n) := by
  intro n
  induction n with
  | zero =>
    intro fuel a m c _
    cases fuel <;> simp [arraymath.max_loop]
  | succ n ih =>
    intro fuel a m c h
    obtain ⟨f, rfl⟩ : ∃ f, fuel = f + 1 := ⟨fuel - 1, by omega⟩
    have hne : (a != a + (n + 1)) = true := by simp
    have hmax : (if m < mem a then mem a else m) = Max.max m (mem a) := by
      rw [max_def]
      by_cases h1 : m < mem a
      · rw [if_pos h1, if_pos h1.le]
      · rw [if_neg h1]
        by_cases h2 : m ≤ mem a
        · rw [if_pos h2]; exact le_antisymm h2 (not_lt.1 h1)
        · rw [if_neg h2]
    rw [arraymath.max_loop, if_pos hne, show a + (n + 1) = (a + 1) + n by omega,
      ih f (a + 1) _ _ (by omega), List.range'_succ, List.foldl_cons, hmax]
    congr 2
    omega

theorem min_loop_spec {T : Type} [LinearOrder T] (mem : Nat → T) :
    ∀ (n fuel a : Nat) (m : T) (c : Nat), n ≤ fuel →
    arraymath.min_loop mem (a + n) fuel a m c
      = some ((List.range' a n).foldl (fun m p => Min.min m (mem p)) m, c + n) := by
  intro n
  induction n with
  | zero =>
    intro fuel a m c _
    cases fuel <;> simp [arraymath.min_loop]
  | succ n ih =>
    intro fuel a m c h
    obtain ⟨f, rfl⟩ : ∃ f, fuel = f + 1 := ⟨fuel - 1, by omega⟩
    have hne : (a != a + (n + 1)) = true := by simp
    have hmin : (if mem a < m then mem a else m) = Min.min m (mem a) := by
      rw [min_def]
      by_cases h1 : mem a < m
      · rw [if_pos h1, if_neg (not_le.2 h1)]
      · rw [if_neg h1, if_pos (not_lt.1 h1)]
    rw [arraymath.min_loop, if_pos hne, show a + (n + 1) = (a + 1) + n by omega,
      ih f (a + 1) _ _ (by omega), List.range'_succ, List.foldl_cons, hmin]
    congr 2
    omega

theorem range'_foldl {T : Type} (g : T → T → T) (f : Nat → T) (a n : Nat) (s : T) :
    (List.range' a n).foldl (fun s p => g s (f p)) s
      = (List.range n).foldl (fun s i => g s (f (a + i))) s := by
  rw [List.range'_eq_map_range, List.foldl_map]

theorem foldl_add_eq_sum {M : Type} [AddCommMonoid M] (f : Nat → M) (n : Nat) :
    (List.range n).foldl (fun s i => s + f i) 0 = ∑ i ∈ Finset.range n, f i := by
  induction n with
  | zero => rfl
  | succ n ih => rw [List.range_succ, List.foldl_append, ih, Finset.sum_range_succ]; rfl

theorem foldl_congr_mem {T : Type} (g : T → T → T) (f1 f2 : Nat → T) :
    ∀ (l : List Nat) (s : T), (∀ i ∈ l, f1 i = f2 i) →
      l.foldl (fun s i => g s (f1 i)) s = l.foldl (fun s i => g s (f2 i)) s := by
  intro l
  induction l with
  | nil => intro s _; rfl
  | cons i l ih =>
    intro s h
    rw [List.foldl_cons, List.foldl_cons, h i (List.mem_cons_self _ _),
      ih _ (fun j hj => h j (List.mem_cons_of_mem _ hj))]

theorem foldl_max_spec {T : Type} [LinearOrder T] (f : Nat → T) : ∀ (l : List Nat) (m : T),
    m ≤ l.foldl (fun m i => Max.max m (f i)) m
    ∧ (∀ i ∈ l, f i ≤ l.foldl (fun m i => Max.max m (f i)) m)
    ∧ (l.foldl (fun m i => Max.max m (f i)) m = m
        ∨ ∃ i ∈ l, l.foldl (fun m i => Max.max m (f i)) m = f i) := by
  intro l
  induction l with
  | nil => intro m; simp
  | cons k l ih =>
    intro m
    obtain ⟨h1, h2, h3⟩ := ih (Max.max m (f k))
    rw [List.foldl_cons]
    refine ⟨le_trans (le_max_left _ _) h1, ?_, ?_⟩
    · intro i hi
      rcases List.mem_cons.1 hi with rfl | hi
      · exact le_trans (le_max_right _ _) h1
      · exact h2 i hi
    · rcases h3 with h3 | ⟨i, hi, h3⟩
      · rcases max_choice m (f k) with hc | hc
        · left; rw [h3, hc]
        · right; exact ⟨k, List.mem_cons_self _ _, by rw [h3, hc]⟩
      · right; exact ⟨i, List.mem_cons_of_mem _ hi, h3⟩

theorem foldl_min_spec {T : Type} [LinearOrder T] (f : Nat → T) : ∀ (l : List Nat) (m : T),
    l.foldl (fun m i => Min.min m (f i)) m ≤ m
    ∧ (∀ i ∈ l, l.foldl (fun m i => Min.min m (f i)) m ≤ f i)
    ∧ (l.foldl (fun m i => Min.min m (f i)) m = m
        ∨ ∃ i ∈ l, l.foldl (fun m i => Min.min m (f i)) m = f i) := by
  intro l
  induction l with
  | nil => intro m; simp
  | cons k l ih =>
    intro m
    obtain ⟨h1, h2, h3⟩ := ih (Min.min m (f k))
    rw [List.foldl_cons]
    refine ⟨le_trans h1 (min_le_left _ _), ?_, ?_⟩
    · intro i hi
      rcases List.mem_cons.1 hi with rfl | hi
      · exact le_trans h1 (min_le_right _ _)
      · exact h2 i hi
    · rcases h3 with h3 | ⟨i, hi, h3⟩
      · rcases min_choice m (f k) with hc | hc
        · left; rw [h3, hc]
        · right; exact ⟨k, List.mem_cons_self _ _, by rw [h3, hc]⟩
      · right; exact ⟨i, List.mem_cons_of_mem _ hi, h3⟩

theorem sum_eq_fold {T : Type} [Zero T] [Add T] (mem : Nat → T) (data n : Nat) :
    arraymath.sum mem data (data + n)
      = some ((List.range n).foldl (fun s i => s + mem (data + i)) 0) := by
  rw [arraymath.sum, sum_loop_spec mem n _ data 0 (by omega),
    range'_foldl (fun s x => s + x) mem]

/-- C31: `sum(A)` over a 1-D array whose elements lie at `[data(), end())` is
the sum of all its elements, accumulated from 0 in index order in a single
pass: it reads the elements of the array only, and for an array of size 0 it
returns 0 without reading any element. -/
theorem sum_in_index_order :
    (∀ (T : Type) [Zero T] [Add T] (mem : Nat → T) (data n : Nat),
        arraymath.sum mem data (data + n)
          = some ((List.range n).foldl (fun s i => s + mem (data + i)) 0)
        ∧ ∀ mem1 : Nat → T, (∀ i, i < n → mem1 (data + i) = mem (data + i)) →
            arraymath.sum mem1 data (data + n) = arraymath.sum mem data (data + n))
    ∧ (∀ (T : Type) [Zero T] [Add T] (mem : Nat → T) (data : Nat),
        arraymath.sum mem data data = some 0)
    ∧ ∀ (M : Type) [AddCommMonoid M] (mem : Nat → M) (data n : Nat),
        arraymath.sum mem data (data + n) = some (∑ i ∈ Finset.range n, mem (data + i)) := by
  refine ⟨fun T _ _ mem data n => ⟨sum_eq_fold mem data n, fun mem1 h => ?_⟩,
    fun T _ _ mem data => ?_, fun M _ mem data n => ?_⟩
  · rw [sum_eq_fold, sum_eq_fold]
    congr 1
    exact foldl_congr_mem (fun s x => s + x) (fun i => mem1 (data + i))
      (fun i => mem (data + i)) _ _ (fun i hi => h i (List.mem_range.1 hi))
  · have := sum_eq_fold mem data 0
    simpa using this
  · rw [sum_eq_fold, foldl_add_eq_sum (fun i => mem (data + i))]

theorem sum_in_index_order_witness :
    arraymath.sum sample_memory 10 (10 + 3) = some 2
    ∧ arraymath.sum sample_memory 10 10 = some 0 :=
  ⟨((sum_in_index_order.1 Int sample_memory 10 3).1).trans (by decide),
   sum_in_index_order.2.1 Int sample_memory 10⟩

/-- C32: for every non-empty 1-D array over a totally ordered element type,
`max(A)` is an element of the array that is `>=` every element and `min(A)` is
an element of the array that is `<=` every element; each loop ends after
exactly `size - 1` comparisons. -/
theorem max_min_of_elements {T : Type} [LinearOrder T] (mem : Nat → T) (data n : Nat)
    (hn : 0 < n) :
    (∃ m : T, arraymath.max mem data (data + n) = some (m, n - 1)
        ∧ (∃ i, i < n ∧ m = mem (data + i)) ∧ ∀ i, i < n → mem (data + i) ≤ m)
    ∧ ∃ m : T, arraymath.min mem data (data + n) = some (m, n - 1)
        ∧ (∃ i, i < n ∧ m = mem (data + i)) ∧ ∀ i, i < n → m ≤ mem (data + i) := by
  obtain ⟨k, rfl⟩ : ∃ k, n = k + 1 := ⟨n - 1, by omega⟩
  have hend : data + (k + 1) = (data + 1) + k := by omega
  have hidx : ∀ i, i < k + 1 → i = 0 ∨ ∃ j, j < k ∧ i = 1 + j := by
    intro i hi
    cases i with
    | zero => exact Or.inl rfl
    | succ j => exact Or.inr ⟨j, by omega, by omega⟩
  constructor
  · obtain ⟨h1, h2, h3⟩ := foldl_max_spec (fun i => mem (data + 1 + i)) (List.range k) (mem data)
    refine ⟨(List.range k).foldl (fun m i => Max.max m (mem (data + 1 + i))) (mem data),
      ?_, ?_, ?_⟩
    · rw [arraymath.max, hend, max_loop_spec mem k _ (data + 1) _ 0 (by omega),
        range'_foldl (fun m x => Max.max m x) mem]
      simp
    · rcases h3 with h3 | ⟨i, hi, h3⟩
      · exact ⟨0, by omega, by rw [h3]; rfl⟩
      · exact ⟨1 + i, by have := List.mem_range.1 hi; omega, by
          rw [h3, show data + 1 + i = data + (1 + i) by omega]⟩
    · intro i hi
      rcases hidx i hi with rfl | ⟨j, hj, rfl⟩
      · exact h1
      · have := h2 j (List.mem_range.2 hj)
        simp only [] at this
        rwa [show data + 1 + j = data + (1 + j) by omega] at this
  · obtain ⟨h1, h2, h3⟩ := foldl_min_spec (fun i => mem (data + 1 + i)) (List.range k) (mem data)
    refine ⟨(List.range k).foldl (fun m i => Min.min m (mem (data + 1 + i))) (mem data),
      ?_, ?_, ?_⟩
    · rw [arraymath.min, hend, min_loop_spec mem k _ (data + 1) _ 0 (by omega),
        range'_foldl (fun m x => Min.min m x) mem]
      simp
    · rcases h3 with h3 | ⟨i, hi, h3⟩
      · exact ⟨0, by omega, by rw [h3]; rfl⟩
      · exact ⟨1 + i, by have := List.mem_range.1 hi; omega, by
          rw [h3, show data + 1 + i = data + (1 + i) by omega]⟩
    · intro i hi
      rcases hidx i hi with rfl | ⟨j, hj, rfl⟩
      · exact h1
      · have := h2 j (List.mem_range.2 hj)
        simp only [] at this
        rwa [show data + 1 + j = data + (1 + j) by omega] at this

theorem max_min_of_elements_witness :
    0 < 4
    ∧ arraymath.max sample_memory 10 (10 + 4) = some (4, 3)
    ∧ arraymath.min sample_memory 10 (10 + 4) = some (0, 3)
    ∧ ((∃ m : Int, arraymath.max sample_memory 10 (10 + 4) = some (m, 4 - 1)
          ∧ (∃ i, i < 4 ∧ m = sample_memory (10 + i))
          ∧ ∀ i, i < 4 → sample_memory (10 + i) ≤ m)
      ∧ ∃ m : Int, arraymath.min sample_memory 10 (10 + 4) = some (m, 4 - 1)
          ∧ (∃ i, i < 4 ∧ m = sample_memory (10 + i))
          ∧ ∀ i, i < 4 → m ≤ sample_memory (10 + i)) :=
  ⟨by decide, by decide, by decide, max_min_of_elements sample_memory 10 4 (by decide)⟩

/-! ## Theorems: FloatAlmostEqual2sComplement -/

/-- When `a` is a NaN the comparison is false. -/
theorem first_nan_not_equal (a b : Nat) (maxUlps : Int) (ha : isnan a = true) :
    FloatAlmostEqual2sComplement a b maxUlps = false := by
  simp [FloatAlmostEqual2sComplement, ha]

/-- C33: the comparison of +infinity with the NaN whose pattern follows that of
+infinity, with `maxUlps = 1`, returns true although `b` is a NaN: only `a` is
tested with `isnan`. With the quiet NaN of the sanity check the comparison is
false. -/
theorem infinity_equals_nan :
    isnan float_infinity = false ∧ isnan float_nan_after_infinity = true
    ∧ FloatAlmostEqual2sComplement float_infinity float_nan_after_infinity 1 = true
    ∧ FloatAlmostEqual2sComplement float_infinity float_quiet_NaN 1 = false := by
  decide

/-! ## Theorems: TrackingAllocator -/

theorem increase_exact (v : TrackingAllocatorValues) (size : Nat)
    (h : v.current + size < SIZE_MOD) :
    TrackingAllocator.increase v size
      = { current := v.current + size, peak := Max.max v.peak (v.current + size) } := by
  have hs : to_size_t size = size := Nat.mod_eq_of_lt (by omega)
  have hc : (v.current + size) % SIZE_MOD = v.current + size := Nat.mod_eq_of_lt h
  simp only [TrackingAllocator.increase, hs, hc]
  by_cases hp : v.current + size > v.peak
  · rw [if_pos hp, max_eq_right (le_of_lt hp)]
  · rw [if_neg hp, max_eq_left (not_lt.1 hp)]

theorem decrease_exact (v : TrackingAllocatorValues) (size : Nat) (h : size ≤ v.current)
    (hc : v.current < SIZE_MOD) :
    TrackingAllocator.decrease v size = { current := v.current - size, peak := v.peak } := by
  have hs : to_size_t size = size := Nat.mod_eq_of_lt (by omega)
  have e : (v.current + (SIZE_MOD - size)) % SIZE_MOD = v.current - size := by
    have h2 : v.current + (SIZE_MOD - size) = (v.current - size) + SIZE_MOD := by omega
    rw [h2, Nat.add_mod_right]
    exact Nat.mod_eq_of_lt (by omega)
  simp only [TrackingAllocator.decrease, hs, e]

/-- One call on an initialised state, in exact arithmetic. -/
theorem allocator_step_exact (v : TrackingAllocatorValues) (c : allocator_call)
    (hr : released_by c ≤ v.current) (ha : v.current + acquired_by c < SIZE_MOD)
    (hp : v.current ≤ v.peak) :
    allocator_step (some v) c
      = Except.ok (some
          { current := v.current + acquired_by c - released_by c,
            peak := Max.max v.peak (v.current + acquired_by c - released_by c) }) := by
  cases c with
  | allocate size ok =>
    cases ok with
    | true =>
      simp only [acquired_by, released_by, if_true] at ha ⊢
      simp only [allocator_step, TrackingAllocator.allocate, if_true, increase_exact v size ha]
      rfl
    | false =>
      simp only [allocator_step, TrackingAllocator.allocate, acquired_by, released_by]
      simp [max_eq_left hp]
  | release size =>
    simp only [acquired_by, released_by] at hr ha ⊢
    have hpk : Max.max v.peak (v.current + 0 - size) = v.peak :=
      max_eq_left (by omega)
    simp only [allocator_step, TrackingAllocator.release, n88_assert, Option.isSome_some, if_true,
      decrease_exact v size hr (by omega), hpk]
    rfl
  | external_increase size =>
    simp only [acquired_by, released_by] at ha ⊢
    simp only [allocator_step, TrackingAllocator.external_increase, increase_exact v size ha]
    rfl
  | external_decrease size =>
    simp only [acquired_by, released_by] at hr ha ⊢
    have hpk : Max.max v.peak (v.current + 0 - size) = v.peak :=
      max_eq_left (by omega)
    simp only [allocator_step, TrackingAllocator.external_decrease,
      decrease_exact v size hr (by omega), hpk]
    rfl

/-- A sequence of calls on an initialised state, in exact arithmetic. -/
theorem allocator_run_exact : ∀ (cs : List allocator_call) (v : TrackingAllocatorValues),
    admissible v.current cs → v.current ≤ v.peak →
    allocator_run (some v) cs
      = Except.ok (some { current := count_after v.current cs,
                          peak := peak_after v.peak v.current cs }) := by
  intro cs
  induction cs with
  | nil => intro v _ _; rfl
  | cons c cs ih =>
    intro v h hp
    obtain ⟨hr, ha, hrest⟩ := h
    rw [allocator_run, allocator_step_exact v c hr ha hp]
    simp only []
    rw [ih _ hrest (le_max_right _ _)]
    rfl

theorem count_after_balance : ∀ (cs : List allocator_call) (cur : Nat), admissible cur cs →
    count_after cur cs + (cs.map released_by).sum = cur + (cs.map acquired_by).sum := by
  intro cs
  induction cs with
  | nil => intro cur _; simp [count_after]
  | cons c cs ih =>
    intro cur h
    obtain ⟨hr, _, hrest⟩ := h
    have := ih _ hrest
    simp only [count_after, List.foldl_cons, List.map_cons, List.sum_cons] at this ⊢
    omega

theorem peak_after_spec : ∀ (cs : List allocator_call) (pk cur : Nat),
    pk ≤ peak_after pk cur cs
    ∧ (∀ k, 1 ≤ k → k ≤ cs.length → count_after cur (cs.take k) ≤ peak_after pk cur cs)
    ∧ (peak_after pk cur cs = pk
        ∨ ∃ k, 1 ≤ k ∧ k ≤ cs.length ∧ peak_after pk cur cs = count_after cur (cs.take k)) := by
  intro cs
  induction cs with
  | nil =>
    intro pk cur
    refine ⟨le_refl _, fun k h1 h2 => ?_, Or.inl rfl⟩
    simp at h2; omega
  | cons c cs ih =>
    intro pk cur
    obtain ⟨h1, h2, h3⟩ := ih (Max.max pk (cur + acquired_by c - released_by c))
      (cur + acquired_by c - released_by c)
    rw [peak_after]
    refine ⟨le_trans (le_max_left _ _) h1, fun k hk1 hk2 => ?_, ?_⟩
    · obtain ⟨j, rfl⟩ : ∃ j, k = j + 1 := ⟨k - 1, by omega⟩
      rw [List.take_succ_cons, count_after, List.foldl_cons]
      cases j with
      | zero => exact le_trans (le_max_right _ _) h1
      | succ j => exact h2 (j + 1) (by omega) (by simpa using hk2)
    · rcases h3 with h3 | ⟨k, hk1, hk2, h3⟩
      · rcases max_choice pk (cur + acquired_by c - released_by c) with hc | hc
        · left; rw [h3, hc]
        · right
          exact ⟨1, le_refl _, by simp, by rw [h3, hc]; simp [count_after]⟩
      · right
        exact ⟨k + 1, by omega, by simpa using hk2, by
          rw [h3, List.take_succ_cons, count_after, count_after, List.foldl_cons]⟩

/-- C38: the allocation counter. Starting from a thread with no prior
allocation, after a sequence of calls that begins with a successful `allocate`
and in which no release or decrease exceeds the current count and no count
overflows `size_t`: `get_current_allocated()` is the total of the bytes
acquired minus the total of the bytes released; `get_peak_allocated()` is the
largest value the count has had after a call of the sequence, hence at least
the current count. A release or a decrease never changes the peak, and an
`allocate` whose `malloc` fails changes neither counter. -/
theorem allocator_counters (n0 : Nat) (cs : List allocator_call)
    (h : admissible 0 (allocator_call.allocate n0 true :: cs)) :
    (∃ s : TrackingAllocator.State,
      allocator_run none (allocator_call.allocate n0 true :: cs) = Except.ok s
      ∧ TrackingAllocator.get_current_allocated s
          = ((allocator_call.allocate n0 true :: cs).map acquired_by).sum
            - ((allocator_call.allocate n0 true :: cs).map released_by).sum
      ∧ TrackingAllocator.get_current_allocated s
          = count_after 0 (allocator_call.allocate n0 true :: cs)
      ∧ (∀ k, 1 ≤ k → k ≤ cs.length + 1 →
          count_after 0 ((allocator_call.allocate n0 true :: cs).take k)
            ≤ TrackingAllocator.get_peak_allocated s)
      ∧ (∃ k, 1 ≤ k ∧ k ≤ cs.length + 1
          ∧ TrackingAllocator.get_peak_allocated s
            = count_after 0 ((allocator_call.allocate n0 true :: cs).take k))
      ∧ TrackingAllocator.get_current_allocated s ≤ TrackingAllocator.get_peak_allocated s)
    ∧ (∀ (s s1 : TrackingAllocator.State) (n : Nat),
        (TrackingAllocator.release s n = Except.ok s1
          ∨ TrackingAllocator.external_decrease s n = Except.ok s1) →
        TrackingAllocator.get_peak_allocated s1 = TrackingAllocator.get_peak_allocated s)
    ∧ ∀ (s : TrackingAllocator.State) (n : Nat), TrackingAllocator.allocate false s n = s := by
  refine ⟨?_, ?_, fun s n => rfl⟩
  · have hbal := count_after_balance _ 0 h
    obtain ⟨_, ha, hrest⟩ := h
    simp only [acquired_by, released_by, if_true, Nat.zero_add, Nat.sub_zero] at ha hrest
    have hfirst : allocator_step none (allocator_call.allocate n0 true)
        = Except.ok (some { current := n0, peak := n0 }) := by
      simp only [allocator_step, TrackingAllocator.allocate, if_true]
      rw [increase_exact _ _ (by simpa using ha)]
      simp
    have hrun := allocator_run_exact cs { current := n0, peak := n0 } hrest (le_refl _)
    have hcount : count_after 0 (allocator_call.allocate n0 true :: cs) = count_after n0 cs := by
      simp [count_after, acquired_by, released_by]
    have hpeak : peak_after 0 0 (allocator_call.allocate n0 true :: cs) = peak_after n0 n0 cs := by
      simp [peak_after, acquired_by, released_by]
    obtain ⟨hp1, hp2, hp3⟩ := peak_after_spec (allocator_call.allocate n0 true :: cs) 0 0
    rw [hpeak] at hp1 hp2 hp3
    refine ⟨some { current := count_after n0 cs, peak := peak_after n0 n0 cs }, ?_, ?_, ?_,
      ?_, ?_, ?_⟩
    · rw [allocator_run, hfirst]
      exact hrun
    · simp only [TrackingAllocator.get_current_allocated]
      rw [← hcount]
      omega
    · simp only [TrackingAllocator.get_current_allocated]
      exact hcount.symm
    · intro k hk1 hk2
      exact hp2 k hk1 (by simpa using hk2)
    · rcases hp3 with hp3 | ⟨k, hk1, hk2, hp3⟩
      · refine ⟨1, le_refl _, by omega, ?_⟩
        have h1 := hp2 1 (le_refl _) (by simp)
        simp only [TrackingAllocator.get_peak_allocated]
        omega
      · exact ⟨k, hk1, by simpa using hk2, hp3⟩
    · have hlast := hp2 (cs.length + 1) (by omega) (by simp)
      rw [show (allocator_call.allocate n0 true :: cs).take (cs.length + 1)
        = allocator_call.allocate n0 true :: cs by simp, hcount] at hlast
      exact hlast
  · intro s s1 n hs
    cases s with
    | none =>
      rcases hs with hs | hs
      · simp [TrackingAllocator.release, n88_assert] at hs
      · simp [TrackingAllocator.external_decrease] at hs
    | some v =>
      rcases hs with hs | hs
      · simp only [TrackingAllocator.release, n88_assert, Option.isSome_some, if_true,
          Except.ok.injEq] at hs
        rw [← hs]; rfl
      · simp only [TrackingAllocator.external_decrease, Except.ok.injEq] at hs
        rw [← hs]; rfl

theorem allocator_counters_witness :
    admissible 0 (allocator_call.allocate 100 true :: sample_calls)
    ∧ allocator_run none (allocator_call.allocate 100 true :: sample_calls)
        = Except.ok (some { current := 20, peak := 150 })
    ∧ ∃ s : TrackingAllocator.State,
        allocator_run none (allocator_call.allocate 100 true :: sample_calls) = Except.ok s
        ∧ TrackingAllocator.get_current_allocated s
            = ((allocator_call.allocate 100 true :: sample_calls).map acquired_by).sum
              - ((allocator_call.allocate 100 true :: sample_calls).map released_by).sum :=
  have hadm : admissible 0 (allocator_call.allocate 100 true :: sample_calls) := by
    simp [admissible, sample_calls, acquired_by, released_by, SIZE_MOD]
  ⟨hadm, rfl, (allocator_counters 100 sample_calls hadm).1.imp (fun _ hs => ⟨hs.1, hs.2.1⟩)⟩

end n88
